import Mathlib

/-!
Timbl: the k-best neighbour accumulator (`BestArray`)

A shallow embedding of `src/src/BestArray.cxx`, of the option table of
`include/timbl/Options.h`, of the counters of `include/timbl/Statistics.h`,
and of the parts of `include/timbl/Instance.h` they rely on.

* `double` distances are embedded as exact rationals (`ℚ`); the two constants
  `Epsilon` (from `timbl/Common.h`) and `DBL_MAX` (from `<cfloat>`) are
  parameters of every definition that uses them.
* `init` evaluates the seed `(DBL_MAX - numN) + i` in exact arithmetic, which
  gives distinct seeds; `initDouble` evaluates it with the rounding of the
  `double` operations, which gives `DBL_MAX` for every seed (`seedDouble_eq`).
* A `std::vector<BestRec*>` holding pairwise distinct objects is embedded as a
  `List BestRec`; an access outside the vector is undefined behaviour in the
  source and yields `none` here.
* `std::map<size_t, Vfield*>` is embedded as an association list kept in
  ascending key order by the operations.
* An `unsigned int` is a natural number below `2^32`, with `% 2^32` after
  every increment and sum.
* Text is a `String`; the conversions to text used by `toXML` and the string
  functions of the library ticcutils used by `Options.h` are parameters
  (`Formatting`, `TiCC`).
-/

namespace Timbl

/-! ## Instance.h: `Vfield` and `ValueDistribution` -/

/-- One entry of a distribution: `Vfield::frequency` and `Vfield::weight`
(the `value` pointer is identified with the key of the entry). -/
structure Vfield where
  frequency : Nat
  weight : ℚ
  deriving DecidableEq, Repr

/-- The method `Vfield::AddFreq` of `Instance.h`, generalised to a separate
weight increment: `frequency += f; weight += w`. -/
def Vfield.add (v : Vfield) (f : Nat) (w : ℚ) : Vfield :=
  { frequency := v.frequency + f, weight := v.weight + w }

/-- The class `ValueDistribution`: `total_items` and the map `distribution`
from target index to `Vfield`. -/
structure ValueDistribution where
  total_items : Nat
  distribution : List (Nat × Vfield)
  deriving DecidableEq, Repr

namespace ValueDistribution

/-- The default constructor `ValueDistribution()`; also the state after
`clear()`: no entries, `total_items == 0`. -/
def clear : ValueDistribution :=
  { total_items := 0, distribution := [] }

/-- The inline method `ZeroDist()`: `total_items == 0`. -/
def ZeroDist (d : ValueDistribution) : Bool :=
  d.total_items == 0

/-- The inline method `totalSize()`. -/
def totalSize (d : ValueDistribution) : Nat :=
  d.total_items

/-- The type invariant of `std::map`: keys strictly ascending. -/
def WellFormed (d : ValueDistribution) : Prop :=
  (d.distribution.map Prod.fst).Pairwise (· < ·)

instance (d : ValueDistribution) : Decidable d.WellFormed := by
  unfold WellFormed; infer_instance

/-- Modelled from the spec: one step of `ValueDistribution::Merge`
(`Instance.cxx` is not among the sources). The entry for `key` has the
frequency `f` and weight `w` added to it; a missing entry is created at its
place in the key order. -/
def addEntry : List (Nat × Vfield) → Nat → Vfield → List (Nat × Vfield)
  | [], key, v => [(key, v)]
  | (k, e) :: rest, key, v =>
    if key < k then (key, v) :: (k, e) :: rest
    else if key = k then (k, e.add v.frequency v.weight) :: rest
    else (k, e) :: addEntry rest key v

/-- Modelled from the spec: `ValueDistribution::Merge` (`Instance.cxx` is not
among the sources): "add frequencies and weights; creates missing entries",
keeping `total_items` equal to the sum of the frequencies. -/
def Merge (d other : ValueDistribution) : ValueDistribution :=
  { total_items := d.total_items + other.total_items
    distribution := other.distribution.foldl (fun acc e => addEntry acc e.1 e.2) d.distribution }

/-- Modelled from the spec: `ValueDistribution::to_VD_Copy` (`Instance.cxx` is
not among the sources): "a copy of the distribution". -/
def to_VD_Copy (d : ValueDistribution) : ValueDistribution := d

end ValueDistribution

/-! ## BestArray.cxx: `BestRec` and `BestArray` -/

/-- The class `BestRec`: one bucket of the accumulator. -/
structure BestRec where
  bestDistance : ℚ
  aggregateDist : ValueDistribution
  bestInstances : List String
  bestDistributions : List ValueDistribution
  deriving DecidableEq, Repr

/-- The constructor `BestRec::BestRec()`: `bestDistance( 0.0 )`, everything
else empty. -/
def BestRec.new : BestRec :=
  { bestDistance := 0
    aggregateDist := ValueDistribution.clear
    bestInstances := []
    bestDistributions := [] }

/-- The class `BestArray`: its fields as used by `BestArray.cxx`. -/
structure BestArray where
  _storeInstances : Bool
  _showDi : Bool
  _showDb : Bool
  maxBests : Nat
  size : Nat
  bestArray : List BestRec
  deriving DecidableEq, Repr

/-- The state of a newly constructed `BestArray`: the vector has length 0
(source comment in `init`: "initialy it has 0 length"). -/
def BestArray.fresh : BestArray :=
  { _storeInstances := false, _showDi := false, _showDb := false
    maxBests := 0, size := 0, bestArray := [] }

/-- The body of the second loop of `BestArray::init` for bucket `i`: seed the
distance with `(DBL_MAX - numN) + i`, drop the retained neighbours when there
are any, and clear the aggregate. The seed is evaluated in exact arithmetic
here; `initRecDouble` evaluates it as the `double` operations of the source
do. -/
def initRec (DBL_MAX : ℚ) (numN i : Nat) (b : BestRec) : BestRec :=
  { bestDistance := (DBL_MAX - (numN : ℚ)) + (i : ℚ)
    bestInstances := if b.bestInstances.isEmpty then b.bestInstances else []
    bestDistributions := if b.bestInstances.isEmpty then b.bestDistributions else []
    aggregateDist := ValueDistribution.clear }

/-- The second loop of `BestArray::init`, `for ( i = 0; i < size; ++i )`,
started at index `i` with `n = size - i` iterations to go. -/
def initLoop (DBL_MAX : ℚ) (numN : Nat) : Nat → Nat → List BestRec → Option (List BestRec)
  | 0, _, arr => some arr
  | n + 1, i, arr =>
    match arr[i]? with
    | none => none
    | some b => initLoop DBL_MAX numN n (i + 1) (arr.set i (initRec DBL_MAX numN i b))

/-- The method `BestArray::init( numN, maxB, storeI, showDi, showDb )`. -/
def BestArray.init (DBL_MAX : ℚ) (s : BestArray) (numN maxB : Nat)
    (storeI showDi showDb : Bool) : Option BestArray :=
  let S := s.size
  let arr := if S < numN then s.bestArray ++ List.replicate (numN - S) BestRec.new
             else s.bestArray
  match initLoop DBL_MAX numN numN 0 arr with
  | none => none
  | some arr1 =>
    some { _storeInstances := storeI, _showDi := showDi, _showDb := showDb
           maxBests := maxB, size := numN, bestArray := arr1 }

/-- The tie branch of `addResult` applied to the bucket `best`: merge the
distribution, and retain the neighbour when instances are stored and the
bucket holds fewer than `maxBests` of them. -/
def tieRec (s : BestArray) (Distr : ValueDistribution) (neighbor : String)
    (best : BestRec) : BestRec :=
  if s._storeInstances && decide (best.bestInstances.length < s.maxBests) then
    { best with
      aggregateDist := best.aggregateDist.Merge Distr
      bestInstances := best.bestInstances ++ [neighbor]
      bestDistributions := best.bestDistributions ++ [Distr.to_VD_Copy] }
  else
    { best with aggregateDist := best.aggregateDist.Merge Distr }

/-- The common body of the replace and insert branches of `addResult`: the
reused bucket object `r` is overwritten with the candidate. -/
def fillRec (s : BestArray) (Distance : ℚ) (Distr : ValueDistribution)
    (neighbor : String) (r : BestRec) : BestRec :=
  { bestDistance := Distance
    bestInstances := if s._storeInstances then [neighbor] else r.bestInstances
    bestDistributions :=
      if s._storeInstances then [Distr.to_VD_Copy] else r.bestDistributions
    aggregateDist := ValueDistribution.clear.Merge Distr }

/-- The shift loop of the insert branch,
`for ( i = size - 1; i > k; i-- ) bestArray[i] = bestArray[i-1];`,
started at index `i`. It only runs after `bestArray[size-1]` has been read, so
every index it touches is at most `size - 1`. -/
def shiftLoop (k : Nat) : Nat → List BestRec → List BestRec
  | 0, arr => arr
  | i + 1, arr =>
    if k < i + 1 then shiftLoop k i (arr.set (i + 1) (arr.getD i BestRec.new))
    else arr

/-- The scan loop of `BestArray::addResult`, `for ( k = 0; k < size; ++k )`,
started at index `k` with `n = size - k` iterations to go. -/
def addResultLoop (Epsilon : ℚ) (s : BestArray) (Distance : ℚ)
    (Distr : ValueDistribution) (neighbor : String) : Nat → Nat → Option BestArray
  | 0, _ => some s
  | n + 1, k =>
    match s.bestArray[k]? with
    | none => none
    | some best =>
      if |Distance - best.bestDistance| < Epsilon then
        some { s with bestArray := s.bestArray.set k (tieRec s Distr neighbor best) }
      else if Distance < best.bestDistance then
        if k = s.size - 1 then
          some { s with
            bestArray := s.bestArray.set k (fillRec s Distance Distr neighbor best) }
        else
          match s.bestArray[s.size - 1]? with
          | none => none
          | some keep =>
            some { s with
              bestArray := (shiftLoop k (s.size - 1) s.bestArray).set k
                (fillRec s Distance Distr neighbor keep) }
      else addResultLoop Epsilon s Distance Distr neighbor n (k + 1)

/-- The method `BestArray::addResult( Distance, Distr, neighbor )`: the value
returned and the state afterwards. With `size == 0` the final
`bestArray[size-1]` has a wrapped index outside the vector. -/
def BestArray.addResult (Epsilon : ℚ) (s : BestArray) (Distance : ℚ)
    (Distr : ValueDistribution) (neighbor : String) : Option (ℚ × BestArray) :=
  match addResultLoop Epsilon s Distance Distr neighbor s.size 0 with
  | none => none
  | some s1 =>
    if s1.size = 0 then none
    else
      match s1.bestArray[s1.size - 1]? with
      | none => none
      | some last => some (last.bestDistance, s1)

/-- One candidate passed to `addResult`: distance, distribution, label. -/
structure Candidate where
  Distance : ℚ
  Distr : ValueDistribution
  neighbor : String
  deriving DecidableEq, Repr

/-- A sequence of `addResult` calls: the final state and the values returned,
in call order. -/
def BestArray.addResults (Epsilon : ℚ) : BestArray → List Candidate →
    Option (List ℚ × BestArray)
  | s, [] => some ([], s)
  | s, c :: cs =>
    match s.addResult Epsilon c.Distance c.Distr c.neighbor with
    | none => none
    | some (r, s1) =>
      match BestArray.addResults Epsilon s1 cs with
      | none => none
      | some (rs, s2) => some (r :: rs, s2)

/-- The buckets in use: the first `size` entries of the vector. -/
def BestArray.buckets (s : BestArray) : List BestRec :=
  s.bestArray.take s.size

/-- One scan of `addResult` over the buckets in use, written as a recursion
over the list of buckets; `addResultLoop_eq` shows that the index loop of the
source computes exactly this. -/
def stepList (Epsilon : ℚ) (s : BestArray) (Distance : ℚ) (Distr : ValueDistribution)
    (neighbor : String) : List BestRec → List BestRec
  | [] => []
  | b :: t =>
    if |Distance - b.bestDistance| < Epsilon then tieRec s Distr neighbor b :: t
    else if Distance < b.bestDistance then
      fillRec s Distance Distr neighbor ((b :: t).getLastD b) :: (b :: t).dropLast
    else b :: stepList Epsilon s Distance Distr neighbor t

/-- What the aggregation of a bucket consists of: its distance and its
aggregated distribution. -/
def BestRec.view (b : BestRec) : ℚ × ValueDistribution :=
  (b.bestDistance, b.aggregateDist)

/-- The scan of `addResult` restricted to distances and aggregates;
`stepList_view` shows that `stepList` acts like this on the views. -/
def stepView (Epsilon : ℚ) (Distance : ℚ) (Distr : ValueDistribution) :
    List (ℚ × ValueDistribution) → List (ℚ × ValueDistribution)
  | [] => []
  | b :: t =>
    if |Distance - b.1| < Epsilon then (b.1, b.2.Merge Distr) :: t
    else if Distance < b.1 then
      (Distance, ValueDistribution.clear.Merge Distr) :: (b :: t).dropLast
    else b :: stepView Epsilon Distance Distr t

/-- The states of a `BestArray` that occur in a run: `init` on any object,
followed by any number of `addResult` calls (and possibly further `init`s). -/
inductive Reachable (Epsilon DBL_MAX : ℚ) : BestArray → Prop
  | init (p : BestArray) (numN maxB : Nat) (storeI showDi showDb : Bool) (s : BestArray) :
      p.init DBL_MAX numN maxB storeI showDi showDb = some s → Reachable Epsilon DBL_MAX s
  | addResult (s : BestArray) (Distance : ℚ) (Distr : ValueDistribution) (neighbor : String)
      (r : ℚ) (s1 : BestArray) :
      Reachable Epsilon DBL_MAX s → s.addResult Epsilon Distance Distr neighbor = some (r, s1) →
      Reachable Epsilon DBL_MAX s1

/-- The distances of the buckets in use, in bucket order. -/
def BestArray.distances (s : BestArray) : List ℚ :=
  s.buckets.map BestRec.bestDistance

/-- The views of the buckets right after `init` with `k` buckets: the seeds
`(DBL_MAX - k) + i` with empty aggregates. -/
def sentinels (DBL_MAX : ℚ) (k : Nat) : List (ℚ × ValueDistribution) :=
  (List.range k).map fun (i : Nat) => ((DBL_MAX - (k : ℚ)) + (i : ℚ), ValueDistribution.clear)

/-- The aggregate the spec asks for at distance `d`: the `Merge`, in sequence
order, of the distributions of all candidates of the sequence at distance `d`. -/
def aggregateOf (cands : List Candidate) (d : ℚ) : ValueDistribution :=
  ((cands.filter fun c => decide (c.Distance = d)).map Candidate.Distr).foldl
    ValueDistribution.Merge ValueDistribution.clear

/-- Insertion of a distance into an ascending list without duplicates. -/
def insertDistinct (d : ℚ) : List ℚ → List ℚ
  | [] => [d]
  | x :: xs =>
    if d = x then x :: xs
    else if d < x then d :: x :: xs
    else x :: insertDistinct d xs

/-- The distinct distances of a candidate sequence in ascending order. -/
def distancesOf (cands : List Candidate) : List ℚ :=
  cands.foldl (fun acc c => insertDistinct c.Distance acc) []

/-- The views the spec asks for after `init` with `k` buckets and the
candidates `cands`: the `k` smallest distinct distances with their aggregates,
filled up with seeds. -/
def expectedViews (DBL_MAX : ℚ) (k : Nat) (cands : List Candidate) :
    List (ℚ × ValueDistribution) :=
  (((distancesOf cands).map fun d => (d, aggregateOf cands d)) ++ sentinels DBL_MAX k).take k

/-! ### Concrete runs used to exercise the theorems -/

/-- The distribution `{X:1}` (target `X` has index 0). -/
def exampleX : ValueDistribution :=
  { total_items := 1, distribution := [(0, { frequency := 1, weight := 1 })] }

/-- The distribution `{Y:2}` (target `Y` has index 1). -/
def exampleY : ValueDistribution :=
  { total_items := 2, distribution := [(1, { frequency := 2, weight := 2 })] }

/-- The state after `init( 2, 2, true, false, false )` on a new object and
the candidates `(1, {X:1}, "a")`, `(3, {Y:2}, "b")`, with `DBL_MAX` taken as 100. -/
def exampleState : BestArray :=
  { _storeInstances := true, _showDi := false, _showDb := false, maxBests := 2, size := 2
    bestArray :=
      [ { bestDistance := 1, aggregateDist := exampleX, bestInstances := ["a"]
          bestDistributions := [exampleX] },
        { bestDistance := 3, aggregateDist := exampleY, bestInstances := ["b"]
          bestDistributions := [exampleY] } ] }

/-- The state after `init( 1, 2, true, false, false )` on a new object and
the candidate `(0.5, {X:1}, "a")`. -/
def exampleHalf : BestArray :=
  { _storeInstances := true, _showDi := false, _showDb := false, maxBests := 2, size := 1
    bestArray :=
      [ { bestDistance := 1 / 2, aggregateDist := exampleX, bestInstances := ["a"]
          bestDistributions := [exampleX] } ] }

/-- The state after `init( 1, 0, true, false, false )` on a new object and
the candidate `(1, {X:1}, "a")`: `maxBests` is 0 and one label is retained. -/
def exampleZeroCap : BestArray :=
  { _storeInstances := true, _showDi := false, _showDb := false, maxBests := 0, size := 1
    bestArray :=
      [ { bestDistance := 1, aggregateDist := exampleX, bestInstances := ["a"]
          bestDistributions := [exampleX] } ] }

/-! ## BestArray.cxx: decay weights -/

/-- Modelled from the spec: the enumeration `DecayType` (declared in
`timbl/Types.h`, which is not among the sources): the four decay rules of the
spec between the two bounds `UnknownDecay` and `MaxDecay`. -/
inductive DecayType where
  | UnknownDecay
  | Zero
  | InvDist
  | InvLinear
  | ExpDecay
  | MaxDecay
  deriving DecidableEq, Repr

/-- Modelled from the spec: the class `decayStruct` (declared outside the
sources) as far as `relativeWeight` reads it: `type()`, `alpha` and `beta`. -/
structure decayStruct where
  type : DecayType
  alpha : ℚ
  beta : ℚ
  deriving DecidableEq, Repr

/-- What a call can end in besides undefined behaviour: a value, or the
exception `logic_error` with its message. -/
inductive Outcome where
  | value (result : ℚ)
  | logic_error (what : String)
  deriving DecidableEq, Repr

/-- The method `BestArray::relativeWeight( j, decay )`. The functions `exp`
and `pow` of `<cmath>` are parameters; `none` stands for an access outside the
vector (with `size == 0` the index `size-1` wraps). -/
def BestArray.relativeWeight (Epsilon : ℚ) (exp : ℚ → ℚ) (pow : ℚ → ℚ → ℚ)
    (s : BestArray) (j : Nat) (decay : decayStruct) : Option Outcome :=
  match decay.type with
  | DecayType.Zero => some (Outcome.value 1)
  | DecayType.InvDist =>
    match s.bestArray[j]? with
    | none => none
    | some bj => some (Outcome.value (1 / (bj.bestDistance + Epsilon)))
  | DecayType.InvLinear =>
    if 0 < j ∧ s.size ≠ 1 then
      if s.size = 0 then none
      else
        match s.bestArray[0]?, s.bestArray[s.size - 1]?, s.bestArray[j]? with
        | some nearest, some furthest, some bj =>
          some (Outcome.value ((furthest.bestDistance - bj.bestDistance) /
            (furthest.bestDistance - nearest.bestDistance)))
        | _, _, _ => none
    else some (Outcome.value 1)
  | DecayType.ExpDecay =>
    match s.bestArray[j]? with
    | none => none
    | some bj => some (Outcome.value (exp (-decay.alpha * pow bj.bestDistance decay.beta)))
  | _ => some (Outcome.logic_error "wrong value in switch")

/-- The states a `BestArray` object goes through: it is constructed, and then
`init` and `addResult` are called on it in any order. -/
inductive Execution (Epsilon DBL_MAX : ℚ) : BestArray → Prop
  | fresh : Execution Epsilon DBL_MAX BestArray.fresh
  | init (p : BestArray) (numN maxB : Nat) (storeI showDi showDb : Bool) (s : BestArray) :
      Execution Epsilon DBL_MAX p →
      p.init DBL_MAX numN maxB storeI showDi showDb = some s → Execution Epsilon DBL_MAX s
  | addResult (s : BestArray) (Distance : ℚ) (Distr : ValueDistribution) (neighbor : String)
      (r : ℚ) (s1 : BestArray) :
      Execution Epsilon DBL_MAX s → s.addResult Epsilon Distance Distr neighbor = some (r, s1) →
      Execution Epsilon DBL_MAX s1

/-- The distribution `{X:3}`. -/
def exampleX3 : ValueDistribution :=
  { total_items := 3, distribution := [(0, { frequency := 3, weight := 3 })] }

/-- The distribution `{Y:1}`. -/
def exampleY1 : ValueDistribution :=
  { total_items := 1, distribution := [(1, { frequency := 1, weight := 1 })] }

/-- The distribution `{X:4, Y:2}`. -/
def exampleX4Y2 : ValueDistribution :=
  { total_items := 6
    distribution := [(0, { frequency := 4, weight := 4 }), (1, { frequency := 2, weight := 2 })] }

/-- The distribution `{X:1, Y:1}`. -/
def exampleX1Y1 : ValueDistribution :=
  { total_items := 2
    distribution := [(0, { frequency := 1, weight := 1 }), (1, { frequency := 1, weight := 1 })] }

/-! ## Options.h -/

/-- The types for which `Options.h` instantiates the templates `OptionClassT`
and `OptionClassLT`. -/
inductive OptionType where
  | bool | VerbosityFlags | InputFormatType | MetricType | AlgorithmType | DecayType
  | SmoothingType | WeightType | OrdeningType | normType
  | int | unsignedInt | size_t | double
  deriving DecidableEq, Repr

/-- The functions of the library ticcutils (namespace `TiCC`) that `Options.h`
calls; the library is not part of the repository, so they are parameters.
`split_at` yields the vector of parts (its return value is the size of that
vector), `stringTo ty` is the conversion `stringTo<Type>` to a value of the
type `ty` (embedded in `ℚ`; `none` when the conversion fails), and
`stringTo_size_t` is `stringTo<size_t>`. -/
structure TiCC where
  split_at : String → String → List String
  trim : String → String
  stringTo : OptionType → String → Option ℚ
  stringTo_size_t : String → Option Nat

/-- The ticcutils call `stringTo<Type>( str, result, low, upp )`: the
conversion succeeds and the value lies in `[low, upp]`, both bounds included. -/
def TiCC.stringToRange (t : TiCC) (ty : OptionType) (str : String) (low upp : ℚ) : Option ℚ :=
  match t.stringTo ty str with
  | some v => if low ≤ v ∧ v ≤ upp then some v else none
  | none => none

/-- The ticcutils call `stringTo<size_t>( str, result, low, upp )`. -/
def TiCC.stringToRange_size_t (t : TiCC) (str : String) (low upp : Nat) : Option Nat :=
  match t.stringTo_size_t str with
  | some v => if low ≤ v ∧ v ≤ upp then some v else none
  | none => none

/-- The classes derived from `OptionClass`, each with the variable its
`Content` pointer (or its vector reference `TA`) refers to. -/
inductive OptionClass where
  | OptionClassT (Name : String) (type : OptionType) (Content : ℚ)
  | OptionClassLT (Name : String) (type : OptionType) (Content minVal maxVal : ℚ)
  | MetricArrayOption (Name : String) (TA : List ℚ) (Size : Nat) (default : ℚ)
  deriving DecidableEq, Repr

/-- The member `OptionClass::Name`. -/
def OptionClass.Name : OptionClass → String
  | OptionClass.OptionClassT n _ _ => n
  | OptionClass.OptionClassLT n _ _ _ _ => n
  | OptionClass.MetricArrayOption n _ _ _ => n

/-- The virtual method `set_option( line )` of the three classes: the value
returned and the option afterwards; `none` when `TA[i]` is written outside
the vector. -/
def OptionClass.set_option (t : TiCC) : OptionClass → String → Option (Bool × OptionClass)
  | OptionClass.OptionClassT n ty c, line =>
    match t.stringTo ty line with
    | some v => some (true, OptionClass.OptionClassT n ty v)
    | none => some (false, OptionClass.OptionClassT n ty c)
  | OptionClass.OptionClassLT n ty c lo hi, line =>
    match t.stringToRange ty line lo hi with
    | some v => some (true, OptionClass.OptionClassLT n ty v lo hi)
    | none => some (false, OptionClass.OptionClassLT n ty c lo hi)
  | OptionClass.MetricArrayOption n TA Size d, line =>
    match t.split_at line "=" with
    | [r0, r1] =>
      match t.stringTo OptionType.MetricType r1 with
      | none => some (false, OptionClass.MetricArrayOption n TA Size d)
      | some m =>
        match t.stringToRange_size_t r0 0 Size with
        | none => some (false, OptionClass.MetricArrayOption n TA Size d)
        | some i =>
          if i < TA.length then some (true, OptionClass.MetricArrayOption n (TA.set i m) Size d)
          else none
    | _ => some (false, OptionClass.MetricArrayOption n TA Size d)

/-- The enumeration `SetOptRes`. -/
inductive SetOptRes where
  | Opt_OK | Opt_Frozen | Opt_Unknown | Opt_Ill_Val
  deriving DecidableEq, Repr

/-- The function `tolower` of `<cctype>` in the "C" locale, as a number. -/
def tolower (c : Char) : Nat :=
  if 65 ≤ c.toNat ∧ c.toNat ≤ 90 then c.toNat + 32 else c.toNat

/-- The functor `ci_less::nocase_compare`. -/
def nocase_compare (c1 c2 : Char) : Bool :=
  decide (tolower c1 < tolower c2)

/-- The algorithm `std::lexicographical_compare` with a comparison `comp`. -/
def lexicographical_compare (comp : Char → Char → Bool) : List Char → List Char → Bool
  | _, [] => false
  | [], _ :: _ => true
  | a :: as, b :: bs =>
    if comp a b then true
    else if comp b a then false
    else lexicographical_compare comp as bs

/-- The functor `ci_less`: case-independent "less" on strings. -/
def ci_less (s1 s2 : String) : Bool :=
  lexicographical_compare nocase_compare s1.data s2.data

/-- Two keys that a `std::map` ordered by `ci_less` does not tell apart. -/
def ci_equiv (s1 s2 : String) : Bool :=
  !ci_less s1 s2 && !ci_less s2 s1

/-- The call `find( name )` on a `std::map<std::string,OptionClass *,ci_less>`,
the map being the list of its entries. -/
def mapFind : List (String × OptionClass) → String → Option OptionClass
  | [], _ => none
  | (k, o) :: rest, name => if ci_equiv k name then some o else mapFind rest name

/-- The assignment `table[name] = opt` on such a map: the entry with an
equivalent key gets the new option, otherwise an entry is created at its
place in the order. -/
def mapAssign : List (String × OptionClass) → String → OptionClass →
    List (String × OptionClass)
  | [], name, opt => [(name, opt)]
  | (k, o) :: rest, name, opt =>
    if ci_less name k then (name, opt) :: (k, o) :: rest
    else if ci_less k name then (k, o) :: mapAssign rest name opt
    else (k, opt) :: rest

/-- The effect on the map of changing, through the pointer that `find( name )`
returned, the option object it points to. -/
def mapWrite : List (String × OptionClass) → String → OptionClass →
    List (String × OptionClass)
  | [], _, _ => []
  | (k, o) :: rest, name, opt =>
    if ci_equiv k name then (k, opt) :: rest else (k, o) :: mapWrite rest name opt

/-- The class `OptionTableClass`. -/
structure OptionTableClass where
  table_frozen : Bool
  runtime_table : List (String × OptionClass)
  global_table : List (String × OptionClass)
  deriving DecidableEq, Repr

namespace OptionTableClass

/-- The constructor `OptionTableClass()`. -/
def new : OptionTableClass :=
  { table_frozen := false, runtime_table := [], global_table := [] }

/-- The method `Add( opt )`: `runtime_table[opt->Name] = opt`. -/
def Add (tbl : OptionTableClass) (opt : OptionClass) : OptionTableClass :=
  { tbl with runtime_table := mapAssign tbl.runtime_table opt.Name opt }

/-- The method `FreezeTable()`. -/
def FreezeTable (tbl : OptionTableClass) : OptionTableClass :=
  { table_frozen := true, runtime_table := [], global_table := tbl.runtime_table }

/-- The method `look_up( option_name, runtime )`: the option found and the
value left in `runtime`; `none` for `NULL`. -/
def look_up (tbl : OptionTableClass) (option_name : String) : Option (OptionClass × Bool) :=
  match mapFind tbl.runtime_table option_name with
  | some o => some (o, true)
  | none =>
    match mapFind tbl.global_table option_name with
    | some o => some (o, tbl.table_frozen)
    | none => none

/-- The tables after the option that `look_up( option_name, .. )` points to
has been changed into `opt`. -/
def store (tbl : OptionTableClass) (option_name : String) (opt : OptionClass) :
    OptionTableClass :=
  match mapFind tbl.runtime_table option_name with
  | some _ => { tbl with runtime_table := mapWrite tbl.runtime_table option_name opt }
  | none => { tbl with global_table := mapWrite tbl.global_table option_name opt }

end OptionTableClass

/-- The function `split_line( line, name, value )`: the values of `name` and
`value` afterwards; `none` when `results[1]` is read from a vector of size 1. -/
def split_line (t : TiCC) (line name value : String) : Option (String × String) :=
  match t.split_at line ":" with
  | [r0, r1] => some (t.trim r0, t.trim r1)
  | [_] => none
  | _ => some (name, value)

/-- The method `OptionTableClass::SetOption( line )`: the result code and the
table afterwards. -/
def OptionTableClass.SetOption (t : TiCC) (tbl : OptionTableClass) (line : String) :
    Option (SetOptRes × OptionTableClass) :=
  match split_line t line "" "" with
  | none => none
  | some (option_name, value) =>
    match tbl.look_up option_name with
    | some (option, runtime) =>
      if !runtime then some (SetOptRes.Opt_Frozen, tbl)
      else
        match option.set_option t value with
        | none => none
        | some (true, option1) => some (SetOptRes.Opt_OK, tbl.store option_name option1)
        | some (false, option1) => some (SetOptRes.Opt_Ill_Val, tbl.store option_name option1)
    | none => some (SetOptRes.Opt_Unknown, tbl)

/-! ### A stand-in for ticcutils used in the concrete runs -/

/-- Splitting a character list at every `sep`. -/
def splitChars (sep : Char) : List Char → List Char → List (List Char)
  | [], acc => [acc.reverse]
  | c :: cs, acc =>
    if c = sep then acc.reverse :: splitChars sep cs [] else splitChars sep cs (c :: acc)

/-- Removing blanks at both ends of a character list. -/
def trimChars (l : List Char) : List Char :=
  ((l.dropWhile fun c => c = ' ').reverse.dropWhile fun c => c = ' ').reverse

/-- Reading an unsigned decimal numeral. -/
def parseNat (l : List Char) : Option Nat :=
  if l ≠ [] ∧ l.all (fun c => decide (48 ≤ c.toNat ∧ c.toNat ≤ 57)) then
    some (l.foldl (fun n c => 10 * n + (c.toNat - 48)) 0)
  else none

/-- A simple implementation of the ticcutils functions: `split_at` splits at
the first character of the separator and leaves out empty parts, `trim`
removes blanks, and every conversion reads an unsigned decimal numeral. -/
def exampleTiCC : TiCC :=
  { split_at := fun line sep =>
      ((splitChars (sep.data.headD ' ') line.data []).filter fun p => p ≠ []).map String.mk
    trim := fun s => String.mk (trimChars s.data)
    stringTo := fun _ s => (parseNat s.data).map fun n => (n : ℚ)
    stringTo_size_t := fun s => parseNat s.data }

/-- The table after `Add( new IntegerOption( "k", .., 1, 1, 10 ) )`,
`Add( new BoolOption( "verbose", .., 0 ) )`. -/
def exampleTable : OptionTableClass :=
  (OptionTableClass.new.Add (OptionClass.OptionClassLT "k" OptionType.int 1 1 10)).Add
    (OptionClass.OptionClassT "verbose" OptionType.bool 0)

/-! ## Instance.h: `FeatureValue` -/

/-- The class `FeatureValue` with the members it inherits from `ValueClass`:
the dense `index`, the `Frequency` and the owned `TargetDist` (the interned
name and the optional `ValueClassProb` play no part in the bookkeeping). -/
structure FeatureValue where
  index : Nat
  Frequency : Nat
  TargetDist : ValueDistribution
  deriving DecidableEq, Repr

/-- The method `ValueClass::ValFreq()`. -/
def FeatureValue.ValFreq (fv : FeatureValue) : Nat := fv.Frequency

/-- The method `FeatureValue::ReconstructDistribution( vd )`:
`TargetDist.Merge( vd ); Frequency = TargetDist.totalSize();`. -/
def FeatureValue.ReconstructDistribution (fv : FeatureValue) (vd : ValueDistribution) :
    FeatureValue :=
  { fv with
    TargetDist := fv.TargetDist.Merge vd
    Frequency := (fv.TargetDist.Merge vd).totalSize }

/-! ## BestArray.cxx: `toXML` -/

/-- Modelled from the spec: `BestRec::totalBests()` (declared in
`timbl/BestArray.h`, which is not among the sources): the "total number of
tied neighbors" of the bucket, the item count of its aggregate. -/
def BestRec.totalBests (b : BestRec) : Nat := b.aggregateDist.totalSize

/-- The conversions to text that `toXML` calls and whose code is not among the
sources: `TiCC::toString` on an unsigned number and on a `double`, and
`ValueDistribution::DistToString()`. -/
structure Formatting where
  toString_size : Nat → String
  toString_double : ℚ → String
  DistToString : ValueDistribution → String

/-- The inner loop of `toXML`, `for ( m = 0; m < best->bestInstances.size(); ++m )`,
started at index `m` with `n` iterations to go; `none` when
`bestDistributions[m]` is read outside the vector. -/
def neighborLoop (f : Formatting) (showDb : Bool) (best : BestRec) :
    Nat → Nat → String → Option String
  | 0, _, result => some result
  | n + 1, m, result =>
    match best.bestInstances[m]? with
    | none => none
    | some inst =>
      let r1 := result ++ ("<neighbor><instance>" ++ inst ++ "</instance>")
      if showDb then
        match best.bestDistributions[m]? with
        | none => none
        | some d =>
          neighborLoop f showDb best n (m + 1)
            ((r1 ++ ("<distribution>" ++ f.DistToString d ++ "</distribution>")) ++ "</neighbor>")
      else neighborLoop f showDb best n (m + 1) (r1 ++ "</neighbor>")

/-- The loop of `toXML`, `for ( k = 0; k < size; ++k )`, started at index `k`
with `n` iterations to go; a `break` ends it with the text built so far, and
`none` stands for an access outside a vector. -/
def toXMLLoop (f : Formatting) (s : BestArray) : Nat → Nat → String → Option String
  | 0, _, result => some result
  | n + 1, k, result =>
    match s.bestArray[k]? with
    | none => none
    | some best =>
      if s._storeInstances then
        let totalBests := best.totalBests
        if totalBests = 0 then some result
        else
          let r1 := result ++ ("<neighbors k=\"" ++ f.toString_size (k + 1) ++ "\" total=\""
            ++ f.toString_size totalBests ++ "\" distance=\""
            ++ f.toString_double best.bestDistance ++ "\"")
          let r2 := if s.maxBests < totalBests then
            r1 ++ (" limited=\"" ++ f.toString_size s.maxBests ++ "\"") else r1
          match neighborLoop f s._showDb best best.bestInstances.length 0 (r2 ++ ">") with
          | none => none
          | some r3 => toXMLLoop f s n (k + 1) (r3 ++ "</neighbors>")
      else
        if best.aggregateDist.ZeroDist then some result
        else
          let r1 := result ++ ("<neighbors k=\"" ++ f.toString_size (k + 1) ++ "\">")
          let r2 := if s._showDb then
            r1 ++ ("<distribution>" ++ f.DistToString best.aggregateDist ++ "</distribution>")
            else r1
          let r3 := if s._showDi then
            r2 ++ ("<distance>" ++ f.toString_double best.bestDistance ++ "</distance>")
            else r2
          toXMLLoop f s n (k + 1) (r3 ++ "</neighbors>")

/-- The method `BestArray::toXML()`. -/
def BestArray.toXML (f : Formatting) (s : BestArray) : Option String :=
  match toXMLLoop f s s.size 0 "<neighborset>" with
  | none => none
  | some result => some (result ++ "</neighborset>")

/-- The texts of a list one after the other. -/
def concat : List String → String
  | [] => ""
  | a :: l => a ++ concat l

/-- One `<neighbor>` element: the label, and the distribution when `showDb`
is set. -/
def neighborElement (f : Formatting) (showDb : Bool) (inst : String)
    (d : ValueDistribution) : String :=
  "<neighbor><instance>" ++ inst ++ "</instance>" ++
    (if showDb then "<distribution>" ++ f.DistToString d ++ "</distribution>" else "") ++
    "</neighbor>"

/-- The `<neighbors>` element of bucket `k` (counted from 0) when instances
are stored: the attributes `k`, `total` and `distance`, the attribute
`limited` when the total exceeds `maxBests`, and one `<neighbor>` element for
every retained label. -/
def neighborsStored (f : Formatting) (s : BestArray) (k : Nat) (best : BestRec) : String :=
  "<neighbors k=\"" ++ f.toString_size (k + 1) ++ "\" total=\"" ++
    f.toString_size best.totalBests ++ "\" distance=\"" ++
    f.toString_double best.bestDistance ++ "\"" ++
    (if s.maxBests < best.totalBests then
      " limited=\"" ++ f.toString_size s.maxBests ++ "\"" else "") ++ ">" ++
    concat ((best.bestInstances.zip best.bestDistributions).map fun p =>
      neighborElement f s._showDb p.1 p.2) ++ "</neighbors>"

/-- The `<neighbors>` element of bucket `k` (counted from 0) when instances
are not stored: the attribute `k` only, with the distribution and the distance
as child elements when asked for. -/
def neighborsPlain (f : Formatting) (s : BestArray) (k : Nat) (best : BestRec) : String :=
  "<neighbors k=\"" ++ f.toString_size (k + 1) ++ "\">" ++
    (if s._showDb then
      "<distribution>" ++ f.DistToString best.aggregateDist ++ "</distribution>" else "") ++
    (if s._showDi then
      "<distance>" ++ f.toString_double best.bestDistance ++ "</distance>" else "") ++
    "</neighbors>"

/-- The buckets that `toXML` writes, each with its index: those in use up to
the first one with an empty aggregate. -/
def BestArray.emitted (s : BestArray) : List (Nat × BestRec) :=
  s.buckets.enum.takeWhile fun p => !p.2.aggregateDist.ZeroDist

/-- A stand-in for the conversions to text used in the concrete runs: a number
is written in decimal, a distance as numerator `/` denominator, and a
distribution as its entries `index:frequency`, each followed by a blank. -/
def exampleFormatting : Formatting :=
  { toString_size := Nat.repr
    toString_double := fun q => Nat.repr q.num.natAbs ++ "/" ++ Nat.repr q.den
    DistToString := fun d =>
      concat (d.distribution.map fun e => Nat.repr e.1 ++ ":" ++ Nat.repr e.2.frequency ++ " ") }

/-- The state after `init( 2, 2, false, false, false )` on a new object and
the candidates `(1, {X:1}, "a")`, `(3, {Y:2}, "b")`, with `DBL_MAX` taken as
100: instances are not stored. -/
def exampleNoStore : BestArray :=
  { _storeInstances := false, _showDi := false, _showDb := false, maxBests := 2, size := 2
    bestArray :=
      [ { bestDistance := 1, aggregateDist := exampleX, bestInstances := []
          bestDistributions := [] },
        { bestDistance := 3, aggregateDist := exampleY, bestInstances := []
          bestDistributions := [] } ] }

/-! ## Statistics.h: `StatisticsClass` -/

/-- The class `StatisticsClass`: six counters of type `unsigned int`, taken
as 32 bits wide; each holds a number below `2^32`. -/
structure StatisticsClass where
  _data : Nat
  _skipped : Nat
  _correct : Nat
  _tieOk : Nat
  _tieFalse : Nat
  _exact : Nat
  deriving DecidableEq, Repr

namespace StatisticsClass

/-- The constructor `StatisticsClass()`: every counter is 0. -/
def new : StatisticsClass :=
  { _data := 0, _skipped := 0, _correct := 0, _tieOk := 0, _tieFalse := 0, _exact := 0 }

/-- The method `clear()`. -/
def clear (_s : StatisticsClass) : StatisticsClass :=
  { _data := 0, _skipped := 0, _correct := 0, _tieOk := 0, _tieFalse := 0, _exact := 0 }

/-- The method `addLine()`: `++_data` on an `unsigned int`. -/
def addLine (s : StatisticsClass) : StatisticsClass :=
  { s with _data := (s._data + 1) % 2 ^ 32 }

/-- The method `addSkipped()`: `++_skipped`. -/
def addSkipped (s : StatisticsClass) : StatisticsClass :=
  { s with _skipped := (s._skipped + 1) % 2 ^ 32 }

/-- The method `addCorrect()`: `++_correct`. -/
def addCorrect (s : StatisticsClass) : StatisticsClass :=
  { s with _correct := (s._correct + 1) % 2 ^ 32 }

/-- The method `addTieCorrect()`: `++_tieOk`. -/
def addTieCorrect (s : StatisticsClass) : StatisticsClass :=
  { s with _tieOk := (s._tieOk + 1) % 2 ^ 32 }

/-- The method `addTieFailure()`: `++_tieFalse`. -/
def addTieFailure (s : StatisticsClass) : StatisticsClass :=
  { s with _tieFalse := (s._tieFalse + 1) % 2 ^ 32 }

/-- The method `addExact()`: `++_exact`. -/
def addExact (s : StatisticsClass) : StatisticsClass :=
  { s with _exact := (s._exact + 1) % 2 ^ 32 }

/-- The accessor `dataLines()`. -/
def dataLines (s : StatisticsClass) : Nat := s._data

/-- The accessor `skippedLines()`. -/
def skippedLines (s : StatisticsClass) : Nat := s._skipped

/-- The accessor `totalLines()`: `_data + _skipped` in `unsigned int`. -/
def totalLines (s : StatisticsClass) : Nat := (s._data + s._skipped) % 2 ^ 32

/-- The accessor `testedCorrect()`. -/
def testedCorrect (s : StatisticsClass) : Nat := s._correct

/-- The accessor `tiedCorrect()`. -/
def tiedCorrect (s : StatisticsClass) : Nat := s._tieOk

/-- The accessor `tiedFailure()`. -/
def tiedFailure (s : StatisticsClass) : Nat := s._tieFalse

/-- The accessor `exactMatches()`. -/
def exactMatches (s : StatisticsClass) : Nat := s._exact

end StatisticsClass

/-- The six counting methods of `StatisticsClass`, as the names of calls. -/
inductive StatisticsCall where
  | addLine | addSkipped | addCorrect | addTieCorrect | addTieFailure | addExact
  deriving DecidableEq, Repr

/-- One call on a `StatisticsClass` object. -/
def StatisticsClass.call (s : StatisticsClass) : StatisticsCall → StatisticsClass
  | StatisticsCall.addLine => s.addLine
  | StatisticsCall.addSkipped => s.addSkipped
  | StatisticsCall.addCorrect => s.addCorrect
  | StatisticsCall.addTieCorrect => s.addTieCorrect
  | StatisticsCall.addTieFailure => s.addTieFailure
  | StatisticsCall.addExact => s.addExact

/-- A sequence of calls on a `StatisticsClass` object, in call order. -/
def StatisticsClass.calls (s : StatisticsClass) (cs : List StatisticsCall) : StatisticsClass :=
  cs.foldl StatisticsClass.call s

/-! ## BestArray.cxx: the seeds of `init` in `double` arithmetic

`initRec` above evaluates the seed `(DBL_MAX - numN) + i` in exact arithmetic.
The source evaluates it in `double`: each of the two operations rounds its
exact result to the nearest `double`. The definitions below follow the source
in this respect. -/

/-- The constant `DBL_MAX` of `<cfloat>` as a number: the largest finite
IEEE 754 binary64 value, `(2^53 - 1) * 2^971`. -/
def maxDouble : Nat := (2 ^ 53 - 1) * 2 ^ 971

/-- The rounding that a `double` operation applies to a non-negative whole
exact result `n` (IEEE 754 binary64, round to nearest, ties to even): with
`2^e <= n < 2^(e+1)` the doubles around `n` are the multiples of
`q = 2^(e-52)`, and `n` goes to the nearer of the two that enclose it, to the
one with the even multiplier when it lies halfway. The result `2^1024` stands
for `+infinity`. -/
def roundDouble (n : Nat) : Nat :=
  let q := 2 ^ (Nat.log2 n - 52)
  let m := n / q
  let r := n % q
  if 2 * r < q ∨ (2 * r = q ∧ m % 2 = 0) then m * q else (m + 1) * q

/-- The value of the `double` expression `(DBL_MAX - numN) + i` of
`BestArray::init`: the difference is rounded, then the sum. The conversions
of `numN` (an `unsigned int`) and of `i < numN` to `double` are exact. -/
def seedDouble (numN i : Nat) : Nat :=
  roundDouble (roundDouble (maxDouble - numN) + i)

/-- The body of the second loop of `BestArray::init` for bucket `i`, with the
seed `(DBL_MAX - numN) + i` as the `double` operations compute it; the rest is
as in `initRec`. -/
def initRecDouble (numN i : Nat) (b : BestRec) : BestRec :=
  { bestDistance := ((seedDouble numN i : Nat) : ℚ)
    bestInstances := if b.bestInstances.isEmpty then b.bestInstances else []
    bestDistributions := if b.bestInstances.isEmpty then b.bestDistributions else []
    aggregateDist := ValueDistribution.clear }

/-- The second loop of `BestArray::init`, `for ( i = 0; i < size; ++i )`,
started at index `i` with `n = size - i` iterations to go, with the seeds in
`double` arithmetic. -/
def initLoopDouble (numN : Nat) : Nat → Nat → List BestRec → Option (List BestRec)
  | 0, _, arr => some arr
  | n + 1, i, arr =>
    match arr[i]? with
    | none => none
    | some b => initLoopDouble numN n (i + 1) (arr.set i (initRecDouble numN i b))

/-- The method `BestArray::init( numN, maxB, storeI, showDi, showDb )` with
the seeds in `double` arithmetic. -/
def BestArray.initDouble (s : BestArray) (numN maxB : Nat)
    (storeI showDi showDb : Bool) : Option BestArray :=
  let S := s.size
  let arr := if S < numN then s.bestArray ++ List.replicate (numN - S) BestRec.new
             else s.bestArray
  match initLoopDouble numN numN 0 arr with
  | none => none
  | some arr1 =>
    some { _storeInstances := storeI, _showDi := showDi, _showDb := showDb
           maxBests := maxB, size := numN, bestArray := arr1 }

/-- The table after `Add( new MetricArrayOption( "m", v, def, 3 ) )` on a new
table: the option holds the three entries that `TA.resize( 3, def )` makes. -/
def exampleMetricTable : OptionTableClass :=
  OptionTableClass.new.Add (OptionClass.MetricArrayOption "m" [0, 0, 0] 3 0)

end Timbl

namespace Timbl

theorem shiftLoop_getElem? (k : Nat) (i : Nat) (arr : List BestRec) (hi : i < arr.length)
    (j : Nat) :
    (shiftLoop k i arr)[j]? = if k < j ∧ j ≤ i then arr[j - 1]? else arr[j]? := by
  induction i generalizing arr with
  | zero =>
    simp only [shiftLoop]
    have : ¬ (k < j ∧ j ≤ 0) := by omega
    rw [if_neg this]
  | succ i ih =>
    simp only [shiftLoop]
    by_cases hk : k < i + 1
    · simp only [hk, if_true]
      rw [ih _ (by simp; omega)]
      have hgi : arr.getD i BestRec.new = arr[i] := by
        simp [List.getD_eq_getElem?_getD, List.getElem?_eq_getElem (show i < arr.length by omega)]
      rw [hgi]
      by_cases h1 : k < j ∧ j ≤ i
      · have h2 : k < j ∧ j ≤ i + 1 := by omega
        simp only [h1, h2, and_self, if_true]
        rw [List.getElem?_set_ne (by omega)]
      · by_cases h3 : j = i + 1
        · subst h3
          have h2 : k < i + 1 ∧ i + 1 ≤ i + 1 := by omega
          simp only [h1, h2, and_self, if_true, if_false]
          rw [List.getElem?_set_eq_of_lt _ (by omega)]
          simp [List.getElem?_eq_getElem (show i < arr.length by omega)]
        · have h2 : ¬ (k < j ∧ j ≤ i + 1) := by omega
          simp only [h1, h2, if_false]
          rw [List.getElem?_set_ne (by omega)]
    · have h2 : ¬ (k < j ∧ j ≤ i + 1) := by omega
      simp [hk, h2]

theorem shiftLoop_length (k : Nat) (i : Nat) (arr : List BestRec) :
    (shiftLoop k i arr).length = arr.length := by
  induction i generalizing arr with
  | zero => simp [shiftLoop]
  | succ i ih =>
    simp only [shiftLoop]
    split
    · rw [ih]; simp
    · rfl

theorem set_eq_take_cons_drop {α : Type} (arr : List α) (k sz : Nat) (x : α) (hk : k < sz)
    (hsz : sz ≤ arr.length) :
    arr.set k x = arr.take k ++ (x :: (arr.take sz).drop (k + 1)) ++ arr.drop sz := by
  have h1 : arr.set k x = (arr.take sz ++ arr.drop sz).set k x := by rw [List.take_append_drop]
  have h2 : k < (arr.take sz).length := by rw [List.length_take]; omega
  rw [h1, List.set_append_left _ _ h2, List.set_eq_take_append_cons_drop]
  rw [if_pos h2, List.take_take, Nat.min_eq_left (le_of_lt hk)]

theorem dropLast_drop_take {α : Type} (arr : List α) (k sz : Nat) (hsz : sz ≤ arr.length) :
    ((arr.take sz).drop k).dropLast = (arr.take (sz - 1)).drop k := by
  rw [List.dropLast_eq_take, List.length_drop, List.length_take, Nat.min_eq_left hsz]
  rw [List.drop_take, List.drop_take, List.take_take]
  congr 1
  omega

theorem shiftLoop_set (arr : List BestRec) (k sz : Nat) (x : BestRec) (hk : k + 1 < sz)
    (hsz : sz ≤ arr.length) :
    (shiftLoop k (sz - 1) arr).set k x
      = arr.take k ++ (x :: (arr.take (sz - 1)).drop k) ++ arr.drop sz := by
  apply List.ext_getElem?
  intro j
  rw [List.getElem?_set, shiftLoop_length, shiftLoop_getElem? _ _ _ (by omega)]
  rw [List.getElem?_append, List.getElem?_append]
  simp only [List.length_append, List.length_take, List.length_cons, List.length_drop,
    List.getElem?_take, List.getElem?_drop, List.getElem?_cons]
  have e1 : min k arr.length = k := by omega
  have e2 : min (sz - 1) arr.length = sz - 1 := by omega
  rw [e1, e2]
  by_cases h1 : j < k
  · have : ¬ k = j := by omega
    have h3 : ¬ (k < j ∧ j ≤ sz - 1) := by omega
    have h4 : j < k + (sz - 1 - k + 1) := by omega
    simp [this, h3, h1, h4]
  · by_cases h2 : j = k
    · subst h2
      have h4 : j < j + (sz - 1 - j + 1) := by omega
      have h5 : j < arr.length := by omega
      simp [h4, h5]
    · by_cases h3 : j < sz
      · have : ¬ k = j := by omega
        have h3 : (k < j ∧ j ≤ sz - 1) := by omega
        have h4 : j < k + (sz - 1 - k + 1) := by omega
        have h5 : ¬ (j - k = 0) := by omega
        have h6 : k + (j - k - 1) = j - 1 := by omega
        have h7 : j - 1 < sz - 1 := by omega
        simp [this, h3, h1, h4, h5, h6, h7]
      · have : ¬ k = j := by omega
        have h3 : ¬ (k < j ∧ j ≤ sz - 1) := by omega
        have h4 : ¬ j < k + (sz - 1 - k + 1) := by omega
        have h6 : sz + (j - (k + (sz - 1 - k + 1))) = j := by omega
        simp [this, h3, h1, h4, h6]

theorem getLastD_drop_take (arr : List BestRec) (k sz : Nat) (hk : k < sz)
    (hsz : sz ≤ arr.length) (b : BestRec) :
    ((arr.take sz).drop k).getLastD b = arr.getD (sz - 1) BestRec.new := by
  rw [List.getLastD_eq_getLast?, List.getLast?_eq_getElem?, List.getElem?_drop,
    List.getElem?_take, List.length_drop, List.length_take, Nat.min_eq_left hsz]
  have h1 : k + (sz - k - 1) = sz - 1 := by omega
  have h2 : sz - 1 < sz := by omega
  rw [h1, if_pos h2, List.getD_eq_getElem?_getD]
  rw [List.getElem?_eq_getElem (show sz - 1 < arr.length by omega)]
  rfl

theorem addResultLoop_eq (Epsilon : ℚ) (s : BestArray) (Distance : ℚ)
    (Distr : ValueDistribution) (neighbor : String)
    (hv : s.size ≤ s.bestArray.length) :
    ∀ n k, k + n = s.size →
      addResultLoop Epsilon s Distance Distr neighbor n k
        = some { s with
            bestArray := s.bestArray.take k
              ++ stepList Epsilon s Distance Distr neighbor ((s.bestArray.take s.size).drop k)
              ++ s.bestArray.drop s.size } := by
  intro n
  induction n with
  | zero =>
    intro k hk
    have hk2 : k = s.size := by omega
    subst hk2
    have h0 : (s.bestArray.take s.size).drop s.size = [] := by
      apply List.drop_eq_nil_of_le
      simp
    simp only [addResultLoop, h0, stepList, List.append_nil, List.take_append_drop]
  | succ n ih =>
    intro k hk
    have hklt : k < s.bestArray.length := by omega
    have hb : s.bestArray[k]? = some s.bestArray[k] := List.getElem?_eq_getElem hklt
    have hd : (s.bestArray.take s.size).drop k
        = s.bestArray[k] :: (s.bestArray.take s.size).drop (k + 1) := by
      have hl : k < (s.bestArray.take s.size).length := by
        rw [List.length_take]; omega
      rw [List.drop_eq_getElem_cons hl, List.getElem_take]
    have hlastD := getLastD_drop_take s.bestArray k s.size (by omega) hv s.bestArray[k]
    have hdl := dropLast_drop_take s.bestArray k s.size hv
    rw [hd] at hlastD hdl
    simp only [addResultLoop, hb]
    rw [hd]
    simp only [stepList]
    by_cases htie : |Distance - s.bestArray[k].bestDistance| < Epsilon
    · simp only [htie, if_true]
      rw [set_eq_take_cons_drop s.bestArray k s.size _ (by omega) hv]
    · simp only [htie, if_false]
      by_cases hlt : Distance < s.bestArray[k].bestDistance
      · simp only [hlt, if_true]
        rw [hlastD, hdl]
        by_cases hlast : k = s.size - 1
        · simp only [hlast, if_true]
          have hkk : s.size - 1 < s.bestArray.length := by omega
          have h1 : s.bestArray.getD (s.size - 1) BestRec.new = s.bestArray[s.size - 1] := by
            rw [List.getD_eq_getElem?_getD, List.getElem?_eq_getElem hkk]; rfl
          have h2 : (s.bestArray.take (s.size - 1)).drop (s.size - 1) = [] := by
            apply List.drop_eq_nil_of_le
            simp
          have h3 : (s.bestArray.take s.size).drop (s.size - 1 + 1) = [] := by
            apply List.drop_eq_nil_of_le
            rw [List.length_take]
            omega
          rw [set_eq_take_cons_drop s.bestArray (s.size - 1) s.size _ (by omega) hv]
          rw [h1, h2, h3]
        · simp only [hlast, if_false]
          have hkk : s.size - 1 < s.bestArray.length := by omega
          have h1 : s.bestArray.getD (s.size - 1) BestRec.new = s.bestArray[s.size - 1] := by
            rw [List.getD_eq_getElem?_getD, List.getElem?_eq_getElem hkk]; rfl
          rw [List.getElem?_eq_getElem hkk]
          simp only []
          rw [shiftLoop_set s.bestArray k s.size _ (by omega) hv, h1]
      · simp only [hlt, if_false]
        rw [ih (k + 1) (by omega)]
        have h4 : s.bestArray.take (k + 1) = s.bestArray.take k ++ [s.bestArray[k]] := by
          rw [List.take_succ, hb]; rfl
        rw [h4]
        simp only [List.append_assoc, List.singleton_append, List.cons_append, List.nil_append]

theorem stepList_length (Epsilon : ℚ) (s : BestArray) (Distance : ℚ)
    (Distr : ValueDistribution) (neighbor : String) (l : List BestRec) :
    (stepList Epsilon s Distance Distr neighbor l).length = l.length := by
  induction l with
  | nil => rfl
  | cons b t ih =>
    simp only [stepList]
    split
    · simp
    · split
      · cases t <;> simp
      · simp [ih]

theorem stepList_view (Epsilon : ℚ) (s : BestArray) (Distance : ℚ)
    (Distr : ValueDistribution) (neighbor : String) (l : List BestRec) :
    (stepList Epsilon s Distance Distr neighbor l).map BestRec.view
      = stepView Epsilon Distance Distr (l.map BestRec.view) := by
  induction l with
  | nil => rfl
  | cons b t ih =>
    simp only [stepList, List.map_cons, stepView, BestRec.view]
    split
    · simp only [tieRec]
      split <;> simp [BestRec.view]
    · split
      · rw [List.map_cons, List.map_dropLast]
        simp [BestRec.view, fillRec]
      · simp only [List.map_cons]
        rw [ih]
        rfl

theorem buckets_length (s : BestArray) (hv : s.size ≤ s.bestArray.length) :
    s.buckets.length = s.size := by
  simp [BestArray.buckets, hv]

theorem addResult_eq (Epsilon : ℚ) (s : BestArray) (Distance : ℚ)
    (Distr : ValueDistribution) (neighbor : String)
    (hv : s.size ≤ s.bestArray.length) (hpos : 0 < s.size) :
    ∃ last, (stepList Epsilon s Distance Distr neighbor s.buckets)[s.size - 1]? = some last ∧
      s.addResult Epsilon Distance Distr neighbor
        = some (last.bestDistance,
            { s with bestArray := stepList Epsilon s Distance Distr neighbor s.buckets
                ++ s.bestArray.drop s.size }) := by
  have hl : (stepList Epsilon s Distance Distr neighbor s.buckets).length = s.size := by
    rw [stepList_length, buckets_length s hv]
  have hlt : s.size - 1 < (stepList Epsilon s Distance Distr neighbor s.buckets).length := by
    omega
  refine ⟨(stepList Epsilon s Distance Distr neighbor s.buckets)[s.size - 1], ?_, ?_⟩
  · exact List.getElem?_eq_getElem hlt
  · have h := addResultLoop_eq Epsilon s Distance Distr neighbor hv s.size 0 (by omega)
    simp only [List.take_zero, List.nil_append, List.drop_zero] at h
    simp only [BestArray.addResult, h]
    have hne : ¬ s.size = 0 := by omega
    simp only [hne, if_false]
    change (match (stepList Epsilon s Distance Distr neighbor s.buckets
      ++ List.drop s.size s.bestArray)[s.size - 1]? with
      | none => none
      | some last => some (last.bestDistance, _)) = _
    rw [List.getElem?_append_left hlt, List.getElem?_eq_getElem hlt]
    rfl

theorem addResult_some (Epsilon : ℚ) (s : BestArray) (Distance : ℚ)
    (Distr : ValueDistribution) (neighbor : String) (r : ℚ) (s1 : BestArray)
    (hv : s.size ≤ s.bestArray.length) (hpos : 0 < s.size)
    (h : s.addResult Epsilon Distance Distr neighbor = some (r, s1)) :
    s1 = { s with bestArray := stepList Epsilon s Distance Distr neighbor s.buckets
              ++ s.bestArray.drop s.size } ∧
    s1.buckets = stepList Epsilon s Distance Distr neighbor s.buckets ∧
    (∃ last, s1.buckets[s.size - 1]? = some last ∧ r = last.bestDistance) := by
  obtain ⟨last, h1, h2⟩ := addResult_eq Epsilon s Distance Distr neighbor hv hpos
  rw [h2] at h
  simp only [Option.some.injEq, Prod.mk.injEq] at h
  obtain ⟨hr, hs⟩ := h
  have hb : s1.buckets = stepList Epsilon s Distance Distr neighbor s.buckets := by
    rw [← hs]
    simp only [BestArray.buckets]
    rw [List.take_left']
    rw [stepList_length]
    simp [hv]
  refine ⟨hs.symm, hb, last, ?_, hr.symm⟩
  rw [hb]; exact h1

theorem initLoop_some (DBL_MAX : ℚ) (numN : Nat) :
    ∀ n i (arr : List BestRec), i + n ≤ arr.length →
      ∃ arr1, initLoop DBL_MAX numN n i arr = some arr1 ∧ arr1.length = arr.length ∧
        ∀ j, arr1[j]? = if i ≤ j ∧ j < i + n then (arr[j]?).map (initRec DBL_MAX numN j)
                        else arr[j]? := by
  intro n
  induction n with
  | zero =>
    intro i arr _
    refine ⟨arr, rfl, rfl, ?_⟩
    intro j
    have : ¬ (i ≤ j ∧ j < i + 0) := by omega
    rw [if_neg this]
  | succ n ih =>
    intro i arr h
    have hi : i < arr.length := by omega
    obtain ⟨arr1, h1, h2, h3⟩ := ih (i + 1) (arr.set i (initRec DBL_MAX numN i arr[i]))
      (by simp; omega)
    refine ⟨arr1, ?_, ?_, ?_⟩
    · simp only [initLoop, List.getElem?_eq_getElem hi]
      exact h1
    · simpa using h2
    · intro j
      rw [h3 j]
      by_cases hj : j = i
      · subst hj
        have c1 : ¬ (j + 1 ≤ j ∧ j < j + 1 + n) := by omega
        have c2 : j ≤ j ∧ j < j + (n + 1) := by omega
        rw [if_neg c1, if_pos c2, List.getElem?_set_eq_of_lt _ hi, List.getElem?_eq_getElem hi]
        rfl
      · rw [List.getElem?_set_ne (by omega)]
        by_cases c : i + 1 ≤ j ∧ j < i + 1 + n
        · have c2 : i ≤ j ∧ j < i + (n + 1) := by omega
          rw [if_pos c, if_pos c2]
        · have c2 : ¬ (i ≤ j ∧ j < i + (n + 1)) := by omega
          rw [if_neg c, if_neg c2]

theorem initLoop_bound (DBL_MAX : ℚ) (numN : Nat) :
    ∀ n i (arr arr1 : List BestRec), initLoop DBL_MAX numN n i arr = some arr1 →
      n = 0 ∨ i + n ≤ arr.length := by
  intro n
  induction n with
  | zero => intro _ _ _ _; exact Or.inl rfl
  | succ n ih =>
    intro i arr arr1 h
    right
    simp only [initLoop] at h
    by_cases hi : i < arr.length
    · rw [List.getElem?_eq_getElem hi] at h
      rcases ih _ _ _ h with h0 | h0
      · omega
      · simp at h0; omega
    · rw [List.getElem?_eq_none (by omega)] at h
      simp at h

/-- What `init` establishes: the configuration is stored, the vector is long
enough, and every bucket in use is a freshly seeded one. -/
theorem init_some (DBL_MAX : ℚ) (p : BestArray) (numN maxB : Nat)
    (storeI showDi showDb : Bool) (s : BestArray)
    (h : p.init DBL_MAX numN maxB storeI showDi showDb = some s) :
    s.size = numN ∧ s.maxBests = maxB ∧ s._storeInstances = storeI ∧
    s._showDi = showDi ∧ s._showDb = showDb ∧ s.size ≤ s.bestArray.length ∧
    ∀ j, j < numN → ∃ b0 : BestRec, s.bestArray[j]? = some (initRec DBL_MAX numN j b0) := by
  simp only [BestArray.init] at h
  generalize harr : (if p.size < numN then p.bestArray ++ List.replicate (numN - p.size) BestRec.new
             else p.bestArray) = arr at h
  cases hl : initLoop DBL_MAX numN numN 0 arr with
  | none => rw [hl] at h; simp at h
  | some arr1 =>
    rw [hl] at h
    simp only [Option.some.injEq] at h
    have hb : numN ≤ arr.length := by
      rcases initLoop_bound _ _ _ _ _ _ hl with h0 | h0
      · omega
      · omega
    obtain ⟨arr2, e1, e2, e3⟩ := initLoop_some DBL_MAX numN numN 0 arr (by omega)
    rw [hl] at e1
    simp only [Option.some.injEq] at e1
    subst e1
    subst h
    refine ⟨rfl, rfl, rfl, rfl, rfl, ?_, ?_⟩
    · simp only; omega
    · intro j hj
      have c : 0 ≤ j ∧ j < 0 + numN := by omega
      refine ⟨arr[j], ?_⟩
      simp only
      rw [e3 j, if_pos c, List.getElem?_eq_getElem (by omega)]
      rfl

theorem init_total (DBL_MAX : ℚ) (p : BestArray) (numN maxB : Nat)
    (storeI showDi showDb : Bool) (hv : p.size ≤ p.bestArray.length) :
    ∃ s, p.init DBL_MAX numN maxB storeI showDi showDb = some s := by
  simp only [BestArray.init]
  generalize harr : (if p.size < numN then p.bestArray ++ List.replicate (numN - p.size) BestRec.new
             else p.bestArray) = arr
  have hb : numN ≤ arr.length := by
    rw [← harr]
    split
    · simp; omega
    · omega
  obtain ⟨arr2, e1, _, _⟩ := initLoop_some DBL_MAX numN numN 0 arr (by omega)
  rw [e1]
  exact ⟨_, rfl⟩

theorem reachable_valid (Epsilon DBL_MAX : ℚ) (s : BestArray)
    (h : Reachable Epsilon DBL_MAX s) : s.size ≤ s.bestArray.length := by
  induction h with
  | init p numN maxB storeI showDi showDb s h => exact (init_some _ _ _ _ _ _ _ _ h).2.2.2.2.2.1
  | addResult s d D nb r s1 _ h ih =>
    by_cases hpos : 0 < s.size
    · obtain ⟨hs, _, _⟩ := addResult_some Epsilon s d D nb r s1 ih hpos h
      rw [hs]
      simp only [List.length_append, List.length_drop, stepList_length]
      rw [buckets_length s ih]
      omega
    · have h0 : s.size = 0 := by omega
      simp only [BestArray.addResult, h0, addResultLoop] at h
      simp at h

theorem init_view (DBL_MAX : ℚ) (p : BestArray) (numN maxB : Nat)
    (storeI showDi showDb : Bool) (s : BestArray)
    (h : p.init DBL_MAX numN maxB storeI showDi showDb = some s) :
    s.buckets.map BestRec.view = sentinels DBL_MAX numN := by
  obtain ⟨h1, _, _, _, _, h6, h7⟩ := init_some _ _ _ _ _ _ _ _ h
  apply List.ext_getElem?
  intro j
  simp only [BestArray.buckets, sentinels, List.getElem?_map, List.getElem?_take, h1,
    List.getElem?_range]
  by_cases hj : j < numN
  · obtain ⟨b0, hb⟩ := h7 j hj
    rw [if_pos hj, hb, List.getElem?_range hj]
    simp [BestRec.view, initRec]
  · rw [if_neg hj, List.getElem?_eq_none (by simpa using hj)]
    simp

theorem stepView_chain (Epsilon Distance : ℚ) (Distr : ValueDistribution)
    (R : ℚ → ℚ → Prop)
    (hleft : ∀ a, ¬ |Distance - a| < Epsilon → ¬ Distance < a → R a Distance)
    (hright : ∀ b, ¬ |Distance - b| < Epsilon → Distance < b → R Distance b) :
    ∀ (l : List (ℚ × ValueDistribution)) (a : ℚ), R a Distance →
      List.Chain R a (l.map Prod.fst) →
      List.Chain R a ((stepView Epsilon Distance Distr l).map Prod.fst) := by
  intro l
  induction l with
  | nil => intro a _ h; exact h
  | cons b t ih =>
    intro a ha h
    simp only [List.map_cons, List.chain_cons] at h
    simp only [stepView]
    by_cases htie : |Distance - b.1| < Epsilon
    · simp only [htie, if_true, List.map_cons, List.chain_cons]
      exact h
    · simp only [htie, if_false]
      by_cases hlt : Distance < b.1
      · simp only [hlt, if_true, List.map_cons, List.chain_cons]
        refine ⟨ha, ?_⟩
        have hc : List.Chain' R ((Distance :: b.1 :: t.map Prod.fst).dropLast) := by
          apply List.Chain'.init
          exact List.chain_cons.2 ⟨hright _ htie hlt, h.2⟩
        rw [List.map_dropLast, List.map_cons]
        exact hc
      · simp only [hlt, if_false, List.map_cons, List.chain_cons]
        exact ⟨h.1, ih b.1 (hleft _ htie hlt) h.2⟩

theorem stepView_chain' (Epsilon Distance : ℚ) (Distr : ValueDistribution)
    (R : ℚ → ℚ → Prop)
    (hleft : ∀ a, ¬ |Distance - a| < Epsilon → ¬ Distance < a → R a Distance)
    (hright : ∀ b, ¬ |Distance - b| < Epsilon → Distance < b → R Distance b)
    (l : List (ℚ × ValueDistribution)) (h : List.Chain' R (l.map Prod.fst)) :
    List.Chain' R ((stepView Epsilon Distance Distr l).map Prod.fst) := by
  cases l with
  | nil => exact h
  | cons b t =>
    simp only [stepView]
    by_cases htie : |Distance - b.1| < Epsilon
    · simp only [htie, if_true]
      exact h
    · simp only [htie, if_false]
      by_cases hlt : Distance < b.1
      · simp only [hlt, if_true]
        have hc : List.Chain' R ((Distance :: b.1 :: t.map Prod.fst).dropLast) := by
          apply List.Chain'.init
          exact List.chain_cons.2 ⟨hright _ htie hlt, h⟩
        rw [List.map_cons, List.map_dropLast, List.map_cons]
        exact hc
      · simp only [hlt, if_false]
        exact stepView_chain Epsilon Distance Distr R hleft hright t b.1 (hleft _ htie hlt) h

theorem distances_eq_view (s : BestArray) :
    s.distances = (s.buckets.map BestRec.view).map Prod.fst := by
  simp [BestArray.distances, BestRec.view, List.map_map, Function.comp_def]

/-- Every relation between neighbouring bucket distances that holds for the
seeds and is respected by an insertion holds in every reachable state. -/
theorem reachable_chain (Epsilon DBL_MAX : ℚ) (R : ℚ → ℚ → Prop)
    (hseed : ∀ k, List.Chain' R ((sentinels DBL_MAX k).map Prod.fst))
    (hleft : ∀ d a : ℚ, ¬ |d - a| < Epsilon → ¬ d < a → R a d)
    (hright : ∀ d b : ℚ, ¬ |d - b| < Epsilon → d < b → R d b)
    (s : BestArray) (h : Reachable Epsilon DBL_MAX s) : List.Chain' R s.distances := by
  induction h with
  | init p numN maxB storeI showDi showDb s h =>
    rw [distances_eq_view, init_view _ _ _ _ _ _ _ _ h]
    exact hseed numN
  | addResult s d D nb r s1 hr h ih =>
    have hv := reachable_valid _ _ _ hr
    by_cases hpos : 0 < s.size
    · obtain ⟨_, hb, _⟩ := addResult_some Epsilon s d D nb r s1 hv hpos h
      rw [distances_eq_view, hb, stepList_view]
      apply stepView_chain' _ _ _ R (hleft d) (hright d)
      rw [← distances_eq_view]
      exact ih
    · have h0 : s.size = 0 := by omega
      simp only [BestArray.addResult, h0, addResultLoop] at h
      simp at h

theorem sentinels_fst_get (DBL_MAX : ℚ) (k i : Nat) (hi : i < k) :
    ((sentinels DBL_MAX k).map Prod.fst)[i]? = some ((DBL_MAX - (k : ℚ)) + (i : ℚ)) := by
  simp [sentinels, List.getElem?_range hi, hi]

theorem sentinels_chain (DBL_MAX : ℚ) (R : ℚ → ℚ → Prop)
    (hR : ∀ (k i : Nat), R ((DBL_MAX - (k : ℚ)) + (i : ℚ)) ((DBL_MAX - (k : ℚ)) + ((i + 1 : Nat) : ℚ)))
    (k : Nat) : List.Chain' R ((sentinels DBL_MAX k).map Prod.fst) := by
  rw [List.chain'_iff_get]
  intro i hi
  have hlen : ((sentinels DBL_MAX k).map Prod.fst).length = k := by simp [sentinels]
  have h1 : i < k := by omega
  have h2 : i + 1 < k := by omega
  have e1 := sentinels_fst_get DBL_MAX k i h1
  have e2 := sentinels_fst_get DBL_MAX k (i + 1) h2
  rw [List.getElem?_eq_getElem (by omega)] at e1 e2
  simp only [Option.some.injEq] at e1 e2
  simp only [List.get_eq_getElem]
  rw [e1, e2]
  exact hR k i

theorem addResults_reachable (Epsilon DBL_MAX : ℚ) :
    ∀ (cands : List Candidate) (s : BestArray) (rs : List ℚ) (s1 : BestArray),
      Reachable Epsilon DBL_MAX s → s.addResults Epsilon cands = some (rs, s1) →
      Reachable Epsilon DBL_MAX s1 := by
  intro cands
  induction cands with
  | nil =>
    intro s rs s1 hr h
    simp only [BestArray.addResults, Option.some.injEq, Prod.mk.injEq] at h
    rw [← h.2]; exact hr
  | cons c cs ih =>
    intro s rs s1 hr h
    simp only [BestArray.addResults] at h
    cases h1 : s.addResult Epsilon c.Distance c.Distr c.neighbor with
    | none => rw [h1] at h; simp at h
    | some x =>
      obtain ⟨r, s2⟩ := x
      rw [h1] at h
      simp only at h
      cases h2 : BestArray.addResults Epsilon s2 cs with
      | none => rw [h2] at h; simp at h
      | some y =>
        obtain ⟨rs2, s3⟩ := y
        rw [h2] at h
        simp only [Option.some.injEq, Prod.mk.injEq] at h
        rw [← h.2]
        exact ih s2 rs2 s3 (Reachable.addResult s _ _ _ r s2 hr h1) h2

/-- A run of `init` followed by `addResult` calls ends in a reachable state. -/
theorem reachable_of_run (Epsilon DBL_MAX : ℚ) (p : BestArray) (numN maxB : Nat)
    (storeI showDi showDb : Bool) (cands : List Candidate) (rs : List ℚ) (s : BestArray)
    (h : (p.init DBL_MAX numN maxB storeI showDi showDb).bind
      (fun s0 => s0.addResults Epsilon cands) = some (rs, s)) :
    Reachable Epsilon DBL_MAX s := by
  cases h0 : p.init DBL_MAX numN maxB storeI showDi showDb with
  | none => rw [h0] at h; simp at h
  | some s0 =>
    rw [h0] at h
    exact addResults_reachable Epsilon DBL_MAX cands s0 rs s
      (Reachable.init p numN maxB storeI showDi showDb s0 h0) h

theorem exampleState_reachable : Reachable (1 / 2) 100 exampleState :=
  reachable_of_run (1 / 2) 100 BestArray.fresh 2 2 true false false
    [⟨1, exampleX, "a"⟩, ⟨3, exampleY, "b"⟩] [98, 3] exampleState
    (by with_unfolding_all decide)

theorem chain_getElem (R : ℚ → ℚ → Prop) (s : BestArray)
    (hv : s.size ≤ s.bestArray.length) (h : List.Chain' R s.distances)
    (i : Nat) (hi : i + 1 < s.size) :
    ∃ a b, s.bestArray[i]? = some a ∧ s.bestArray[i + 1]? = some b ∧
      R a.bestDistance b.bestDistance := by
  rw [List.chain'_iff_get] at h
  have hlen : s.distances.length = s.size := by
    simp [BestArray.distances, BestArray.buckets, hv]
  have h1 := h i (by omega)
  refine ⟨s.bestArray[i], s.bestArray[i + 1], List.getElem?_eq_getElem (by omega),
    List.getElem?_eq_getElem (by omega), ?_⟩
  simpa [BestArray.distances, BestArray.buckets] using h1

theorem stepList_append_pass (Epsilon : ℚ) (s : BestArray) (Distance : ℚ)
    (Distr : ValueDistribution) (neighbor : String) (pre l : List BestRec)
    (hpre : ∀ c ∈ pre, ¬ |Distance - c.bestDistance| < Epsilon ∧ ¬ Distance < c.bestDistance) :
    stepList Epsilon s Distance Distr neighbor (pre ++ l)
      = pre ++ stepList Epsilon s Distance Distr neighbor l := by
  induction pre with
  | nil => rfl
  | cons c t ih =>
    have hc := hpre c (List.mem_cons_self _ _)
    simp only [List.cons_append, stepList, hc.1, hc.2, if_false, List.append_eq]
    rw [ih (fun x hx => hpre x (List.mem_cons_of_mem _ hx))]

theorem mem_take_buckets (s : BestArray) (i : Nat) (c : BestRec)
    (hc : c ∈ s.buckets.take i) : ∃ j, j < i ∧ j < s.size ∧ s.bestArray[j]? = some c := by
  rw [List.mem_iff_getElem?] at hc
  obtain ⟨n, hn⟩ := hc
  simp only [BestArray.buckets, List.getElem?_take] at hn
  by_cases h1 : n < i
  · rw [if_pos h1] at hn
    by_cases h2 : n < s.size
    · rw [if_pos h2] at hn
      exact ⟨n, h1, h2, hn⟩
    · rw [if_neg h2] at hn
      simp at hn
  · rw [if_neg h1] at hn
    simp at hn

theorem buckets_split (s : BestArray) (i : Nat) (b : BestRec) (hi : i < s.size)
    (hb : s.bestArray[i]? = some b) :
    s.buckets = s.buckets.take i ++ b :: s.buckets.drop (i + 1) := by
  have hl : i < s.bestArray.length := by
    by_contra hc
    rw [List.getElem?_eq_none (by omega)] at hb
    simp at hb
  have hbk : s.buckets[i]? = some b := by
    simp only [BestArray.buckets, List.getElem?_take, if_pos hi]
    exact hb
  have hlb : i < s.buckets.length := by
    by_contra hc
    rw [List.getElem?_eq_none (by omega)] at hbk
    simp at hbk
  rw [List.getElem?_eq_getElem hlb] at hbk
  simp only [Option.some.injEq] at hbk
  conv_lhs => rw [← List.take_append_drop i s.buckets]
  rw [List.drop_eq_getElem_cons hlb, hbk]

theorem reachable_le (Epsilon DBL_MAX : ℚ) (s : BestArray)
    (h : Reachable Epsilon DBL_MAX s) (j i : Nat) (hji : j ≤ i) (hi : i < s.size)
    (c b : BestRec) (hc : s.bestArray[j]? = some c) (hb : s.bestArray[i]? = some b) :
    c.bestDistance ≤ b.bestDistance := by
  have hv := reachable_valid _ _ _ h
  have hch : List.Chain' (· ≤ ·) s.distances := by
    apply reachable_chain Epsilon DBL_MAX (· ≤ ·) _ _ _ s h
    · apply sentinels_chain
      intro k i
      push_cast
      linarith
    · intro d a _ h2
      exact not_lt.1 h2
    · intro d b _ h2
      exact le_of_lt h2
  rw [List.chain'_iff_pairwise, List.pairwise_iff_getElem] at hch
  have hlen : s.distances.length = s.size := by
    simp [BestArray.distances, BestArray.buckets, hv]
  rw [List.getElem?_eq_getElem (by omega)] at hc hb
  simp only [Option.some.injEq] at hc hb
  rcases Nat.lt_or_eq_of_le hji with hlt | heq
  · have := hch j i (by omega) (by omega) hlt
    simp only [BestArray.distances, BestArray.buckets, List.getElem_map, List.getElem_take] at this
    rw [hc, hb] at this
    exact this
  · subst heq
    rw [hc] at hb
    rw [hb]

/-- C5 (return value): for every state with `k >= 1` buckets and every
candidate, `addResult` returns the `bestDistance` of bucket `k-1` of the state
after the update, whichever branch the call took. -/
theorem C5_return_value (Epsilon : ℚ) (s : BestArray) (Distance : ℚ)
    (Distr : ValueDistribution) (neighbor : String)
    (hv : s.size ≤ s.bestArray.length) (hpos : 1 ≤ s.size) :
    ∃ r s1 last, s.addResult Epsilon Distance Distr neighbor = some (r, s1) ∧
      s1.size = s.size ∧ s1.bestArray[s1.size - 1]? = some last ∧
      r = last.bestDistance := by
  obtain ⟨last, h1, h2⟩ := addResult_eq Epsilon s Distance Distr neighbor hv hpos
  refine ⟨_, _, last, h2, rfl, ?_, rfl⟩
  have hlt : s.size - 1 < (stepList Epsilon s Distance Distr neighbor s.buckets).length := by
    rw [stepList_length, buckets_length s hv]; omega
  simp only
  rw [List.getElem?_append_left hlt]
  exact h1

theorem C5_return_value_witness :
    ∃ r s1 last, exampleState.addResult (1 / 2) 2 exampleY "c" = some (r, s1) ∧
      s1.size = exampleState.size ∧ s1.bestArray[s1.size - 1]? = some last ∧
      r = last.bestDistance :=
  C5_return_value (1 / 2) exampleState 2 exampleY "c" (by decide) (by decide)

/-- C3 (tie step): in every reachable state, when bucket `i` is the
lowest-indexed bucket whose `bestDistance` is within `Epsilon` of the
candidate's distance, `addResult` merges the candidate's distribution into the
aggregate of bucket `i`, appends the label and a copy of the distribution to
that bucket if and only if instances are stored and the bucket retains fewer
than `maxBests` labels, and changes nothing else. -/
theorem C3_tie_step (Epsilon DBL_MAX : ℚ) (s : BestArray)
    (h : Reachable Epsilon DBL_MAX s) (Distance : ℚ) (Distr : ValueDistribution)
    (neighbor : String) (i : Nat) (b : BestRec) (hi : i < s.size)
    (hb : s.bestArray[i]? = some b)
    (htie : |Distance - b.bestDistance| < Epsilon)
    (hfirst : ∀ j c, j < i → s.bestArray[j]? = some c →
      ¬ |Distance - c.bestDistance| < Epsilon) :
    ∃ r, s.addResult Epsilon Distance Distr neighbor = some (r,
      { s with bestArray := s.bestArray.set i (
          { bestDistance := b.bestDistance
            aggregateDist := b.aggregateDist.Merge Distr
            bestInstances :=
              if s._storeInstances = true ∧ b.bestInstances.length < s.maxBests
              then b.bestInstances ++ [neighbor] else b.bestInstances
            bestDistributions :=
              if s._storeInstances = true ∧ b.bestInstances.length < s.maxBests
              then b.bestDistributions ++ [Distr.to_VD_Copy] else b.bestDistributions }) }) := by
  have hv := reachable_valid _ _ _ h
  obtain ⟨last, _, h2⟩ := addResult_eq Epsilon s Distance Distr neighbor hv (by omega)
  refine ⟨last.bestDistance, ?_⟩
  rw [h2]
  have hpre : ∀ c ∈ s.buckets.take i,
      ¬ |Distance - c.bestDistance| < Epsilon ∧ ¬ Distance < c.bestDistance := by
    intro c hc
    obtain ⟨j, hj, _, hcj⟩ := mem_take_buckets s i c hc
    have hnt := hfirst j c hj hcj
    refine ⟨hnt, ?_⟩
    intro hlt
    have hle := reachable_le Epsilon DBL_MAX s h j i (by omega) hi c b hcj hb
    apply hnt
    rw [abs_lt] at htie ⊢
    constructor <;> linarith [htie.1, htie.2]
  have hstep : stepList Epsilon s Distance Distr neighbor s.buckets
      = s.buckets.take i ++ tieRec s Distr neighbor b :: s.buckets.drop (i + 1) := by
    conv_lhs => rw [buckets_split s i b hi hb]
    rw [stepList_append_pass _ _ _ _ _ _ _ hpre]
    simp only [stepList, htie, if_true]
  have hset := set_eq_take_cons_drop s.bestArray i s.size (tieRec s Distr neighbor b) hi hv
  have htk : s.buckets.take i = s.bestArray.take i := by
    simp only [BestArray.buckets, List.take_take]
    rw [Nat.min_eq_left (by omega)]
  have hrec : tieRec s Distr neighbor b =
      { bestDistance := b.bestDistance
        aggregateDist := b.aggregateDist.Merge Distr
        bestInstances :=
          if s._storeInstances = true ∧ b.bestInstances.length < s.maxBests
          then b.bestInstances ++ [neighbor] else b.bestInstances
        bestDistributions :=
          if s._storeInstances = true ∧ b.bestInstances.length < s.maxBests
          then b.bestDistributions ++ [Distr.to_VD_Copy] else b.bestDistributions } := by
    simp only [tieRec]
    by_cases hc : s._storeInstances = true ∧ b.bestInstances.length < s.maxBests
    · simp [hc]
    · simp only [hc, if_false]
      have : ¬ ((s._storeInstances && decide (b.bestInstances.length < s.maxBests)) = true) := by
        simpa using hc
      simp [this]
  rw [hstep, ← hrec, hset, htk]
  simp only [BestArray.buckets, List.append_assoc, List.cons_append]

theorem C3_tie_step_witness :
    ∃ r, exampleState.addResult (1 / 2) (5 / 4) exampleY "c" = some (r,
      { exampleState with bestArray := exampleState.bestArray.set 0 (
          { bestDistance := (1 : ℚ)
            aggregateDist := exampleX.Merge exampleY
            bestInstances :=
              if exampleState._storeInstances = true ∧ ["a"].length < exampleState.maxBests
              then ["a"] ++ ["c"] else ["a"]
            bestDistributions :=
              if exampleState._storeInstances = true ∧ ["a"].length < exampleState.maxBests
              then [exampleX] ++ [exampleY.to_VD_Copy] else [exampleX] }) }) :=
  C3_tie_step (1 / 2) 100 exampleState exampleState_reachable (5 / 4) exampleY "c" 0
    { bestDistance := 1, aggregateDist := exampleX, bestInstances := ["a"]
      bestDistributions := [exampleX] }
    (by decide) (by decide) (by with_unfolding_all decide) (by intro j c hj; omega)

theorem stepList_forall (Epsilon : ℚ) (s : BestArray) (Distance : ℚ)
    (Distr : ValueDistribution) (neighbor : String) (P : BestRec → Prop)
    (htie : ∀ b, P b → P (tieRec s Distr neighbor b))
    (hfill : ∀ r, P r → P (fillRec s Distance Distr neighbor r)) :
    ∀ l : List BestRec, (∀ b ∈ l, P b) →
      ∀ b ∈ stepList Epsilon s Distance Distr neighbor l, P b := by
  intro l
  induction l with
  | nil => intro _ b hb; simp [stepList] at hb
  | cons c t ih =>
    intro hl b hb
    simp only [stepList] at hb
    split at hb
    · rcases List.mem_cons.1 hb with h1 | h1
      · rw [h1]; exact htie c (hl c (List.mem_cons_self _ _))
      · exact hl b (List.mem_cons_of_mem _ h1)
    · split at hb
      · rcases List.mem_cons.1 hb with h1 | h1
        · rw [h1]
          apply hfill
          apply hl
          rw [List.getLastD_cons]
          exact List.getLastD_mem_cons t c
        · exact hl b (List.mem_of_mem_dropLast h1)
      · rcases List.mem_cons.1 hb with h1 | h1
        · rw [h1]; exact hl c (List.mem_cons_self _ _)
        · exact ih (fun x hx => hl x (List.mem_cons_of_mem _ hx)) b h1

/-- A property of buckets that holds for seeded buckets and is kept by the
tie and fill updates holds for every bucket in use of a reachable state. -/
theorem reachable_forall (Epsilon DBL_MAX : ℚ) (P : Bool → Nat → BestRec → Prop)
    (hinit : ∀ st mb numN j b0, P st mb (initRec DBL_MAX numN j b0))
    (htie : ∀ (s : BestArray) D nb b, P s._storeInstances s.maxBests b →
      P s._storeInstances s.maxBests (tieRec s D nb b))
    (hfill : ∀ (s : BestArray) d D nb r, P s._storeInstances s.maxBests r →
      P s._storeInstances s.maxBests (fillRec s d D nb r))
    (s : BestArray) (h : Reachable Epsilon DBL_MAX s) :
    ∀ b ∈ s.buckets, P s._storeInstances s.maxBests b := by
  induction h with
  | init p numN maxB storeI showDi showDb s h =>
    intro b hb
    obtain ⟨h1, _, _, _, _, _, h7⟩ := init_some _ _ _ _ _ _ _ _ h
    have htt : s.buckets.take s.size = s.buckets := by
      simp [BestArray.buckets, List.take_take]
    obtain ⟨j, _, hj, hbj⟩ := mem_take_buckets s s.size b (by rw [htt]; exact hb)
    obtain ⟨b0, hb0⟩ := h7 j (by omega)
    rw [hb0] at hbj
    simp only [Option.some.injEq] at hbj
    rw [← hbj]
    exact hinit _ _ _ _ _
  | addResult s d D nb r s1 hr h ih =>
    have hv := reachable_valid _ _ _ hr
    by_cases hpos : 0 < s.size
    · obtain ⟨hs, hb, _⟩ := addResult_some Epsilon s d D nb r s1 hv hpos h
      rw [hb]
      have e1 : s1._storeInstances = s._storeInstances := by rw [hs]
      have e2 : s1.maxBests = s.maxBests := by rw [hs]
      rw [e1, e2]
      exact stepList_forall Epsilon s d D nb _ (htie s D nb) (hfill s d D nb) _ ih
    · have h0 : s.size = 0 := by omega
      simp only [BestArray.addResult, h0, addResultLoop] at h
      simp at h

theorem reachable_nostore (Epsilon DBL_MAX : ℚ) (s : BestArray)
    (h : Reachable Epsilon DBL_MAX s) (hst : s._storeInstances = false) :
    ∀ b ∈ s.buckets, b.bestInstances = [] := by
  intro b hb
  refine reachable_forall Epsilon DBL_MAX (fun st _ b => st = false → b.bestInstances = [])
    ?_ ?_ ?_ s h b hb hst
  · intro st mb numN j b0 _
    simp only [initRec]
    cases h0 : b0.bestInstances <;> simp
  · intro s D nb b hP hs
    simp only [tieRec, hs, Bool.false_and]
    exact hP hs
  · intro s d D nb r hP hs
    simp only [fillRec, hs]
    exact hP hs

theorem addEntry_append_last (acc : List (Nat × Vfield)) (k : Nat) (v : Vfield)
    (h : ∀ x ∈ acc, x.1 < k) :
    ValueDistribution.addEntry acc k v = acc ++ [(k, v)] := by
  induction acc with
  | nil => rfl
  | cons e t ih =>
    obtain ⟨k1, e1⟩ := e
    have h1 : k1 < k := h (k1, e1) (List.mem_cons_self _ _)
    have h2 : ¬ k < k1 := by omega
    have h3 : ¬ k = k1 := by omega
    simp only [ValueDistribution.addEntry, h2, h3, if_false, List.cons_append]
    rw [ih (fun x hx => h x (List.mem_cons_of_mem _ hx))]

theorem foldl_addEntry_sorted (l : List (Nat × Vfield)) :
    ∀ acc : List (Nat × Vfield), (l.map Prod.fst).Pairwise (· < ·) →
      (∀ x ∈ acc, ∀ y ∈ l, x.1 < y.1) →
      l.foldl (fun a e => ValueDistribution.addEntry a e.1 e.2) acc = acc ++ l := by
  induction l with
  | nil => intro acc _ _; simp
  | cons e t ih =>
    intro acc hp hacc
    simp only [List.map_cons, List.pairwise_cons] at hp
    simp only [List.foldl_cons]
    rw [addEntry_append_last acc e.1 e.2 (fun x hx => hacc x hx e (List.mem_cons_self _ _))]
    rw [ih (acc ++ [(e.1, e.2)]) hp.2]
    · simp
    · intro x hx y hy
      rcases List.mem_append.1 hx with h1 | h1
      · exact hacc x h1 y (List.mem_cons_of_mem _ hy)
      · simp only [List.mem_singleton] at h1
        rw [h1]
        exact hp.1 y.1 (List.mem_map_of_mem _ hy)

/-- Merging a well-formed distribution into a cleared one yields that
distribution. -/
theorem Merge_clear (D : ValueDistribution) (hD : D.WellFormed) :
    ValueDistribution.clear.Merge D = D := by
  cases D with
  | mk t l =>
    simp only [ValueDistribution.Merge, ValueDistribution.clear, Nat.zero_add]
    rw [foldl_addEntry_sorted l [] hD (by simp)]
    simp

/-- C4 (insert/replace step): in every reachable state, if no bucket before
bucket `i` is within `Epsilon` of the candidate's distance or has a larger
distance, and bucket `i` has a larger distance and is not within `Epsilon` of
it, then after the call the buckets are `old[0..i-1]`, a fresh bucket holding
the candidate (its distance, exactly its distribution as aggregate, and the
labels `[label]` when instances are stored, none otherwise), and
`old[i..k-2]`; the old last bucket is gone. -/
theorem C4_insert_step (Epsilon DBL_MAX : ℚ) (s : BestArray)
    (h : Reachable Epsilon DBL_MAX s) (Distance : ℚ) (Distr : ValueDistribution)
    (hD : Distr.WellFormed) (neighbor : String) (i : Nat) (b : BestRec) (hi : i < s.size)
    (hb : s.bestArray[i]? = some b)
    (hlt : Distance < b.bestDistance) (hnt : ¬ |Distance - b.bestDistance| < Epsilon)
    (hprev : ∀ j c, j < i → s.bestArray[j]? = some c →
      ¬ |Distance - c.bestDistance| < Epsilon ∧ ¬ Distance < c.bestDistance) :
    ∃ r s1 fresh, s.addResult Epsilon Distance Distr neighbor = some (r, s1) ∧
      s1.size = s.size ∧ s1._storeInstances = s._storeInstances ∧ s1.maxBests = s.maxBests ∧
      s1.buckets = s.buckets.take i ++ fresh :: (s.buckets.take (s.size - 1)).drop i ∧
      fresh.bestDistance = Distance ∧ fresh.aggregateDist = Distr ∧
      fresh.bestInstances = (if s._storeInstances = true then [neighbor] else []) := by
  have hv := reachable_valid _ _ _ h
  obtain ⟨last, _, h2⟩ := addResult_eq Epsilon s Distance Distr neighbor hv (by omega)
  have hpre : ∀ c ∈ s.buckets.take i,
      ¬ |Distance - c.bestDistance| < Epsilon ∧ ¬ Distance < c.bestDistance := by
    intro c hc
    obtain ⟨j, hj, _, hcj⟩ := mem_take_buckets s i c hc
    exact hprev j c hj hcj
  have hsplit := buckets_split s i b hi hb
  have hdrop : b :: s.buckets.drop (i + 1) = s.buckets.drop i := by
    have := congrArg (List.drop i) hsplit
    rw [List.drop_left' (by
      rw [List.length_take, buckets_length s hv]; omega)] at this
    exact this.symm
  have hstep : stepList Epsilon s Distance Distr neighbor s.buckets
      = s.buckets.take i ++
        fillRec s Distance Distr neighbor ((b :: s.buckets.drop (i + 1)).getLastD b)
          :: (s.buckets.take (s.size - 1)).drop i := by
    conv_lhs => rw [hsplit]
    rw [stepList_append_pass _ _ _ _ _ _ _ hpre]
    simp only [stepList, hnt, hlt, if_true, if_false]
    rw [hdrop]
    have e := dropLast_drop_take s.bestArray i s.size hv
    have e2 : s.buckets.take (s.size - 1) = s.bestArray.take (s.size - 1) := by
      simp only [BestArray.buckets, List.take_take]
      rw [Nat.min_eq_left (by omega)]
    rw [e2, ← e]
    rfl
  refine ⟨_, _, fillRec s Distance Distr neighbor ((b :: s.buckets.drop (i + 1)).getLastD b),
    h2, rfl, rfl, rfl, ?_, rfl, ?_, ?_⟩
  · simp only [BestArray.buckets]
    rw [List.take_left' (by rw [stepList_length]; exact buckets_length s hv)]
    exact hstep
  · simp only [fillRec]
    exact Merge_clear Distr hD
  · simp only [fillRec]
    by_cases hst : s._storeInstances = true
    · simp [hst]
    · have hst2 : s._storeInstances = false := by simpa using hst
      simp only [hst2, if_false]
      apply reachable_nostore Epsilon DBL_MAX s h hst2
      have hmem : (b :: s.buckets.drop (i + 1)).getLastD b ∈ b :: s.buckets.drop (i + 1) := by
        rw [List.getLastD_cons]
        exact List.getLastD_mem_cons _ _
      have hmem2 := List.mem_append_right (s.buckets.take i) hmem
      rw [← hsplit] at hmem2
      exact hmem2

theorem C4_insert_step_witness :
    ∃ r s1 fresh, exampleState.addResult (1 / 2) 2 exampleY "c" = some (r, s1) ∧
      s1.size = exampleState.size ∧ s1._storeInstances = exampleState._storeInstances ∧
      s1.maxBests = exampleState.maxBests ∧
      s1.buckets = exampleState.buckets.take 1
        ++ fresh :: (exampleState.buckets.take (exampleState.size - 1)).drop 1 ∧
      fresh.bestDistance = 2 ∧ fresh.aggregateDist = exampleY ∧
      fresh.bestInstances = (if exampleState._storeInstances = true then ["c"] else []) :=
  C4_insert_step (1 / 2) 100 exampleState exampleState_reachable 2 exampleY (by decide) "c" 1
    { bestDistance := 3, aggregateDist := exampleY, bestInstances := ["b"]
      bestDistributions := [exampleY] }
    (by decide) (by decide) (by with_unfolding_all decide) (by with_unfolding_all decide)
    (by
      intro j c hj hc
      have hj0 : j = 0 := by omega
      subst hj0
      have hc1 : c = { bestDistance := 1, aggregateDist := exampleX, bestInstances := ["a"]
                       bestDistributions := [exampleX] } := by
        simpa [exampleState] using hc.symm
      subst hc1
      with_unfolding_all decide)

theorem exampleHalf_reachable :
    Reachable (1 / 4503599627370496) 100 exampleHalf :=
  reachable_of_run (1 / 4503599627370496) 100 BestArray.fresh 1 2 true false false
    [⟨1 / 2, exampleX, "a"⟩] [1 / 2] exampleHalf (by with_unfolding_all decide)

/-- C6, as stated, fails: with `Epsilon` = 2^-52 and the single bucket at
distance 0.5, the candidate at distance 0.5 + 2^-53 is worse than the k-th
distance, yet `addResult` merges it into the bucket (the state changes). -/
theorem C6_counterexample :
    Reachable (1 / 4503599627370496) 100 exampleHalf ∧ 1 ≤ exampleHalf.size ∧
    (∃ last, exampleHalf.bestArray[exampleHalf.size - 1]? = some last ∧
      last.bestDistance < 1 / 2 + 1 / 9007199254740992) ∧
    ¬ ∃ r, exampleHalf.addResult (1 / 4503599627370496) (1 / 2 + 1 / 9007199254740992)
        exampleY "c" = some (r, exampleHalf) := by
  refine ⟨exampleHalf_reachable, by decide, ⟨_, rfl, by with_unfolding_all decide⟩, ?_⟩
  rintro ⟨r, hr⟩
  have e : exampleHalf.addResult (1 / 4503599627370496) (1 / 2 + 1 / 9007199254740992)
      exampleY "c" = some (1 / 2,
        { exampleHalf with bestArray :=
            [ { bestDistance := 1 / 2, aggregateDist := exampleX.Merge exampleY
                bestInstances := ["a", "c"], bestDistributions := [exampleX, exampleY] } ] }) := by
    with_unfolding_all decide
  rw [e] at hr
  simp only [Option.some.injEq, Prod.mk.injEq] at hr
  exact absurd hr.2 (by with_unfolding_all decide)

/-- C6, amended (worse candidates are ignored): for every reachable state
with `k >= 1` and every candidate whose distance is greater than the current
k-th distance `bestDistance[k-1]` and not within `Epsilon` of it, `addResult`
does not fail, leaves every bucket unchanged, and returns the unchanged k-th
distance. -/
theorem C6_worse_ignored (Epsilon DBL_MAX : ℚ) (s : BestArray)
    (h : Reachable Epsilon DBL_MAX s) (Distance : ℚ) (Distr : ValueDistribution)
    (neighbor : String) (last : BestRec) (hpos : 1 ≤ s.size)
    (hlast : s.bestArray[s.size - 1]? = some last)
    (hworse : last.bestDistance < Distance)
    (hnt : ¬ |Distance - last.bestDistance| < Epsilon) :
    s.addResult Epsilon Distance Distr neighbor = some (last.bestDistance, s) := by
  have hv := reachable_valid _ _ _ h
  obtain ⟨l2, h1, h2⟩ := addResult_eq Epsilon s Distance Distr neighbor hv hpos
  have hpre : ∀ c ∈ s.buckets,
      ¬ |Distance - c.bestDistance| < Epsilon ∧ ¬ Distance < c.bestDistance := by
    intro c hc
    have htt : s.buckets.take s.size = s.buckets := by
      simp [BestArray.buckets, List.take_take]
    obtain ⟨j, _, hj, hcj⟩ := mem_take_buckets s s.size c (by rw [htt]; exact hc)
    have hle := reachable_le Epsilon DBL_MAX s h j (s.size - 1) (by omega) (by omega)
      c last hcj hlast
    constructor
    · intro ht
      apply hnt
      rw [abs_lt] at ht ⊢
      constructor <;> linarith [ht.1, ht.2]
    · intro hl
      linarith
  have hstep : stepList Epsilon s Distance Distr neighbor s.buckets = s.buckets := by
    have := stepList_append_pass Epsilon s Distance Distr neighbor s.buckets [] hpre
    simpa [stepList] using this
  rw [hstep] at h1 h2
  have hl2 : l2 = last := by
    simp only [BestArray.buckets, List.getElem?_take] at h1
    rw [if_pos (by omega), hlast] at h1
    exact (Option.some.inj h1).symm
  rw [h2, hl2]
  simp only [BestArray.buckets, List.take_append_drop]

theorem C6_worse_ignored_witness :
    exampleState.addResult (1 / 2) 4 exampleY "c" = some ((3 : ℚ), exampleState) :=
  C6_worse_ignored (1 / 2) 100 exampleState exampleState_reachable 4 exampleY "c"
    { bestDistance := 3, aggregateDist := exampleY, bestInstances := ["b"]
      bestDistributions := [exampleY] }
    (by decide) (by decide) (by with_unfolding_all decide) (by with_unfolding_all decide)

theorem addResultLoop_config (Epsilon : ℚ) (s : BestArray) (Distance : ℚ)
    (Distr : ValueDistribution) (neighbor : String) :
    ∀ n k s1, addResultLoop Epsilon s Distance Distr neighbor n k = some s1 →
      s1.size = s.size ∧ s1.maxBests = s.maxBests ∧
      s1._storeInstances = s._storeInstances := by
  intro n
  induction n with
  | zero =>
    intro k s1 h
    simp only [addResultLoop, Option.some.injEq] at h
    rw [← h]; exact ⟨rfl, rfl, rfl⟩
  | succ n ih =>
    intro k s1 h
    simp only [addResultLoop] at h
    split at h
    · simp at h
    · split at h
      · simp only [Option.some.injEq] at h
        rw [← h]; exact ⟨rfl, rfl, rfl⟩
      · split at h
        · split at h
          · simp only [Option.some.injEq] at h
            rw [← h]; exact ⟨rfl, rfl, rfl⟩
          · split at h
            · simp at h
            · simp only [Option.some.injEq] at h
              rw [← h]; exact ⟨rfl, rfl, rfl⟩
        · exact ih _ _ h

theorem addResult_config (Epsilon : ℚ) (s : BestArray) (Distance : ℚ)
    (Distr : ValueDistribution) (neighbor : String) (r : ℚ) (s1 : BestArray)
    (h : s.addResult Epsilon Distance Distr neighbor = some (r, s1)) :
    s1.size = s.size ∧ s1.maxBests = s.maxBests ∧
      s1._storeInstances = s._storeInstances := by
  simp only [BestArray.addResult] at h
  split at h
  · simp at h
  · rename_i s2 hs2
    split at h
    · simp at h
    · split at h
      · simp at h
      · simp only [Option.some.injEq, Prod.mk.injEq] at h
        rw [← h.2]
        exact addResultLoop_config Epsilon s Distance Distr neighbor _ _ _ hs2

theorem addResults_config (Epsilon : ℚ) :
    ∀ (cands : List Candidate) (s : BestArray) (rs : List ℚ) (s1 : BestArray),
      s.addResults Epsilon cands = some (rs, s1) →
      s1.size = s.size ∧ s1.maxBests = s.maxBests ∧
        s1._storeInstances = s._storeInstances := by
  intro cands
  induction cands with
  | nil =>
    intro s rs s1 h
    simp only [BestArray.addResults, Option.some.injEq, Prod.mk.injEq] at h
    rw [← h.2]; exact ⟨rfl, rfl, rfl⟩
  | cons c cs ih =>
    intro s rs s1 h
    simp only [BestArray.addResults] at h
    cases h1 : s.addResult Epsilon c.Distance c.Distr c.neighbor with
    | none => rw [h1] at h; simp at h
    | some x =>
      obtain ⟨r, s2⟩ := x
      rw [h1] at h
      simp only at h
      cases h2 : BestArray.addResults Epsilon s2 cs with
      | none => rw [h2] at h; simp at h
      | some y =>
        obtain ⟨rs2, s3⟩ := y
        rw [h2] at h
        simp only [Option.some.injEq, Prod.mk.injEq] at h
        rw [← h.2]
        obtain ⟨a1, a2, a3⟩ := addResult_config Epsilon s _ _ _ r s2 h1
        obtain ⟨b1, b2, b3⟩ := ih s2 rs2 s3 h2
        exact ⟨b1.trans a1, b2.trans a2, b3.trans a3⟩

/-- C9, as stated, fails for `max_bests = 0`: after `init( 1, 0, true, .. )`
the first candidate is put into bucket 0 by the replace branch, which retains
its label without looking at `maxBests`. -/
theorem C9_counterexample :
    (BestArray.fresh.init 100 1 0 true false false).bind
        (fun s0 => s0.addResults (1 / 2) [⟨1, exampleX, "a"⟩]) = some ([1], exampleZeroCap) ∧
    ∃ b ∈ exampleZeroCap.buckets, ¬ b.bestInstances.length ≤ 0 := by
  refine ⟨by with_unfolding_all decide, ?_⟩
  refine ⟨{ bestDistance := 1, aggregateDist := exampleX, bestInstances := ["a"]
            bestDistributions := [exampleX] }, ?_, by decide⟩
  simp [exampleZeroCap, BestArray.buckets]

/-- C9, amended (bounded label retention): in every state reached by
`init( k, max_bests, store_instances = true, .. )` followed by any sequence of
`addResult` calls, every bucket retains at most `max_bests` instance labels,
for every `max_bests >= 1`. -/
theorem C9_bounded_labels (Epsilon DBL_MAX : ℚ) (p : BestArray) (k maxB : Nat)
    (hmb : 1 ≤ maxB) (showDi showDb : Bool) (cands : List Candidate) (rs : List ℚ)
    (s : BestArray)
    (hrun : (p.init DBL_MAX k maxB true showDi showDb).bind
      (fun s0 => s0.addResults Epsilon cands) = some (rs, s)) :
    ∀ b ∈ s.buckets, b.bestInstances.length ≤ maxB := by
  have hr := reachable_of_run Epsilon DBL_MAX p k maxB true showDi showDb cands rs s hrun
  have hmax : s.maxBests = maxB := by
    cases h0 : p.init DBL_MAX k maxB true showDi showDb with
    | none => rw [h0] at hrun; simp at hrun
    | some s0 =>
      rw [h0] at hrun
      have c := addResults_config Epsilon cands s0 rs s hrun
      have i := init_some _ _ _ _ _ _ _ _ h0
      rw [c.2.1, i.2.1]
  intro b hb
  have := reachable_forall Epsilon DBL_MAX
    (fun _ mb b => 1 ≤ mb → b.bestInstances.length ≤ mb) ?_ ?_ ?_ s hr b hb
  · rw [hmax] at this
    exact this hmb
  · intro st mb numN j b0 _
    simp only [initRec]
    cases h0 : b0.bestInstances <;> simp
  · intro s D nb b hP h1
    simp only [tieRec]
    split
    · rename_i hc
      simp only [Bool.and_eq_true, decide_eq_true_eq] at hc
      simp only [List.length_append, List.length_singleton]
      omega
    · exact hP h1
  · intro s d D nb r hP h1
    simp only [fillRec]
    split
    · simpa using h1
    · exact hP h1

theorem C9_bounded_labels_witness :
    (BestArray.fresh.init 100 2 2 true false false).bind
        (fun s0 => s0.addResults (1 / 2) [⟨1, exampleX, "a"⟩, ⟨3, exampleY, "b"⟩])
      = some ([98, 3], exampleState) ∧
    ({ bestDistance := 3, aggregateDist := exampleY, bestInstances := ["b"]
       bestDistributions := [exampleY] } : BestRec) ∈ exampleState.buckets ∧
    ({ bestDistance := 3, aggregateDist := exampleY, bestInstances := ["b"]
       bestDistributions := [exampleY] } : BestRec).bestInstances.length ≤ 2 :=
  ⟨by with_unfolding_all decide, by simp [exampleState, BestArray.buckets],
    C9_bounded_labels (1 / 2) 100 BestArray.fresh 2 2 (by decide) false false
      [⟨1, exampleX, "a"⟩, ⟨3, exampleY, "b"⟩] [98, 3] exampleState
      (by with_unfolding_all decide) _ (by simp [exampleState, BestArray.buckets])⟩

/-- The step of `addResult` seen through the views: it always succeeds on a
valid state with at least one bucket, acts as `stepView`, and returns the
distance of the last view. -/
theorem addResult_view (Epsilon : ℚ) (s : BestArray) (Distance : ℚ)
    (Distr : ValueDistribution) (neighbor : String)
    (hv : s.size ≤ s.bestArray.length) (hpos : 1 ≤ s.size) :
    ∃ r s1, s.addResult Epsilon Distance Distr neighbor = some (r, s1) ∧
      s1.size = s.size ∧ s1.size ≤ s1.bestArray.length ∧
      s1.buckets.map BestRec.view = stepView Epsilon Distance Distr (s.buckets.map BestRec.view) ∧
      ((stepView Epsilon Distance Distr (s.buckets.map BestRec.view))[s.size - 1]?).map Prod.fst
        = some r := by
  obtain ⟨last, h1, h2⟩ := addResult_eq Epsilon s Distance Distr neighbor hv hpos
  obtain ⟨hs, hb, _⟩ := addResult_some Epsilon s Distance Distr neighbor _ _ hv hpos h2
  refine ⟨_, _, h2, rfl, ?_, ?_, ?_⟩
  · simp only [List.length_append, List.length_drop, stepList_length]
    rw [buckets_length s hv]
    omega
  · rw [hb, stepList_view]
  · rw [← stepList_view, List.getElem?_map, h1]
    rfl

theorem Vfield_add_comm (e v1 v2 : Vfield) :
    (e.add v1.frequency v1.weight).add v2.frequency v2.weight
      = (e.add v2.frequency v2.weight).add v1.frequency v1.weight := by
  simp only [Vfield.add, Vfield.mk.injEq]
  constructor
  · omega
  · ring

theorem addEntry_cons_lt (k : Nat) (e : Vfield) (rest : List (Nat × Vfield)) (key : Nat)
    (v : Vfield) (h : key < k) :
    ValueDistribution.addEntry ((k, e) :: rest) key v = (key, v) :: (k, e) :: rest := by
  simp only [ValueDistribution.addEntry, h, if_true]

theorem addEntry_cons_eq (k : Nat) (e : Vfield) (rest : List (Nat × Vfield))
    (v : Vfield) :
    ValueDistribution.addEntry ((k, e) :: rest) k v = (k, e.add v.frequency v.weight) :: rest := by
  simp only [ValueDistribution.addEntry, lt_self_iff_false, if_true, if_false]

theorem addEntry_cons_gt (k : Nat) (e : Vfield) (rest : List (Nat × Vfield)) (key : Nat)
    (v : Vfield) (h : k < key) :
    ValueDistribution.addEntry ((k, e) :: rest) key v = (k, e) :: ValueDistribution.addEntry rest key v := by
  have h1 : ¬ key < k := by omega
  have h2 : ¬ key = k := by omega
  simp only [ValueDistribution.addEntry, h1, h2, if_false]

theorem addEntry_comm (l : List (Nat × Vfield)) (k1 : Nat) (v1 : Vfield) (k2 : Nat)
    (v2 : Vfield) :
    ValueDistribution.addEntry (ValueDistribution.addEntry l k1 v1) k2 v2
      = ValueDistribution.addEntry (ValueDistribution.addEntry l k2 v2) k1 v1 := by
  induction l with
  | nil =>
    simp only [ValueDistribution.addEntry]
    rcases Nat.lt_trichotomy k1 k2 with h | h | h
    · have a1 : ¬ k2 < k1 := by omega
      have a2 : ¬ k2 = k1 := by omega
      simp [a1, a2, h]
    · subst h
      simp [Vfield.add, Nat.add_comm, add_comm]
    · have a1 : ¬ k1 < k2 := by omega
      have a2 : ¬ k1 = k2 := by omega
      simp [a1, a2, h]
  | cons e t ih =>
    obtain ⟨k, e⟩ := e
    rcases Nat.lt_trichotomy k1 k with h1 | h1 | h1
    · rw [addEntry_cons_lt _ _ _ _ _ h1]
      rcases Nat.lt_trichotomy k2 k with h2 | h2 | h2
      · rw [addEntry_cons_lt _ _ _ _ _ h2]
        rcases Nat.lt_trichotomy k1 k2 with h3 | h3 | h3
        · rw [addEntry_cons_gt _ _ _ _ _ h3, addEntry_cons_lt _ _ _ _ _ h2,
            addEntry_cons_lt _ _ _ _ _ h3]
        · subst h3
          rw [addEntry_cons_eq, addEntry_cons_eq]
          simp [Vfield.add, Nat.add_comm, add_comm]
        · rw [addEntry_cons_lt _ _ _ _ _ h3, addEntry_cons_gt _ _ _ _ _ h3,
            addEntry_cons_lt _ _ _ _ _ h1]
      · subst h2
        rw [addEntry_cons_eq, addEntry_cons_gt _ _ _ _ _ h1, addEntry_cons_eq,
          addEntry_cons_lt _ _ _ _ _ h1]
      · rw [addEntry_cons_gt _ _ _ _ _ (by omega : k1 < k2), addEntry_cons_gt _ _ _ _ _ h2,
          addEntry_cons_lt _ _ _ _ _ h1]
    · subst h1
      rw [addEntry_cons_eq]
      rcases Nat.lt_trichotomy k2 k1 with h2 | h2 | h2
      · rw [addEntry_cons_lt _ _ _ _ _ h2, addEntry_cons_lt _ _ _ _ _ h2,
          addEntry_cons_gt _ _ _ _ _ h2, addEntry_cons_eq]
      · subst h2
        rw [addEntry_cons_eq, addEntry_cons_eq, addEntry_cons_eq, Vfield_add_comm]
      · rw [addEntry_cons_gt _ _ _ _ _ h2, addEntry_cons_gt _ _ _ _ _ h2, addEntry_cons_eq]
    · rw [addEntry_cons_gt _ _ _ _ _ h1]
      rcases Nat.lt_trichotomy k2 k with h2 | h2 | h2
      · rw [addEntry_cons_lt _ _ _ _ _ h2, addEntry_cons_lt _ _ _ _ _ h2,
          addEntry_cons_gt _ _ _ _ _ (by omega : k2 < k1), addEntry_cons_gt _ _ _ _ _ h1]
      · subst h2
        rw [addEntry_cons_eq, addEntry_cons_eq, addEntry_cons_gt _ _ _ _ _ h1]
      · rw [addEntry_cons_gt _ _ _ _ _ h2, addEntry_cons_gt _ _ _ _ _ h2,
          addEntry_cons_gt _ _ _ _ _ h1, ih]

/-- Merging two distributions into an aggregate gives the same aggregate in
either order. -/
theorem Merge_comm (a D1 D2 : ValueDistribution) :
    (a.Merge D1).Merge D2 = (a.Merge D2).Merge D1 := by
  have hrc : RightCommutative
      (fun (acc : List (Nat × Vfield)) (e : Nat × Vfield) =>
        ValueDistribution.addEntry acc e.1 e.2) :=
    ⟨fun b x y => addEntry_comm b x.1 x.2 y.1 y.2⟩
  simp only [ValueDistribution.Merge, ValueDistribution.mk.injEq]
  constructor
  · omega
  · rw [← List.foldl_append, ← List.foldl_append]
    exact List.Perm.foldl_eq List.perm_append_comm _

theorem stepView_comm (Epsilon : ℚ) (hpos : 0 < Epsilon) (Distance : ℚ)
    (D1 D2 : ValueDistribution) (l : List (ℚ × ValueDistribution)) :
    stepView Epsilon Distance D2 (stepView Epsilon Distance D1 l)
      = stepView Epsilon Distance D1 (stepView Epsilon Distance D2 l) := by
  have hself : |Distance - Distance| < Epsilon := by simpa using hpos
  induction l with
  | nil => rfl
  | cons b t ih =>
    by_cases htie : |Distance - b.1| < Epsilon
    · simp only [stepView, htie, if_true]
      rw [Merge_comm]
    · by_cases hlt : Distance < b.1
      · simp only [stepView, htie, hlt, hself, if_true, if_false]
        rw [Merge_comm]
      · simp only [stepView, htie, hlt, if_false]
        rw [ih]

/-- C7 (tie-merge is order independent): for every reachable state with at
least one bucket and any two candidates with the same distance `d` and
distributions `D1`, `D2`, calling `addResult(d, D1)` then `addResult(d, D2)`
yields the same bucket distances and the same aggregated distribution in
every bucket as calling them in the other order (`Epsilon` being positive). -/
theorem C7_tie_merge_order (Epsilon DBL_MAX : ℚ) (hpos : 0 < Epsilon) (s : BestArray)
    (h : Reachable Epsilon DBL_MAX s) (hk : 1 ≤ s.size) (d : ℚ)
    (D1 D2 : ValueDistribution) (n1 n2 : String) :
    ∃ r1 sa r2 sb q1 ta q2 tb,
      s.addResult Epsilon d D1 n1 = some (r1, sa) ∧
      sa.addResult Epsilon d D2 n2 = some (r2, sb) ∧
      s.addResult Epsilon d D2 n2 = some (q1, ta) ∧
      ta.addResult Epsilon d D1 n1 = some (q2, tb) ∧
      sb.buckets.map BestRec.view = tb.buckets.map BestRec.view := by
  have hv := reachable_valid _ _ _ h
  obtain ⟨r1, sa, e1, a1, a2, a3, _⟩ := addResult_view Epsilon s d D1 n1 hv hk
  obtain ⟨r2, sb, e2, _, _, b3, _⟩ := addResult_view Epsilon sa d D2 n2 a2 (by omega)
  obtain ⟨q1, ta, e3, c1, c2, c3, _⟩ := addResult_view Epsilon s d D2 n2 hv hk
  obtain ⟨q2, tb, e4, _, _, d3, _⟩ := addResult_view Epsilon ta d D1 n1 c2 (by omega)
  refine ⟨r1, sa, r2, sb, q1, ta, q2, tb, e1, e2, e3, e4, ?_⟩
  rw [b3, a3, d3, c3]
  exact stepView_comm Epsilon hpos d D1 D2 _

theorem C7_tie_merge_order_witness :
    ∃ r1 sa r2 sb q1 ta q2 tb,
      exampleState.addResult (1 / 2) 2 exampleX "c" = some (r1, sa) ∧
      sa.addResult (1 / 2) 2 exampleY "d" = some (r2, sb) ∧
      exampleState.addResult (1 / 2) 2 exampleY "d" = some (q1, ta) ∧
      ta.addResult (1 / 2) 2 exampleX "c" = some (q2, tb) ∧
      sb.buckets.map BestRec.view = tb.buckets.map BestRec.view :=
  C7_tie_merge_order (1 / 2) 100 (by norm_num) exampleState exampleState_reachable
    (by decide) 2 exampleX exampleY "c" "d"

theorem addResults_view (Epsilon : ℚ) :
    ∀ (cands : List Candidate) (s t : BestArray),
      s.size ≤ s.bestArray.length → t.size ≤ t.bestArray.length →
      1 ≤ s.size → s.size = t.size →
      s.buckets.map BestRec.view = t.buckets.map BestRec.view →
      ∃ rs s1 t1, s.addResults Epsilon cands = some (rs, s1) ∧
        t.addResults Epsilon cands = some (rs, t1) ∧
        s1.buckets.map BestRec.view = t1.buckets.map BestRec.view := by
  intro cands
  induction cands with
  | nil =>
    intro s t _ _ _ _ hvw
    exact ⟨[], s, t, rfl, rfl, hvw⟩
  | cons c cs ih =>
    intro s t hs ht hk hsz hvw
    obtain ⟨r, s1, e1, a1, a2, a3, a4⟩ :=
      addResult_view Epsilon s c.Distance c.Distr c.neighbor hs hk
    obtain ⟨q, t1, e2, b1, b2, b3, b4⟩ :=
      addResult_view Epsilon t c.Distance c.Distr c.neighbor ht (by omega)
    rw [← hvw, ← hsz, a4] at b4
    have hrq : r = q := Option.some.inj b4
    subst hrq
    have hvw1 : s1.buckets.map BestRec.view = t1.buckets.map BestRec.view := by
      rw [a3, b3, hvw]
    obtain ⟨rs, s2, t2, f1, f2, f3⟩ := ih s1 t1 a2 b2 (by omega) (by omega) hvw1
    refine ⟨r :: rs, s2, t2, ?_, ?_, f3⟩
    · simp only [BestArray.addResults, e1, f1]
    · simp only [BestArray.addResults, e2, f2]

/-- C10 (aggregates do not depend on the retention settings): for every
`k >= 1` and every candidate sequence, two runs of `init` followed by the same
`addResult` calls that differ only in `store_instances`, `max_bests`,
`show_distance` and `show_distribution` both succeed, return the same values
from every `addResult` call, and end with the same distance and the same
aggregated distribution in every bucket. -/
theorem C10_retention_independent (Epsilon DBL_MAX : ℚ) (p : BestArray)
    (hp : p.size ≤ p.bestArray.length) (k : Nat) (hk : 1 ≤ k)
    (maxB1 maxB2 : Nat) (store1 store2 di1 di2 db1 db2 : Bool) (cands : List Candidate) :
    ∃ rs s1 s2,
      (p.init DBL_MAX k maxB1 store1 di1 db1).bind
        (fun s0 => s0.addResults Epsilon cands) = some (rs, s1) ∧
      (p.init DBL_MAX k maxB2 store2 di2 db2).bind
        (fun s0 => s0.addResults Epsilon cands) = some (rs, s2) ∧
      s1.buckets.map BestRec.view = s2.buckets.map BestRec.view := by
  obtain ⟨a, ha⟩ := init_total DBL_MAX p k maxB1 store1 di1 db1 hp
  obtain ⟨b, hb⟩ := init_total DBL_MAX p k maxB2 store2 di2 db2 hp
  have ia := init_some _ _ _ _ _ _ _ _ ha
  have ib := init_some _ _ _ _ _ _ _ _ hb
  have va := init_view _ _ _ _ _ _ _ _ ha
  have vb := init_view _ _ _ _ _ _ _ _ hb
  obtain ⟨rs, s1, s2, e1, e2, e3⟩ := addResults_view Epsilon cands a b
    ia.2.2.2.2.2.1 ib.2.2.2.2.2.1 (by rw [ia.1]; exact hk) (by rw [ia.1, ib.1])
    (by rw [va, vb])
  refine ⟨rs, s1, s2, ?_, ?_, e3⟩
  · rw [ha]; exact e1
  · rw [hb]; exact e2

theorem C10_retention_independent_witness :
    ∃ rs s1 s2,
      (BestArray.fresh.init 100 2 2 true false false).bind
        (fun s0 => s0.addResults (1 / 2) [⟨1, exampleX, "a"⟩, ⟨1, exampleY, "b"⟩])
          = some (rs, s1) ∧
      (BestArray.fresh.init 100 2 0 false true true).bind
        (fun s0 => s0.addResults (1 / 2) [⟨1, exampleX, "a"⟩, ⟨1, exampleY, "b"⟩])
          = some (rs, s2) ∧
      s1.buckets.map BestRec.view = s2.buckets.map BestRec.view :=
  C10_retention_independent (1 / 2) 100 BestArray.fresh (by decide) 2 (by decide)
    2 0 true false false true false true [⟨1, exampleX, "a"⟩, ⟨1, exampleY, "b"⟩]

theorem insertDistinct_mem (d : ℚ) (l : List ℚ) (y : ℚ) :
    y ∈ insertDistinct d l ↔ y = d ∨ y ∈ l := by
  induction l with
  | nil => simp [insertDistinct]
  | cons x xs ih =>
    simp only [insertDistinct]
    split
    · rename_i h
      subst h
      simp only [List.mem_cons]
      tauto
    · split
      · simp only [List.mem_cons]
      · simp only [List.mem_cons, ih]
        tauto

theorem insertDistinct_sorted (d : ℚ) (l : List ℚ) (h : l.Pairwise (· < ·)) :
    (insertDistinct d l).Pairwise (· < ·) := by
  induction l with
  | nil => simp [insertDistinct]
  | cons x xs ih =>
    simp only [insertDistinct]
    rw [List.pairwise_cons] at h
    split
    · exact List.pairwise_cons.2 h
    · rename_i hne
      split
      · rename_i hlt
        refine List.pairwise_cons.2 ⟨?_, List.pairwise_cons.2 h⟩
        intro y hy
        rcases List.mem_cons.1 hy with h1 | h1
        · rw [h1]; exact hlt
        · exact lt_trans hlt (h.1 y h1)
      · rename_i hnl
        refine List.pairwise_cons.2 ⟨?_, ih h.2⟩
        intro y hy
        rcases (insertDistinct_mem d xs y).1 hy with h1 | h1
        · rw [h1]
          exact lt_of_le_of_ne (not_lt.1 hnl) (fun e => hne e.symm)
        · exact h.1 y h1

theorem distancesOf_append (pre : List Candidate) (c : Candidate) :
    distancesOf (pre ++ [c]) = insertDistinct c.Distance (distancesOf pre) := by
  simp [distancesOf, List.foldl_append]

theorem distancesOf_sorted (cands : List Candidate) :
    (distancesOf cands).Pairwise (· < ·) := by
  induction cands using List.reverseRecOn with
  | nil => simp [distancesOf]
  | append_singleton pre c ih =>
    rw [distancesOf_append]
    exact insertDistinct_sorted _ _ ih

theorem distancesOf_mem (cands : List Candidate) (x : ℚ) :
    x ∈ distancesOf cands ↔ ∃ c ∈ cands, c.Distance = x := by
  induction cands using List.reverseRecOn with
  | nil => simp [distancesOf]
  | append_singleton pre c ih =>
    rw [distancesOf_append, insertDistinct_mem, ih]
    constructor
    · rintro (h | ⟨c1, h1, h2⟩)
      · exact ⟨c, by simp, h.symm⟩
      · exact ⟨c1, by simp [h1], h2⟩
    · rintro ⟨c1, h1, h2⟩
      rcases List.mem_append.1 h1 with h3 | h3
      · exact Or.inr ⟨c1, h3, h2⟩
      · simp only [List.mem_singleton] at h3
        left
        rw [← h2, h3]

theorem aggregateOf_append (pre : List Candidate) (c : Candidate) (d : ℚ) :
    aggregateOf (pre ++ [c]) d
      = if c.Distance = d then (aggregateOf pre d).Merge c.Distr else aggregateOf pre d := by
  simp only [aggregateOf, List.filter_append, List.map_append, List.foldl_append]
  by_cases h : c.Distance = d
  · simp [h, List.filter_cons]
  · simp [h, List.filter_cons]

theorem aggregateOf_not_mem (pre : List Candidate) (d : ℚ)
    (h : d ∉ distancesOf pre) : aggregateOf pre d = ValueDistribution.clear := by
  have hf : (pre.filter fun c => decide (c.Distance = d)) = [] := by
    rw [List.filter_eq_nil_iff]
    intro c hc hd
    apply h
    rw [distancesOf_mem]
    exact ⟨c, hc, by simpa using hd⟩
  simp [aggregateOf, hf]

theorem dropLast_take_succ {α : Type} (X : List α) (k : Nat) (h : k + 1 ≤ X.length) :
    (X.take (k + 1)).dropLast = X.take k := by
  rw [List.dropLast_eq_take, List.length_take, Nat.min_eq_left h, List.take_take]
  simp

theorem map_update_of_not_mem (d : ℚ) (D : ValueDistribution) (g : ℚ → ValueDistribution)
    (l : List ℚ) (h : d ∉ l) :
    l.map (fun x => (x, if d = x then (g x).Merge D else g x)) = l.map (fun x => (x, g x)) := by
  apply List.map_congr_left
  intro x hx
  have : ¬ d = x := fun e => h (e ▸ hx)
  simp [this]

/-- One `addResult` scan over the expected views inserts the candidate's
distance into the ascending list of distinct distances and merges its
distribution into the aggregate of that distance. -/
theorem stepView_insertDistinct (Epsilon : ℚ) (hpos : 0 < Epsilon) (d : ℚ)
    (D : ValueDistribution) (g : ℚ → ValueDistribution) :
    ∀ (ds : List ℚ) (T : List (ℚ × ValueDistribution)) (k : Nat),
      ds.Pairwise (· < ·) →
      (∀ x ∈ ds, x = d ∨ Epsilon ≤ |d - x|) →
      (∀ t ∈ T, d + Epsilon < t.1) →
      k ≤ ds.length + T.length →
      (d ∉ ds → g d = ValueDistribution.clear) →
      stepView Epsilon d D ((ds.map (fun x => (x, g x)) ++ T).take k)
        = ((insertDistinct d ds).map (fun x => (x, if d = x then (g x).Merge D else g x))
            ++ T).take k := by
  intro ds
  induction ds with
  | nil =>
    intro T k _ _ hT hk hg
    cases k with
    | zero => simp [stepView]
    | succ k =>
      cases T with
      | nil => simp at hk
      | cons t T1 =>
        have ht := hT t (List.mem_cons_self _ _)
        have h1 : ¬ |d - t.1| < Epsilon := by
          rw [abs_of_neg (by linarith)]
          linarith
        have h2 : d < t.1 := by linarith
        have hdl := dropLast_take_succ (t :: T1) k (by simpa using hk)
        simp only [List.map_nil, List.nil_append, List.take_succ_cons] at hdl ⊢
        simp only [stepView, h1, h2, if_true, if_false, insertDistinct, List.map_cons,
          List.map_nil, List.cons_append, List.nil_append, List.take_succ_cons]
        rw [hdl, hg (by simp)]
  | cons x xs ih =>
    intro T k hs hsep hT hk hg
    cases k with
    | zero => simp [stepView]
    | succ k =>
      rw [List.pairwise_cons] at hs
      simp only [List.map_cons, List.cons_append, List.take_succ_cons]
      by_cases hdx : d = x
      · subst hdx
        have htie : |d - d| < Epsilon := by simpa using hpos
        have hnm : d ∉ xs := by
          intro hm
          exact lt_irrefl _ (hs.1 d hm)
        simp only [stepView, htie, if_true, insertDistinct, List.map_cons,
          List.cons_append, List.take_succ_cons]
        rw [map_update_of_not_mem d D g xs hnm]
      · have hnt : ¬ |d - x| < Epsilon := by
          rcases hsep x (List.mem_cons_self _ _) with h1 | h1
          · exact absurd h1.symm hdx
          · exact not_lt.2 h1
        by_cases hlt : d < x
        · have hnm : d ∉ x :: xs := by
            intro hm
            rcases List.mem_cons.1 hm with h1 | h1
            · exact hdx h1
            · exact lt_asymm hlt (hs.1 d h1)
          have hdl := dropLast_take_succ ((x, g x) :: (xs.map (fun x => (x, g x)) ++ T)) k
            (by simp at hk ⊢; omega)
          simp only [List.take_succ_cons] at hdl
          simp only [stepView, hnt, hlt, if_true, if_false, insertDistinct, hdx, List.map_cons,
            List.cons_append, List.take_succ_cons]
          rw [hdl, hg hnm]
          have hm2 := map_update_of_not_mem d D g (x :: xs) hnm
          simp only [List.map_cons] at hm2
          have hm3 := List.tail_eq_of_cons_eq hm2
          rw [hm3]
        · simp only [stepView, hnt, hlt, if_false, insertDistinct, hdx, List.map_cons,
            List.cons_append, List.take_succ_cons]
          rw [ih T k hs.2 (fun y hy => hsep y (List.mem_cons_of_mem _ hy)) hT
            (by simp at hk ⊢; omega)
            (fun hm => hg (by
              intro hm2
              rcases List.mem_cons.1 hm2 with h1 | h1
              · exact hdx h1
              · exact hm h1))]

theorem sentinels_length (DBL_MAX : ℚ) (k : Nat) : (sentinels DBL_MAX k).length = k := by
  simp [sentinels]

theorem sentinels_getElem? (DBL_MAX : ℚ) (k i : Nat) (hi : i < k) :
    (sentinels DBL_MAX k)[i]? = some ((DBL_MAX - (k : ℚ)) + (i : ℚ), ValueDistribution.clear) := by
  simp [sentinels, List.getElem?_range hi, hi]

theorem sentinels_ge (DBL_MAX : ℚ) (k : Nat) (t : ℚ × ValueDistribution)
    (ht : t ∈ sentinels DBL_MAX k) : DBL_MAX - (k : ℚ) ≤ t.1 := by
  simp only [sentinels, List.mem_map, List.mem_range] at ht
  obtain ⟨i, _, hi⟩ := ht
  rw [← hi]
  have : (0 : ℚ) ≤ (i : ℚ) := Nat.cast_nonneg i
  simp only
  linarith

theorem expectedViews_nil (DBL_MAX : ℚ) (k : Nat) :
    expectedViews DBL_MAX k [] = sentinels DBL_MAX k := by
  simp only [expectedViews, distancesOf, List.foldl_nil, List.map_nil, List.nil_append]
  rw [List.take_of_length_le (by rw [sentinels_length])]

theorem expectedViews_step (Epsilon : ℚ) (hpos : 0 < Epsilon) (DBL_MAX : ℚ) (k : Nat)
    (pre : List Candidate) (c : Candidate)
    (hsep : ∀ c1 ∈ pre, c1.Distance = c.Distance ∨ Epsilon ≤ |c.Distance - c1.Distance|)
    (hbelow : c.Distance + Epsilon < DBL_MAX - (k : ℚ)) :
    stepView Epsilon c.Distance c.Distr (expectedViews DBL_MAX k pre)
      = expectedViews DBL_MAX k (pre ++ [c]) := by
  simp only [expectedViews]
  rw [distancesOf_append]
  rw [stepView_insertDistinct Epsilon hpos c.Distance c.Distr (aggregateOf pre)
    (distancesOf pre) (sentinels DBL_MAX k) k (distancesOf_sorted pre)]
  · congr 2
    apply List.map_congr_left
    intro x _
    rw [aggregateOf_append]
  · intro x hx
    obtain ⟨c1, h1, h2⟩ := (distancesOf_mem pre x).1 hx
    rw [← h2]
    exact hsep c1 h1
  · intro t ht
    have := sentinels_ge DBL_MAX k t ht
    linarith
  · rw [sentinels_length]; omega
  · exact aggregateOf_not_mem pre c.Distance

theorem addResults_expected (Epsilon : ℚ) (hpos : 0 < Epsilon) (DBL_MAX : ℚ) (k : Nat)
    (hk : 1 ≤ k) :
    ∀ (cands pre : List Candidate) (s : BestArray),
      s.size ≤ s.bestArray.length → s.size = k →
      s.buckets.map BestRec.view = expectedViews DBL_MAX k pre →
      (∀ c ∈ pre ++ cands, c.Distance + Epsilon < DBL_MAX - (k : ℚ)) →
      (∀ c ∈ pre ++ cands, ∀ c1 ∈ pre ++ cands,
        c.Distance = c1.Distance ∨ Epsilon ≤ |c.Distance - c1.Distance|) →
      ∃ rs s1, s.addResults Epsilon cands = some (rs, s1) ∧ s1.size = k ∧
        s1.size ≤ s1.bestArray.length ∧
        s1.buckets.map BestRec.view = expectedViews DBL_MAX k (pre ++ cands) := by
  intro cands
  induction cands with
  | nil =>
    intro pre s hv hsz hvw _ _
    exact ⟨[], s, rfl, hsz, hv, by simpa using hvw⟩
  | cons c cs ih =>
    intro pre s hv hsz hvw hbelow hsep
    obtain ⟨r, s1, e1, a1, a2, a3, _⟩ :=
      addResult_view Epsilon s c.Distance c.Distr c.neighbor hv (by omega)
    have hc : c ∈ pre ++ c :: cs := by simp
    have hstep := expectedViews_step Epsilon hpos DBL_MAX k pre c
      (fun c1 h1 => by
        rcases hsep c hc c1 (List.mem_append_left _ h1) with h | h
        · exact Or.inl h.symm
        · exact Or.inr h)
      (hbelow c hc)
    have happ : pre ++ c :: cs = (pre ++ [c]) ++ cs := by simp
    rw [happ] at hbelow hsep
    obtain ⟨rs, s2, f1, f2, f3, f4⟩ := ih (pre ++ [c]) s1 a2 (by omega)
      (by rw [a3, hvw, hstep]) hbelow hsep
    refine ⟨r :: rs, s2, ?_, f2, f3, ?_⟩
    · simp only [BestArray.addResults, e1, f1]
    · rw [happ]; exact f4

theorem sorted_unique (l1 l2 : List ℚ) (h1 : l1.Pairwise (· < ·)) (h2 : l2.Pairwise (· < ·))
    (hmem : ∀ x, x ∈ l1 ↔ x ∈ l2) : l1 = l2 := by
  apply List.eq_of_perm_of_sorted _ h1 h2
  exact (List.perm_ext_iff_of_nodup (h1.imp ne_of_lt) (h2.imp ne_of_lt)).2 hmem

theorem expectedViews_getElem? (DBL_MAX : ℚ) (k : Nat) (cands : List Candidate) (i : Nat)
    (hi : i < k) :
    (expectedViews DBL_MAX k cands)[i]? =
      if i < (distancesOf cands).length then
        ((distancesOf cands)[i]?).map (fun d => (d, aggregateOf cands d))
      else some ((DBL_MAX - (k : ℚ)) + ((i - (distancesOf cands).length : Nat) : ℚ),
        ValueDistribution.clear) := by
  simp only [expectedViews, List.getElem?_take, if_pos hi, List.getElem?_append,
    List.length_map, List.getElem?_map]
  split
  · rfl
  · rw [sentinels_getElem? DBL_MAX k _ (by omega)]

/-- C1 (top-k correctness): for every `k >= 1` and every sequence of
candidates passed to `addResult` after `init( k, .. )`, where every distance
lies more than `Epsilon` below the smallest seed and any two candidate
distances are equal or differ by at least `Epsilon`: if `ds` lists the
distinct distances of the sequence in ascending order, then afterwards bucket
`i < min(k, m)` has distance `ds[i]` and as aggregate the `Merge` of the
distributions of all candidates at that distance, and the remaining buckets
hold the seeds `DBL_MAX - k + (i - m)` with empty aggregates. -/
theorem C1_topk (Epsilon DBL_MAX : ℚ) (hpos : 0 < Epsilon) (p : BestArray)
    (hp : p.size ≤ p.bestArray.length) (k : Nat) (hk : 1 ≤ k) (maxB : Nat)
    (storeI showDi showDb : Bool) (cands : List Candidate)
    (hbelow : ∀ c ∈ cands, c.Distance + Epsilon < DBL_MAX - (k : ℚ))
    (hsep : ∀ c ∈ cands, ∀ c1 ∈ cands,
      c.Distance = c1.Distance ∨ Epsilon ≤ |c.Distance - c1.Distance|)
    (ds : List ℚ) (hds : ds.Pairwise (· < ·))
    (hmem : ∀ x, x ∈ ds ↔ ∃ c ∈ cands, c.Distance = x) :
    ∃ rs s, (p.init DBL_MAX k maxB storeI showDi showDb).bind
        (fun s0 => s0.addResults Epsilon cands) = some (rs, s) ∧ s.size = k ∧
      ∀ i, i < k → ∃ b, s.bestArray[i]? = some b ∧
        (∀ x, ds[i]? = some x →
          b.bestDistance = x ∧ b.aggregateDist = aggregateOf cands x) ∧
        (ds.length ≤ i →
          b.bestDistance = (DBL_MAX - (k : ℚ)) + ((i - ds.length : Nat) : ℚ) ∧
          b.aggregateDist = ValueDistribution.clear) := by
  obtain ⟨s0, h0⟩ := init_total DBL_MAX p k maxB storeI showDi showDb hp
  have i0 := init_some _ _ _ _ _ _ _ _ h0
  have v0 := init_view _ _ _ _ _ _ _ _ h0
  rw [← expectedViews_nil] at v0
  obtain ⟨rs, s, e1, e2, e3, e4⟩ := addResults_expected Epsilon hpos DBL_MAX k hk cands []
    s0 i0.2.2.2.2.2.1 i0.1 v0 (by simpa using hbelow) (by simpa using hsep)
  have hdd : ds = distancesOf cands :=
    sorted_unique ds (distancesOf cands) hds (distancesOf_sorted cands)
      (fun x => by rw [hmem, distancesOf_mem])
  refine ⟨rs, s, by rw [h0]; exact e1, e2, ?_⟩
  intro i hi
  have hil : i < s.bestArray.length := by omega
  refine ⟨s.bestArray[i], List.getElem?_eq_getElem hil, ?_⟩
  have hview : (s.buckets.map BestRec.view)[i]? = some (s.bestArray[i]).view := by
    simp only [BestArray.buckets, List.getElem?_map, List.getElem?_take]
    rw [if_pos (by omega), List.getElem?_eq_getElem hil]
    rfl
  rw [List.nil_append] at e4
  rw [e4, expectedViews_getElem? DBL_MAX k cands i hi, ← hdd] at hview
  constructor
  · intro x hx
    have hlt : i < ds.length := by
      by_contra hc
      rw [List.getElem?_eq_none (by omega)] at hx
      simp at hx
    rw [if_pos hlt, hx] at hview
    simp only [Option.map_some', Option.some.injEq] at hview
    have h1 := congrArg Prod.fst hview
    have h2 := congrArg Prod.snd hview
    simp only [BestRec.view] at h1 h2
    exact ⟨h1.symm, h2.symm⟩
  · intro hge
    rw [if_neg (by omega)] at hview
    simp only [Option.some.injEq] at hview
    have h1 := congrArg Prod.fst hview
    have h2 := congrArg Prod.snd hview
    simp only [BestRec.view] at h1 h2
    exact ⟨h1.symm, h2.symm⟩

theorem C1_topk_witness :
    ∃ rs s, (BestArray.fresh.init 100 2 2 true false false).bind
        (fun s0 => s0.addResults (1 / 2)
          [⟨3, exampleY, "a"⟩, ⟨1, exampleX, "b"⟩, ⟨5, exampleX, "c"⟩, ⟨1, exampleY, "d"⟩])
          = some (rs, s) ∧ s.size = 2 ∧
      ∀ i, i < 2 → ∃ b, s.bestArray[i]? = some b ∧
        (∀ x, ([1, 3, 5] : List ℚ)[i]? = some x →
          b.bestDistance = x ∧ b.aggregateDist = aggregateOf
            [⟨3, exampleY, "a"⟩, ⟨1, exampleX, "b"⟩, ⟨5, exampleX, "c"⟩, ⟨1, exampleY, "d"⟩] x) ∧
        (([1, 3, 5] : List ℚ).length ≤ i →
          b.bestDistance = ((100 : ℚ) - ((2 : Nat) : ℚ))
            + ((i - ([1, 3, 5] : List ℚ).length : Nat) : ℚ) ∧
          b.aggregateDist = ValueDistribution.clear) :=
  C1_topk (1 / 2) 100 (by norm_num) BestArray.fresh (by decide) 2 (by decide) 2
    true false false
    [⟨3, exampleY, "a"⟩, ⟨1, exampleX, "b"⟩, ⟨5, exampleX, "c"⟩, ⟨1, exampleY, "d"⟩]
    (by with_unfolding_all decide) (by with_unfolding_all decide) [1, 3, 5]
    (by with_unfolding_all decide)
    (by
      intro x
      simp only [List.mem_cons, List.mem_singleton, List.not_mem_nil, or_false,
        exists_eq_or_imp, exists_eq_left, exists_false]
      constructor
      · rintro (h | h | h) <;> simp [h]
      · rintro (h | h | h | h) <;> simp [← h])

/-- C2 (sortedness invariant): in every state reachable by `init` followed by
any sequence of `addResult` calls, with any distances and distributions, the
bucket distances are non-decreasing in the bucket index:
`bestDistance[i] <= bestDistance[i+1]` for every `i < k-1`. -/
theorem C2_sortedness (Epsilon DBL_MAX : ℚ) (s : BestArray)
    (h : Reachable Epsilon DBL_MAX s) (i : Nat) (hi : i + 1 < s.size) :
    ∃ a b, s.bestArray[i]? = some a ∧ s.bestArray[i + 1]? = some b ∧
      a.bestDistance ≤ b.bestDistance := by
  apply chain_getElem (· ≤ ·) s (reachable_valid _ _ _ h) _ i hi
  apply reachable_chain Epsilon DBL_MAX (· ≤ ·) _ _ _ s h
  · apply sentinels_chain
    intro k i
    push_cast
    linarith
  · intro d a _ h2
    exact not_lt.1 h2
  · intro d b _ h2
    exact le_of_lt h2

theorem C2_sortedness_witness :
    ∃ a b, exampleState.bestArray[0]? = some a ∧ exampleState.bestArray[0 + 1]? = some b ∧
      a.bestDistance ≤ b.bestDistance :=
  C2_sortedness (1 / 2) 100 exampleState exampleState_reachable 0 (by decide)

/-- Ties are grouped when the seeds are exact: with the seed expression of
`init` evaluated in exact arithmetic (`initRec`), which gives the distinct
values `DBL_MAX - k + i`, and `0 < Epsilon <= 1`, in every state reachable by
`init` followed by any sequence of `addResult` calls no two buckets have
distances within `Epsilon` of each other. The `double` evaluation of the
source gives equal seeds instead (`seedDouble_eq`). -/
theorem ties_grouped_exact (Epsilon DBL_MAX : ℚ) (hpos : 0 < Epsilon) (hle : Epsilon ≤ 1)
    (s : BestArray) (h : Reachable Epsilon DBL_MAX s) (i : Nat) (hi : i + 1 < s.size) :
    ∃ a b, s.bestArray[i]? = some a ∧ s.bestArray[i + 1]? = some b ∧
      Epsilon ≤ b.bestDistance - a.bestDistance ∧ a.bestDistance < b.bestDistance := by
  have hc : List.Chain' (fun a b : ℚ => Epsilon ≤ b - a) s.distances := by
    apply reachable_chain Epsilon DBL_MAX _ _ _ _ s h
    · apply sentinels_chain
      intro k i
      push_cast
      linarith
    · intro d a h1 h2
      have h3 : a ≤ d := not_lt.1 h2
      rw [abs_of_nonneg (by linarith)] at h1
      exact not_lt.1 h1
    · intro d b h1 h2
      rw [abs_of_neg (by linarith)] at h1
      have := not_lt.1 h1
      linarith
  obtain ⟨a, b, ha, hb, hab⟩ :=
    chain_getElem (fun a b : ℚ => Epsilon ≤ b - a) s (reachable_valid _ _ _ h) hc i hi
  exact ⟨a, b, ha, hb, hab, by linarith⟩

theorem ties_grouped_exact_witness :
    ∃ a b, exampleState.bestArray[0]? = some a ∧ exampleState.bestArray[0 + 1]? = some b ∧
      (1 / 2 : ℚ) ≤ b.bestDistance - a.bestDistance ∧ a.bestDistance < b.bestDistance :=
  ties_grouped_exact (1 / 2) 100 (by norm_num) (by norm_num) exampleState
    exampleState_reachable 0 (by decide)

theorem init_mem (DBL_MAX : ℚ) (p : BestArray) (numN maxB : Nat)
    (storeI showDi showDb : Bool) (s : BestArray)
    (h : p.init DBL_MAX numN maxB storeI showDi showDb = some s) :
    ∀ j b, s.bestArray[j]? = some b →
      ∃ b0, (b0 ∈ p.bestArray ∨ b0 = BestRec.new) ∧
        ((j < numN ∧ b = initRec DBL_MAX numN j b0) ∨ (numN ≤ j ∧ b = b0)) := by
  simp only [BestArray.init] at h
  generalize harr : (if p.size < numN then p.bestArray ++ List.replicate (numN - p.size) BestRec.new
             else p.bestArray) = arr at h
  have hmem : ∀ x ∈ arr, x ∈ p.bestArray ∨ x = BestRec.new := by
    intro x hx
    rw [← harr] at hx
    split at hx
    · rcases List.mem_append.1 hx with h1 | h1
      · exact Or.inl h1
      · exact Or.inr (List.eq_of_mem_replicate h1)
    · exact Or.inl hx
  cases hl : initLoop DBL_MAX numN numN 0 arr with
  | none => rw [hl] at h; simp at h
  | some arr1 =>
    rw [hl] at h
    simp only [Option.some.injEq] at h
    have hb : numN ≤ arr.length := by
      rcases initLoop_bound _ _ _ _ _ _ hl with h0 | h0 <;> omega
    obtain ⟨arr2, e1, e2, e3⟩ := initLoop_some DBL_MAX numN numN 0 arr (by omega)
    rw [hl] at e1
    simp only [Option.some.injEq] at e1
    subst e1
    subst h
    intro j b hjb
    simp only at hjb
    rw [e3 j] at hjb
    by_cases c : 0 ≤ j ∧ j < 0 + numN
    · rw [if_pos c] at hjb
      have hj : j < arr.length := by omega
      rw [List.getElem?_eq_getElem hj] at hjb
      simp only [Option.map_some', Option.some.injEq] at hjb
      exact ⟨arr[j], hmem _ (List.getElem_mem _), Or.inl ⟨by omega, hjb.symm⟩⟩
    · rw [if_neg c] at hjb
      have hx : b ∈ arr := List.mem_iff_getElem?.2 ⟨j, hjb⟩
      exact ⟨b, hmem b hx, Or.inr ⟨by omega, rfl⟩⟩

theorem execution_valid (Epsilon DBL_MAX : ℚ) (s : BestArray)
    (h : Execution Epsilon DBL_MAX s) : s.size ≤ s.bestArray.length := by
  induction h with
  | fresh => simp [BestArray.fresh]
  | init p numN maxB storeI showDi showDb s _ h _ =>
    exact (init_some _ _ _ _ _ _ _ _ h).2.2.2.2.2.1
  | addResult s d D nb r s1 _ h ih =>
    by_cases hpos : 0 < s.size
    · obtain ⟨hs, _, _⟩ := addResult_some Epsilon s d D nb r s1 ih hpos h
      rw [hs]
      simp only [List.length_append, List.length_drop, stepList_length]
      rw [buckets_length s ih]
      omega
    · have h0 : s.size = 0 := by omega
      simp only [BestArray.addResult, h0, addResultLoop] at h
      simp at h

/-- A property of bucket objects that holds for a new `BestRec` and is kept
by the three updates of `init` and `addResult` holds for every entry of the
vector, in use or not, throughout the life of a `BestArray`. -/
theorem execution_forall (Epsilon DBL_MAX : ℚ) (P : BestRec → Prop)
    (hnew : P BestRec.new)
    (hinit : ∀ numN j b0, P b0 → P (initRec DBL_MAX numN j b0))
    (htie : ∀ (s : BestArray) D nb b, P b → P (tieRec s D nb b))
    (hfill : ∀ (s : BestArray) d D nb r, P r → P (fillRec s d D nb r))
    (s : BestArray) (h : Execution Epsilon DBL_MAX s) :
    ∀ b ∈ s.bestArray, P b := by
  induction h with
  | fresh => intro b hb; simp [BestArray.fresh] at hb
  | init p numN maxB storeI showDi showDb s _ h ih =>
    intro b hb
    obtain ⟨j, hj⟩ := List.mem_iff_getElem?.1 hb
    obtain ⟨b0, hb0, hc⟩ := init_mem _ _ _ _ _ _ _ _ h j b hj
    have hP0 : P b0 := by
      rcases hb0 with h1 | h1
      · exact ih b0 h1
      · rw [h1]; exact hnew
    rcases hc with ⟨_, h1⟩ | ⟨_, h1⟩
    · rw [h1]; exact hinit _ _ _ hP0
    · rw [h1]; exact hP0
  | addResult s d D nb r s1 hr h ih =>
    have hv := execution_valid _ _ _ hr
    by_cases hpos : 0 < s.size
    · obtain ⟨hs, _, _⟩ := addResult_some Epsilon s d D nb r s1 hv hpos h
      intro b hb
      rw [hs] at hb
      rcases List.mem_append.1 hb with h1 | h1
      · refine stepList_forall Epsilon s d D nb P (htie s D nb) (hfill s d D nb) s.buckets ?_ b h1
        intro x hx
        exact ih x (List.mem_of_mem_take hx)
      · exact ih b (List.mem_of_mem_drop h1)
    · have h0 : s.size = 0 := by omega
      simp only [BestArray.addResult, h0, addResultLoop] at h
      simp at h

theorem execution_of_run (Epsilon DBL_MAX : ℚ) :
    ∀ (cands : List Candidate) (s : BestArray) (rs : List ℚ) (s1 : BestArray),
      Execution Epsilon DBL_MAX s → s.addResults Epsilon cands = some (rs, s1) →
      Execution Epsilon DBL_MAX s1 := by
  intro cands
  induction cands with
  | nil =>
    intro s rs s1 hr h
    simp only [BestArray.addResults, Option.some.injEq, Prod.mk.injEq] at h
    rw [← h.2]; exact hr
  | cons c cs ih =>
    intro s rs s1 hr h
    simp only [BestArray.addResults] at h
    cases h1 : s.addResult Epsilon c.Distance c.Distr c.neighbor with
    | none => rw [h1] at h; simp at h
    | some x =>
      obtain ⟨r, s2⟩ := x
      rw [h1] at h
      simp only at h
      cases h2 : BestArray.addResults Epsilon s2 cs with
      | none => rw [h2] at h; simp at h
      | some y =>
        obtain ⟨rs2, s3⟩ := y
        rw [h2] at h
        simp only [Option.some.injEq, Prod.mk.injEq] at h
        rw [← h.2]
        exact ih s2 rs2 s3 (Execution.addResult s _ _ _ r s2 hr h1) h2

theorem exampleState_execution : Execution (1 / 2) 100 exampleState := by
  have h0 : BestArray.fresh.init 100 2 2 true false false = some
      { _storeInstances := true, _showDi := false, _showDb := false, maxBests := 2, size := 2
        bestArray := [initRec 100 2 0 BestRec.new, initRec 100 2 1 BestRec.new] } := by
    with_unfolding_all decide
  exact execution_of_run (1 / 2) 100 [⟨1, exampleX, "a"⟩, ⟨3, exampleY, "b"⟩] _ [98, 3]
    exampleState (Execution.init _ _ _ _ _ _ _ Execution.fresh h0)
    (by with_unfolding_all decide)

/-- C11 (init resets the accumulator): after `init( k, max_bests, .. )`
called on a `BestArray` in any state of its life (new, or left over from
earlier queries with a smaller or larger `k`, with or without stored
instances), the call succeeds and each bucket `i` in `0..k-1` has
`bestDistance` equal to `(DBL_MAX - k) + i`, an empty aggregated
distribution, and no retained labels or distribution copies. -/
theorem C11_init_resets (Epsilon DBL_MAX : ℚ) (p : BestArray)
    (hp : Execution Epsilon DBL_MAX p) (k maxB : Nat) (storeI showDi showDb : Bool) :
    ∃ s, p.init DBL_MAX k maxB storeI showDi showDb = some s ∧ s.size = k ∧
      ∀ i, i < k → ∃ b, s.bestArray[i]? = some b ∧
        b.bestDistance = (DBL_MAX - (k : ℚ)) + (i : ℚ) ∧
        b.aggregateDist = ValueDistribution.clear ∧
        b.bestInstances = [] ∧ b.bestDistributions = [] := by
  obtain ⟨s, hs⟩ := init_total DBL_MAX p k maxB storeI showDi showDb (execution_valid _ _ _ hp)
  have i1 := init_some _ _ _ _ _ _ _ _ hs
  refine ⟨s, hs, i1.1, ?_⟩
  intro i hi
  have hil : i < s.bestArray.length := by omega
  refine ⟨s.bestArray[i], List.getElem?_eq_getElem hil, ?_⟩
  obtain ⟨b0, hb0, hc⟩ := init_mem _ _ _ _ _ _ _ _ hs i _ (List.getElem?_eq_getElem hil)
  have hlen : b0.bestInstances.length = b0.bestDistributions.length := by
    rcases hb0 with h1 | h1
    · refine execution_forall Epsilon DBL_MAX
        (fun b => b.bestInstances.length = b.bestDistributions.length) rfl ?_ ?_ ?_ p hp b0 h1
      · intro numN j b1 h2
        simp only [initRec]
        split <;> simp [h2]
      · intro s D nb b h2
        simp only [tieRec]
        split <;> simp [h2]
      · intro s d D nb r h2
        simp only [fillRec]
        split <;> simp [h2]
    · rw [h1]; rfl
  rcases hc with ⟨_, h1⟩ | ⟨h2, _⟩
  · rw [h1]
    refine ⟨rfl, rfl, ?_, ?_⟩
    · simp only [initRec]
      cases hb : b0.bestInstances <;> simp
    · simp only [initRec]
      cases hb : b0.bestInstances with
      | nil =>
        rw [hb] at hlen
        simp only [List.isEmpty_nil, if_true]
        exact List.length_eq_zero.1 hlen.symm
      | cons x xs => simp
  · omega

theorem C11_init_resets_witness :
    ∃ s, exampleState.init 100 3 5 false false false = some s ∧ s.size = 3 ∧
      ∀ i : Nat, i < 3 → ∃ b, s.bestArray[i]? = some b ∧
        b.bestDistance = ((100 : ℚ) - ((3 : Nat) : ℚ)) + (i : ℚ) ∧
        b.aggregateDist = ValueDistribution.clear ∧
        b.bestInstances = [] ∧ b.bestDistributions = [] :=
  C11_init_resets (1 / 2) 100 exampleState exampleState_execution 3 5 false false false

theorem reachable_lt (Epsilon DBL_MAX : ℚ) (hpos : 0 < Epsilon) (s : BestArray)
    (h : Reachable Epsilon DBL_MAX s) (i j : Nat) (hij : i < j) (hj : j < s.size)
    (a b : BestRec) (ha : s.bestArray[i]? = some a) (hb : s.bestArray[j]? = some b) :
    a.bestDistance < b.bestDistance := by
  have hv := reachable_valid _ _ _ h
  have hch : List.Chain' (· < ·) s.distances := by
    apply reachable_chain Epsilon DBL_MAX (· < ·) _ _ _ s h
    · apply sentinels_chain
      intro k i
      push_cast
      linarith
    · intro d a h1 h2
      rcases lt_or_eq_of_le (not_lt.1 h2) with h3 | h3
      · exact h3
      · exfalso
        apply h1
        rw [h3]
        simpa using hpos
    · intro d b _ h2
      exact h2
  rw [List.chain'_iff_pairwise, List.pairwise_iff_getElem] at hch
  have hlen : s.distances.length = s.size := by
    simp [BestArray.distances, BestArray.buckets, hv]
  rw [List.getElem?_eq_getElem (by omega)] at ha hb
  simp only [Option.some.injEq] at ha hb
  have := hch i j (by omega) (by omega) hij
  simp only [BestArray.distances, BestArray.buckets, List.getElem_map, List.getElem_take] at this
  rw [ha, hb] at this
  exact this

/-- C17 (no-decay and inverse-distance weights): for every state and every
`j < k`, `relativeWeight( j, decay )` equals 1 when the decay type is `Zero`,
and equals `1 / (d_j + Epsilon)` when the decay type is `InvDist`, where `d_j`
is the `bestDistance` of bucket `j` and `Epsilon` is the constant that
`addResult` uses for tie detection. -/
theorem C17_zero_inv_dist (Epsilon : ℚ) (exp : ℚ → ℚ) (pow : ℚ → ℚ → ℚ) (s : BestArray)
    (hv : s.size ≤ s.bestArray.length) (j : Nat) (hj : j < s.size) (alpha beta : ℚ) :
    s.relativeWeight Epsilon exp pow j ⟨DecayType.Zero, alpha, beta⟩ = some (Outcome.value 1) ∧
    ∃ bj, s.bestArray[j]? = some bj ∧
      s.relativeWeight Epsilon exp pow j ⟨DecayType.InvDist, alpha, beta⟩
        = some (Outcome.value (1 / (bj.bestDistance + Epsilon))) := by
  refine ⟨rfl, s.bestArray[j], List.getElem?_eq_getElem (by omega), ?_⟩
  simp only [BestArray.relativeWeight]
  rw [List.getElem?_eq_getElem (by omega)]

theorem C17_zero_inv_dist_witness :
    exampleState.relativeWeight (1 / 2) (fun x => x) (fun x _ => x) 1
        ⟨DecayType.Zero, 1, 1⟩ = some (Outcome.value 1) ∧
    ∃ bj, exampleState.bestArray[1]? = some bj ∧
      exampleState.relativeWeight (1 / 2) (fun x => x) (fun x _ => x) 1
          ⟨DecayType.InvDist, 1, 1⟩
        = some (Outcome.value (1 / (bj.bestDistance + 1 / 2))) :=
  C17_zero_inv_dist (1 / 2) (fun x => x) (fun x _ => x) exampleState (by decide) 1
    (by decide) 1 1

/-- C18 (unknown decay type is fatal): `relativeWeight( j, decay )` throws
`logic_error` if and only if `decay.type()` is none of `Zero`, `InvDist`,
`InvLinear`, `ExpDecay`; for each of these four types, on a bucket `j < k`,
it returns a value and does not throw. -/
theorem C18_unknown_decay (Epsilon : ℚ) (exp : ℚ → ℚ) (pow : ℚ → ℚ → ℚ) (s : BestArray)
    (hv : s.size ≤ s.bestArray.length) (j : Nat) (hj : j < s.size) (decay : decayStruct) :
    ((∃ what, s.relativeWeight Epsilon exp pow j decay = some (Outcome.logic_error what)) ↔
      (decay.type ≠ DecayType.Zero ∧ decay.type ≠ DecayType.InvDist ∧
        decay.type ≠ DecayType.InvLinear ∧ decay.type ≠ DecayType.ExpDecay)) ∧
    ((decay.type = DecayType.Zero ∨ decay.type = DecayType.InvDist ∨
        decay.type = DecayType.InvLinear ∨ decay.type = DecayType.ExpDecay) →
      ∃ result, s.relativeWeight Epsilon exp pow j decay = some (Outcome.value result)) := by
  have hjj : s.bestArray[j]? = some s.bestArray[j] := List.getElem?_eq_getElem (by omega)
  have h0 : s.bestArray[0]? = some s.bestArray[0] := List.getElem?_eq_getElem (by omega)
  have hl : s.bestArray[s.size - 1]? = some s.bestArray[s.size - 1] :=
    List.getElem?_eq_getElem (by omega)
  have hs0 : ¬ s.size = 0 := by omega
  obtain ⟨ty, alpha, beta⟩ := decay
  cases ty <;>
    simp only [BestArray.relativeWeight, hjj, h0, hl, hs0, if_false] <;>
    first
    | (refine ⟨⟨fun _ => by simp, fun _ => ⟨_, rfl⟩⟩, fun hc => by simp at hc⟩)
    | (refine ⟨⟨fun hc => ?_, fun hc => by simp at hc⟩, fun _ => ?_⟩
       · obtain ⟨w, hw⟩ := hc
         split at hw <;> simp at hw
       · split <;> exact ⟨_, rfl⟩)
    | (refine ⟨⟨fun hc => ?_, fun hc => by simp at hc⟩, fun _ => ⟨_, rfl⟩⟩
       obtain ⟨w, hw⟩ := hc
       simp at hw)

theorem C18_unknown_decay_witness :
    ((∃ what, exampleState.relativeWeight (1 / 2) (fun x => x) (fun x _ => x) 1
        ⟨DecayType.MaxDecay, 1, 1⟩ = some (Outcome.logic_error what)) ↔
      ((⟨DecayType.MaxDecay, 1, 1⟩ : decayStruct).type ≠ DecayType.Zero ∧
        (⟨DecayType.MaxDecay, 1, 1⟩ : decayStruct).type ≠ DecayType.InvDist ∧
        (⟨DecayType.MaxDecay, 1, 1⟩ : decayStruct).type ≠ DecayType.InvLinear ∧
        (⟨DecayType.MaxDecay, 1, 1⟩ : decayStruct).type ≠ DecayType.ExpDecay)) ∧
    (((⟨DecayType.MaxDecay, 1, 1⟩ : decayStruct).type = DecayType.Zero ∨
        (⟨DecayType.MaxDecay, 1, 1⟩ : decayStruct).type = DecayType.InvDist ∨
        (⟨DecayType.MaxDecay, 1, 1⟩ : decayStruct).type = DecayType.InvLinear ∨
        (⟨DecayType.MaxDecay, 1, 1⟩ : decayStruct).type = DecayType.ExpDecay) →
      ∃ result, exampleState.relativeWeight (1 / 2) (fun x => x) (fun x _ => x) 1
        ⟨DecayType.MaxDecay, 1, 1⟩ = some (Outcome.value result)) :=
  C18_unknown_decay (1 / 2) (fun x => x) (fun x _ => x) exampleState (by decide) 1
    (by decide) ⟨DecayType.MaxDecay, 1, 1⟩

/-- One `addResult` call on a valid state with at least one bucket: it
succeeds, keeps the configuration, and acts as `stepList` on the buckets. -/
theorem addResult_step (Epsilon : ℚ) (s : BestArray) (Distance : ℚ)
    (Distr : ValueDistribution) (neighbor : String)
    (hv : s.size ≤ s.bestArray.length) (hpos : 1 ≤ s.size) :
    ∃ r s1, s.addResult Epsilon Distance Distr neighbor = some (r, s1) ∧
      s1.size = s.size ∧ s1.size ≤ s1.bestArray.length ∧
      s1._storeInstances = s._storeInstances ∧ s1.maxBests = s.maxBests ∧
      s1.buckets = stepList Epsilon s Distance Distr neighbor s.buckets := by
  obtain ⟨last, _, h2⟩ := addResult_eq Epsilon s Distance Distr neighbor hv hpos
  obtain ⟨_, hb, _⟩ := addResult_some Epsilon s Distance Distr neighbor _ _ hv hpos h2
  refine ⟨_, _, h2, rfl, ?_, rfl, rfl, hb⟩
  simp only [List.length_append, List.length_drop, stepList_length]
  rw [buckets_length s hv]
  omega

theorem stepList_config (Epsilon : ℚ) (s t : BestArray) (Distance : ℚ)
    (Distr : ValueDistribution) (neighbor : String)
    (h1 : s._storeInstances = t._storeInstances) (h2 : s.maxBests = t.maxBests)
    (l : List BestRec) :
    stepList Epsilon s Distance Distr neighbor l = stepList Epsilon t Distance Distr neighbor l := by
  induction l with
  | nil => rfl
  | cons b u ih => simp only [stepList, tieRec, fillRec, h1, h2, ih]

/-- Three candidates at distance 0.5 given to a one-bucket accumulator that
stores instances with `maxBests = 2`. -/
theorem run_three_ties (Epsilon DBL_MAX : ℚ) (hpos : 0 < Epsilon)
    (hM : 1 / 2 + Epsilon < DBL_MAX - 1) (p : BestArray)
    (hp : p.size ≤ p.bestArray.length) (showDi showDb : Bool) (c1 c2 c3 : Candidate)
    (h1 : c1.Distance = 1 / 2) (h2 : c2.Distance = 1 / 2) (h3 : c3.Distance = 1 / 2) :
    ∃ rs s, (p.init DBL_MAX 1 2 true showDi showDb).bind
        (fun s0 => s0.addResults Epsilon [c1, c2, c3]) = some (rs, s) ∧ s.size = 1 ∧
      ∃ b0, s.bestArray[0]? = some b0 ∧ b0.bestDistance = 1 / 2 ∧
        b0.aggregateDist
          = ((ValueDistribution.clear.Merge c1.Distr).Merge c2.Distr).Merge c3.Distr ∧
        b0.bestInstances = [c1.neighbor, c2.neighbor] := by
  obtain ⟨s0, hs0⟩ := init_total DBL_MAX p 1 2 true showDi showDb hp
  obtain ⟨i1, i2, i3, _, _, i6, i7⟩ := init_some _ _ _ _ _ _ _ _ hs0
  obtain ⟨b, hb⟩ := i7 0 (by omega)
  have hB0 : s0.buckets = [initRec DBL_MAX 1 0 b] := by
    apply List.ext_getElem?
    intro j
    simp only [BestArray.buckets, List.getElem?_take, i1]
    by_cases hj : j < 1
    · have : j = 0 := by omega
      subst this
      simp [hb]
    · rw [if_neg hj]
      cases j with
      | zero => omega
      | succ j => simp
  obtain ⟨r1, s1, e1, a1, a2, a3, a4, a5⟩ :=
    addResult_step Epsilon s0 c1.Distance c1.Distr c1.neighbor i6 (by omega)
  obtain ⟨r2, s2, e2, b1, b2, b3, b4, b5⟩ :=
    addResult_step Epsilon s1 c2.Distance c2.Distr c2.neighbor a2 (by omega)
  obtain ⟨r3, s3, e3, c1', c2', c3', c4', c5'⟩ :=
    addResult_step Epsilon s2 c3.Distance c3.Distr c3.neighbor b2 (by omega)
  have hn1 : ¬ |(1 / 2 : ℚ) - (DBL_MAX - ((1 : ℕ) : ℚ) + ((0 : ℕ) : ℚ))| < Epsilon := by
    rw [abs_of_neg (by push_cast; linarith)]
    push_cast
    linarith
  have hl1 : (1 / 2 : ℚ) < DBL_MAX - ((1 : ℕ) : ℚ) + ((0 : ℕ) : ℚ) := by
    push_cast
    linarith
  have hself : |(1 / 2 : ℚ) - 1 / 2| < Epsilon := by simpa using hpos
  have hB1 : s1.buckets = [{ bestDistance := 1 / 2
                             aggregateDist := ValueDistribution.clear.Merge c1.Distr
                             bestInstances := [c1.neighbor]
                             bestDistributions := [c1.Distr.to_VD_Copy] }] := by
    rw [a5, hB0, h1]
    simp only [stepList, initRec, hn1, hl1, if_true, if_false, fillRec, i3, List.getLastD,
      List.dropLast]
  have hB2 : s2.buckets = [{ bestDistance := 1 / 2
                             aggregateDist :=
                               (ValueDistribution.clear.Merge c1.Distr).Merge c2.Distr
                             bestInstances := [c1.neighbor, c2.neighbor]
                             bestDistributions := [c1.Distr.to_VD_Copy, c2.Distr.to_VD_Copy] }] := by
    rw [b5, hB1, h2]
    simp only [stepList, hself, if_true, tieRec, a3, a4, i3, i2]
    simp
  have hB3 : s3.buckets = [{ bestDistance := 1 / 2
                             aggregateDist :=
                               ((ValueDistribution.clear.Merge c1.Distr).Merge c2.Distr).Merge
                                 c3.Distr
                             bestInstances := [c1.neighbor, c2.neighbor]
                             bestDistributions := [c1.Distr.to_VD_Copy, c2.Distr.to_VD_Copy] }] := by
    rw [c5', hB2, h3]
    simp only [stepList, hself, if_true, tieRec, b3, b4, a3, a4, i3, i2]
    simp
  refine ⟨[r1, r2, r3], s3, ?_, by omega, ?_⟩
  · rw [hs0]
    simp only [Option.bind, BestArray.addResults, e1, e2, e3]
  · have hget : s3.buckets[0]? = s3.bestArray[0]? := by
      simp only [BestArray.buckets, List.getElem?_take]
      rw [if_pos (by omega)]
    rw [← hget, hB3]
    exact ⟨_, rfl, rfl, rfl, rfl⟩

/-- C19 (tie atomicity scenario): with `k = 1`, `max_bests = 2` and
`store_instances` on, for each of the six orders in which the three
candidates `(0.5, {X:1})`, `(0.5, {Y:2})`, `(0.5, {X:3})` are passed to
`addResult` after `init`, bucket 0 ends with `bestDistance` 0.5 and aggregate
`{X:4, Y:2}`, and its retained labels are exactly the labels of the first two
candidates passed, in that order (`Epsilon` positive, 0.5 more than `Epsilon`
below the seed). -/
theorem C19_tie_atomicity (Epsilon DBL_MAX : ℚ) (hpos : 0 < Epsilon)
    (hM : 1 / 2 + Epsilon < DBL_MAX - 1) (p : BestArray)
    (hp : p.size ≤ p.bestArray.length) (showDi showDb : Bool) (la lb lc : String)
    (cands : List Candidate)
    (horder : cands ∈ ([⟨1 / 2, exampleX, la⟩, ⟨1 / 2, exampleY, lb⟩,
      ⟨1 / 2, exampleX3, lc⟩] : List Candidate).permutations) :
    ∃ rs s, (p.init DBL_MAX 1 2 true showDi showDb).bind
        (fun s0 => s0.addResults Epsilon cands) = some (rs, s) ∧ s.size = 1 ∧
      ∃ b0, s.bestArray[0]? = some b0 ∧ b0.bestDistance = 1 / 2 ∧
        b0.aggregateDist = exampleX4Y2 ∧
        b0.bestInstances = (cands.take 2).map Candidate.neighbor := by
  simp only [List.permutations, List.permutationsAux_cons, List.permutationsAux2,
    List.permutationsAux_nil, List.foldr, List.mem_cons, List.mem_singleton, id,
    List.append_nil, List.nil_append, List.cons_append, List.not_mem_nil, or_false] at horder
  have key : ∀ c1 c2 c3 : Candidate, c1.Distance = 1 / 2 → c2.Distance = 1 / 2 →
      c3.Distance = 1 / 2 →
      ((ValueDistribution.clear.Merge c1.Distr).Merge c2.Distr).Merge c3.Distr = exampleX4Y2 →
      ∃ rs s, (p.init DBL_MAX 1 2 true showDi showDb).bind
          (fun s0 => s0.addResults Epsilon [c1, c2, c3]) = some (rs, s) ∧ s.size = 1 ∧
        ∃ b0, s.bestArray[0]? = some b0 ∧ b0.bestDistance = 1 / 2 ∧
          b0.aggregateDist = exampleX4Y2 ∧
          b0.bestInstances = (([c1, c2, c3] : List Candidate).take 2).map Candidate.neighbor := by
    intro c1 c2 c3 h1 h2 h3 hagg
    obtain ⟨rs, s, e, hs, b0, g1, g2, g3, g4⟩ := run_three_ties Epsilon DBL_MAX hpos hM p hp
      showDi showDb c1 c2 c3 h1 h2 h3
    exact ⟨rs, s, e, hs, b0, g1, g2, by rw [g3, hagg], by rw [g4]; rfl⟩
  rcases horder with h | h | h | h | h | h <;> subst h <;>
    exact key _ _ _ rfl rfl rfl (by dsimp only; with_unfolding_all decide)

theorem C19_tie_atomicity_witness :
    ∃ rs s, (BestArray.fresh.init 100 1 2 true false false).bind
        (fun s0 => s0.addResults (1 / 4503599627370496)
          [⟨1 / 2, exampleX3, "c"⟩, ⟨1 / 2, exampleX, "a"⟩, ⟨1 / 2, exampleY, "b"⟩])
          = some (rs, s) ∧ s.size = 1 ∧
      ∃ b0, s.bestArray[0]? = some b0 ∧ b0.bestDistance = 1 / 2 ∧
        b0.aggregateDist = exampleX4Y2 ∧
        b0.bestInstances = (([⟨1 / 2, exampleX3, "c"⟩, ⟨1 / 2, exampleX, "a"⟩,
          ⟨1 / 2, exampleY, "b"⟩] : List Candidate).take 2).map Candidate.neighbor :=
  C19_tie_atomicity (1 / 4503599627370496) 100 (by norm_num) (by norm_num) BestArray.fresh
    (by decide) false false "a" "b" "c"
    [⟨1 / 2, exampleX3, "c"⟩, ⟨1 / 2, exampleX, "a"⟩, ⟨1 / 2, exampleY, "b"⟩]
    (by
      simp only [List.permutations, List.permutationsAux_cons, List.permutationsAux2,
        List.permutationsAux_nil, List.foldr, List.mem_cons, List.mem_singleton, id,
        List.append_nil, List.nil_append, List.cons_append, List.not_mem_nil, or_false]
      simp)

/-- C20 (k = 3 scenario): after `init` with `k = 3`, passing the candidates
`(0, {X:1})`, `(1, {X:1})`, `(1, {Y:1})` to `addResult` in that order leaves
bucket 0 with distance 0 and aggregate `{X:1}`, bucket 1 with distance 1 and
the tie-merged aggregate `{X:1, Y:1}`, and bucket 2 with an empty aggregate
and the seed `DBL_MAX - 3` as distance (`0 < Epsilon <= 1`, the distances more
than `Epsilon` below the seeds). -/
theorem C20_k3_scenario (Epsilon DBL_MAX : ℚ) (hpos : 0 < Epsilon) (hle : Epsilon ≤ 1)
    (hM : 1 + Epsilon < DBL_MAX - 3) (p : BestArray) (hp : p.size ≤ p.bestArray.length)
    (maxB : Nat) (storeI showDi showDb : Bool) (la lb lc : String) :
    ∃ rs s, (p.init DBL_MAX 3 maxB storeI showDi showDb).bind
        (fun s0 => s0.addResults Epsilon
          [⟨0, exampleX, la⟩, ⟨1, exampleX, lb⟩, ⟨1, exampleY1, lc⟩]) = some (rs, s) ∧
      s.size = 3 ∧
      s.buckets.map BestRec.view
        = [(0, exampleX), (1, exampleX1Y1), (DBL_MAX - 3, ValueDistribution.clear)] := by
  obtain ⟨s0, h0⟩ := init_total DBL_MAX p 3 maxB storeI showDi showDb hp
  have i0 := init_some _ _ _ _ _ _ _ _ h0
  have v0 := init_view _ _ _ _ _ _ _ _ h0
  rw [← expectedViews_nil] at v0
  have hbelow : ∀ c ∈ ([] : List Candidate) ++
      [⟨0, exampleX, la⟩, ⟨1, exampleX, lb⟩, ⟨1, exampleY1, lc⟩],
      c.Distance + Epsilon < DBL_MAX - ((3 : Nat) : ℚ) := by
    intro c hc
    simp only [List.nil_append, List.mem_cons, List.mem_singleton, List.not_mem_nil,
      or_false] at hc
    push_cast
    rcases hc with h | h | h <;> subst h <;> simp only <;> linarith
  have hsep : ∀ c ∈ ([] : List Candidate) ++
      [⟨0, exampleX, la⟩, ⟨1, exampleX, lb⟩, ⟨1, exampleY1, lc⟩],
      ∀ c1 ∈ ([] : List Candidate) ++
        [⟨0, exampleX, la⟩, ⟨1, exampleX, lb⟩, ⟨1, exampleY1, lc⟩],
      c.Distance = c1.Distance ∨ Epsilon ≤ |c.Distance - c1.Distance| := by
    intro c hc c1 hc1
    simp only [List.nil_append, List.mem_cons, List.mem_singleton, List.not_mem_nil,
      or_false] at hc hc1
    rcases hc with h | h | h <;> rcases hc1 with g | g | g <;> subst h <;> subst g <;>
      simp only <;> norm_num <;> exact hle
  obtain ⟨rs, s, e1, e2, _, e4⟩ := addResults_expected Epsilon hpos DBL_MAX 3 (by omega)
    [⟨0, exampleX, la⟩, ⟨1, exampleX, lb⟩, ⟨1, exampleY1, lc⟩] [] s0 i0.2.2.2.2.2.1 i0.1 v0
    hbelow hsep
  refine ⟨rs, s, by rw [h0]; exact e1, e2, ?_⟩
  rw [e4, List.nil_append]
  have hd : distancesOf ([(⟨0, exampleX, la⟩ : Candidate), ⟨1, exampleX, lb⟩,
      ⟨1, exampleY1, lc⟩]) = [0, 1] := by
    simp [distancesOf, insertDistinct]
  have ha0 : aggregateOf ([(⟨0, exampleX, la⟩ : Candidate), ⟨1, exampleX, lb⟩,
      ⟨1, exampleY1, lc⟩]) 0 = exampleX := by
    simp only [aggregateOf, List.filter]
    norm_num
    with_unfolding_all decide
  have ha1 : aggregateOf ([(⟨0, exampleX, la⟩ : Candidate), ⟨1, exampleX, lb⟩,
      ⟨1, exampleY1, lc⟩]) 1 = exampleX1Y1 := by
    simp only [aggregateOf, List.filter]
    norm_num
    with_unfolding_all decide
  simp only [expectedViews, hd, List.map_cons, List.map_nil, ha0, ha1, List.cons_append,
    List.nil_append, List.take_succ_cons]
  have hs : sentinels DBL_MAX 3 = [(DBL_MAX - 3 + 0, ValueDistribution.clear),
      (DBL_MAX - 3 + 1, ValueDistribution.clear), (DBL_MAX - 3 + 2, ValueDistribution.clear)] := by
    simp [sentinels, List.range_succ]
  rw [hs]
  simp

theorem C20_k3_scenario_witness :
    ∃ rs s, (BestArray.fresh.init 100 3 2 true false false).bind
        (fun s0 => s0.addResults (1 / 4503599627370496)
          [⟨0, exampleX, "a"⟩, ⟨1, exampleX, "b"⟩, ⟨1, exampleY1, "c"⟩]) = some (rs, s) ∧
      s.size = 3 ∧
      s.buckets.map BestRec.view
        = [(0, exampleX), (1, exampleX1Y1), ((100 : ℚ) - 3, ValueDistribution.clear)] :=
  C20_k3_scenario (1 / 4503599627370496) 100 (by norm_num) (by norm_num) (by norm_num)
    BestArray.fresh (by decide) 2 true false false "a" "b" "c"

theorem lexicographical_compare_equiv :
    ∀ a b : List Char,
      (lexicographical_compare nocase_compare a b = false ∧
        lexicographical_compare nocase_compare b a = false) ↔
      a.map tolower = b.map tolower := by
  intro a
  induction a with
  | nil =>
    intro b
    cases b with
    | nil => simp [lexicographical_compare]
    | cons y ys => simp [lexicographical_compare]
  | cons x xs ih =>
    intro b
    cases b with
    | nil => simp [lexicographical_compare]
    | cons y ys =>
      simp only [lexicographical_compare, nocase_compare, List.map_cons, List.cons.injEq,
        decide_eq_true_eq]
      rcases Nat.lt_trichotomy (tolower x) (tolower y) with h | h | h
      · have h2 : ¬ tolower y < tolower x := by omega
        have h3 : ¬ tolower x = tolower y := by omega
        simp [h, h2, h3]
      · have h1 : ¬ tolower x < tolower y := by omega
        have h2 : ¬ tolower y < tolower x := by omega
        simp only [h1, h2, if_false, h, true_and]
        simp only [lt_self_iff_false, if_false]
        exact ih ys
      · have h1 : ¬ tolower x < tolower y := by omega
        have h3 : ¬ tolower x = tolower y := by omega
        simp [h, h1, h3]

/-- Keys are equivalent for `ci_less` exactly when they are equal after
`tolower` on every character. -/
theorem ci_equiv_iff (s1 s2 : String) :
    ci_equiv s1 s2 = true ↔ s1.data.map tolower = s2.data.map tolower := by
  rw [← lexicographical_compare_equiv]
  simp [ci_equiv, ci_less]

theorem mapFind_none_iff (l : List (String × OptionClass)) (name : String) :
    mapFind l name = none ↔ ∀ e ∈ l, ci_equiv e.1 name = false := by
  induction l with
  | nil => simp [mapFind]
  | cons e rest ih =>
    obtain ⟨k, o⟩ := e
    simp only [mapFind, List.mem_cons, forall_eq_or_imp]
    by_cases h : ci_equiv k name = true
    · simp [h]
    · have h2 : ci_equiv k name = false := by simpa using h
      simp [h2, ih]

theorem mapFind_some (l : List (String × OptionClass)) (name : String) (o : OptionClass)
    (h : mapFind l name = some o) :
    ∃ i k, l[i]? = some (k, o) ∧ ci_equiv k name = true ∧
      ∀ opt, mapWrite l name opt = l.set i (k, opt) := by
  induction l with
  | nil => simp [mapFind] at h
  | cons e rest ih =>
    obtain ⟨k, o1⟩ := e
    simp only [mapFind] at h
    by_cases hk : ci_equiv k name = true
    · rw [if_pos hk] at h
      simp only [Option.some.injEq] at h
      subst h
      refine ⟨0, k, by simp, hk, ?_⟩
      intro opt
      simp [mapWrite, hk]
    · rw [if_neg hk] at h
      obtain ⟨i, k1, h1, h2, h3⟩ := ih h
      refine ⟨i + 1, k1, by simpa using h1, h2, ?_⟩
      intro opt
      simp [mapWrite, hk, h3]

theorem mapWrite_of_none (l : List (String × OptionClass)) (name : String)
    (opt : OptionClass) (h : mapFind l name = none) : mapWrite l name opt = l := by
  induction l with
  | nil => rfl
  | cons e rest ih =>
    obtain ⟨k, o1⟩ := e
    simp only [mapFind] at h
    by_cases hk : ci_equiv k name = true
    · rw [if_pos hk] at h
      simp at h
    · rw [if_neg hk] at h
      simp [mapWrite, hk, ih h]

theorem mapWrite_same (l : List (String × OptionClass)) (name : String) (o : OptionClass)
    (h : mapFind l name = some o) : mapWrite l name o = l := by
  obtain ⟨i, k, h1, _, h3⟩ := mapFind_some l name o h
  rw [h3]
  apply List.ext_getElem?
  intro j
  rw [List.getElem?_set]
  by_cases hj : i = j
  · subst hj
    have hlt : i < l.length := by
      by_contra hc
      rw [List.getElem?_eq_none (by omega)] at h1
      simp at h1
    simp [hlt, h1]
  · simp [hj]

theorem mapFind_mapWrite (l : List (String × OptionClass)) (name : String)
    (o opt : OptionClass) (h : mapFind l name = some o) :
    mapFind (mapWrite l name opt) name = some opt := by
  induction l with
  | nil => simp [mapFind] at h
  | cons e rest ih =>
    obtain ⟨k, o1⟩ := e
    simp only [mapFind] at h
    by_cases hk : ci_equiv k name = true
    · simp [mapWrite, mapFind, hk]
    · rw [if_neg hk] at h
      simp [mapWrite, mapFind, hk, ih h]

theorem mapWrite_keys (l : List (String × OptionClass)) (name : String)
    (opt : OptionClass) : (mapWrite l name opt).map Prod.fst = l.map Prod.fst := by
  induction l with
  | nil => rfl
  | cons e rest ih =>
    obtain ⟨k, o1⟩ := e
    simp only [mapWrite]
    split
    · rfl
    · simp [ih]

theorem look_up_store (tbl : OptionTableClass) (name : String) (o opt : OptionClass)
    (rt : Bool) (h : tbl.look_up name = some (o, rt)) :
    (tbl.store name opt).look_up name = some (opt, rt) := by
  simp only [OptionTableClass.look_up] at h
  simp only [OptionTableClass.store, OptionTableClass.look_up]
  cases hr : mapFind tbl.runtime_table name with
  | some o1 =>
    rw [hr] at h
    simp only [Option.some.injEq, Prod.mk.injEq] at h
    simp only [mapFind_mapWrite _ _ _ opt hr]
    rw [← h.2]
  | none =>
    rw [hr] at h
    simp only [hr]
    cases hg : mapFind tbl.global_table name with
    | some o2 =>
      rw [hg] at h
      simp only [Option.some.injEq, Prod.mk.injEq] at h
      simp only [mapFind_mapWrite _ _ _ opt hg]
      rw [← h.2]
    | none =>
      rw [hg] at h
      simp at h

theorem store_same (tbl : OptionTableClass) (name : String) (o : OptionClass)
    (rt : Bool) (h : tbl.look_up name = some (o, rt)) : tbl.store name o = tbl := by
  simp only [OptionTableClass.look_up] at h
  simp only [OptionTableClass.store]
  cases hr : mapFind tbl.runtime_table name with
  | some o1 =>
    rw [hr] at h
    simp only [Option.some.injEq, Prod.mk.injEq] at h
    simp only
    rw [← h.1, mapWrite_same _ _ _ hr]
  | none =>
    rw [hr] at h
    simp only
    cases hg : mapFind tbl.global_table name with
    | some o2 =>
      rw [hg] at h
      simp only [Option.some.injEq, Prod.mk.injEq] at h
      rw [← h.1, mapWrite_same _ _ _ hg]
    | none =>
      rw [hg] at h
      simp at h

/-- On a frozen table `SetOption` never answers `Opt_Frozen`: `look_up` hands
back `runtime = table_frozen` for an option of the global table. -/
theorem SetOption_frozen_never (t : TiCC) (tbl : OptionTableClass) (line : String)
    (hf : tbl.table_frozen = true) (r : SetOptRes) (tbl1 : OptionTableClass)
    (h : tbl.SetOption t line = some (r, tbl1)) : r ≠ SetOptRes.Opt_Frozen := by
  simp only [OptionTableClass.SetOption] at h
  cases hs : split_line t line "" "" with
  | none => rw [hs] at h; simp at h
  | some nv =>
    obtain ⟨name, value⟩ := nv
    rw [hs] at h
    simp only at h
    cases hl : tbl.look_up name with
    | none =>
      rw [hl] at h
      simp only [Option.some.injEq, Prod.mk.injEq] at h
      rw [← h.1]; simp
    | some x =>
      obtain ⟨o, rt⟩ := x
      rw [hl] at h
      have hrt : rt = true := by
        simp only [OptionTableClass.look_up] at hl
        cases hr : mapFind tbl.runtime_table name with
        | some o1 =>
          rw [hr] at hl
          simp only [Option.some.injEq, Prod.mk.injEq] at hl
          exact hl.2.symm
        | none =>
          rw [hr] at hl
          cases hg : mapFind tbl.global_table name with
          | some o2 =>
            rw [hg] at hl
            simp only [Option.some.injEq, Prod.mk.injEq] at hl
            rw [← hl.2, hf]
          | none => rw [hg] at hl; simp at hl
      subst hrt
      simp only [Bool.not_true, Bool.false_eq_true, if_false] at h
      cases hset : o.set_option t value with
      | none => rw [hset] at h; simp at h
      | some y =>
        obtain ⟨ok, o1⟩ := y
        rw [hset] at h
        cases ok <;> simp only [Option.some.injEq, Prod.mk.injEq] at h <;> rw [← h.1] <;> simp

/-- C12, evaluated at the failing input: the option `k` (range 1..10, value 1)
is added, the table is frozen, and `SetOption( "k: 5" )` answers `Opt_OK`
and stores 5, where the claim asks for `Opt_Frozen` and an unchanged value. -/
theorem C12_frozen_option_is_set :
    ((OptionTableClass.new.Add (OptionClass.OptionClassLT "k" OptionType.int 1 1 10)).FreezeTable
      ).SetOption exampleTiCC "k: 5"
      = some (SetOptRes.Opt_OK,
          { table_frozen := true, runtime_table := []
            global_table := [("k", OptionClass.OptionClassLT "k" OptionType.int 5 1 10)] }) := by
  with_unfolding_all decide

/-- C13 (unknown options): for every table state and every line that splits
at `:` into exactly two parts, `SetOption` returns `Opt_Unknown` if and only
if neither the runtime table nor the global table holds an entry whose name
equals the trimmed first part after `tolower` on every character; when it
returns `Opt_Unknown` the table, and so every option's content, is unchanged. -/
theorem C13_unknown_option (t : TiCC) (tbl : OptionTableClass) (line r0 r1 : String)
    (hsplit : t.split_at line ":" = [r0, r1]) :
    ((∃ tbl1, tbl.SetOption t line = some (SetOptRes.Opt_Unknown, tbl1)) ↔
      ¬ ∃ e ∈ tbl.runtime_table ++ tbl.global_table,
          e.1.data.map tolower = (t.trim r0).data.map tolower) ∧
    (∀ tbl1, tbl.SetOption t line = some (SetOptRes.Opt_Unknown, tbl1) → tbl1 = tbl) := by
  have hs : split_line t line "" "" = some (t.trim r0, t.trim r1) := by
    simp only [split_line, hsplit]
  have hnone : tbl.look_up (t.trim r0) = none ↔
      ¬ ∃ e ∈ tbl.runtime_table ++ tbl.global_table,
          e.1.data.map tolower = (t.trim r0).data.map tolower := by
    simp only [OptionTableClass.look_up]
    constructor
    · intro h
      rintro ⟨e, he, heq⟩
      have hce : ci_equiv e.1 (t.trim r0) = true := (ci_equiv_iff _ _).2 heq
      cases hr : mapFind tbl.runtime_table (t.trim r0) with
      | some o => rw [hr] at h; simp at h
      | none =>
        rw [hr] at h
        cases hg : mapFind tbl.global_table (t.trim r0) with
        | some o => rw [hg] at h; simp at h
        | none =>
          rcases List.mem_append.1 he with h1 | h1
          · have := (mapFind_none_iff _ _).1 hr e h1
            rw [hce] at this; simp at this
          · have := (mapFind_none_iff _ _).1 hg e h1
            rw [hce] at this; simp at this
    · intro h
      have hr : mapFind tbl.runtime_table (t.trim r0) = none := by
        rw [mapFind_none_iff]
        intro e he
        by_contra hc
        have hce : ci_equiv e.1 (t.trim r0) = true := by simpa using hc
        exact h ⟨e, List.mem_append_left _ he, (ci_equiv_iff _ _).1 hce⟩
      have hg : mapFind tbl.global_table (t.trim r0) = none := by
        rw [mapFind_none_iff]
        intro e he
        by_contra hc
        have hce : ci_equiv e.1 (t.trim r0) = true := by simpa using hc
        exact h ⟨e, List.mem_append_right _ he, (ci_equiv_iff _ _).1 hce⟩
      simp only [hr, hg]
  have hres : ∀ tbl1, tbl.SetOption t line = some (SetOptRes.Opt_Unknown, tbl1) →
      tbl.look_up (t.trim r0) = none ∧ tbl1 = tbl := by
    intro tbl1 h
    simp only [OptionTableClass.SetOption, hs] at h
    cases hl : tbl.look_up (t.trim r0) with
    | none =>
      rw [hl] at h
      simp only [Option.some.injEq, Prod.mk.injEq, true_and] at h
      exact ⟨rfl, h.symm⟩
    | some x =>
      obtain ⟨o, rt⟩ := x
      rw [hl] at h
      exfalso
      simp only at h
      cases rt
      · simp at h
      · simp only [Bool.not_true, Bool.false_eq_true, if_false] at h
        cases hset : o.set_option t (t.trim r1) with
        | none => rw [hset] at h; simp at h
        | some y =>
          obtain ⟨ok, o1⟩ := y
          rw [hset] at h
          cases ok <;> simp at h
  refine ⟨⟨?_, ?_⟩, fun tbl1 h => (hres tbl1 h).2⟩
  · rintro ⟨tbl1, h⟩
    exact hnone.1 (hres tbl1 h).1
  · intro h
    refine ⟨tbl, ?_⟩
    simp only [OptionTableClass.SetOption, hs, hnone.2 h]

theorem C13_unknown_option_witness :
    ((∃ tbl1, exampleTable.SetOption exampleTiCC "j: 5" = some (SetOptRes.Opt_Unknown, tbl1)) ↔
      ¬ ∃ e ∈ exampleTable.runtime_table ++ exampleTable.global_table,
          e.1.data.map tolower = (exampleTiCC.trim "j").data.map tolower) ∧
    (∀ tbl1, exampleTable.SetOption exampleTiCC "j: 5" = some (SetOptRes.Opt_Unknown, tbl1) →
      tbl1 = exampleTable) :=
  C13_unknown_option exampleTiCC exampleTable "j: 5" "j" " 5" (by decide)

/-- C14 (range-limited options reject illegal values atomically): for an
`OptionClassLT` option with bounds `minVal` and `maxVal` that `look_up` finds
settable, `SetOption` stores the converted value and returns `Opt_OK` when the
value text converts to a `v` with `minVal <= v <= maxVal`; otherwise it
returns `Opt_Ill_Val` and leaves the table, and so the option's content,
exactly as it was. -/
theorem C14_range_limited (t : TiCC) (tbl : OptionTableClass) (line r0 r1 : String)
    (hsplit : t.split_at line ":" = [r0, r1])
    (n : String) (ty : OptionType) (c minVal maxVal : ℚ)
    (hlook : tbl.look_up (t.trim r0)
      = some (OptionClass.OptionClassLT n ty c minVal maxVal, true)) :
    (∀ v, t.stringTo ty (t.trim r1) = some v → minVal ≤ v → v ≤ maxVal →
      tbl.SetOption t line = some (SetOptRes.Opt_OK,
        tbl.store (t.trim r0) (OptionClass.OptionClassLT n ty v minVal maxVal)) ∧
      (tbl.store (t.trim r0) (OptionClass.OptionClassLT n ty v minVal maxVal)).look_up
          (t.trim r0) = some (OptionClass.OptionClassLT n ty v minVal maxVal, true)) ∧
    ((¬ ∃ v, t.stringTo ty (t.trim r1) = some v ∧ minVal ≤ v ∧ v ≤ maxVal) →
      tbl.SetOption t line = some (SetOptRes.Opt_Ill_Val, tbl)) := by
  have hs : split_line t line "" "" = some (t.trim r0, t.trim r1) := by
    simp only [split_line, hsplit]
  constructor
  · intro v hv h1 h2
    refine ⟨?_, look_up_store _ _ _ _ _ hlook⟩
    simp only [OptionTableClass.SetOption, hs, hlook, Bool.not_true, Bool.false_eq_true,
      if_false, OptionClass.set_option, TiCC.stringToRange, hv, h1, h2, and_self, if_true]
  · intro hno
    have hr : t.stringToRange ty (t.trim r1) minVal maxVal = none := by
      simp only [TiCC.stringToRange]
      cases hv : t.stringTo ty (t.trim r1) with
      | none => rfl
      | some v =>
        have : ¬ (minVal ≤ v ∧ v ≤ maxVal) := fun hc => hno ⟨v, hv, hc⟩
        simp [this]
    simp only [OptionTableClass.SetOption, hs, hlook, Bool.not_true, Bool.false_eq_true,
      if_false, OptionClass.set_option, hr]
    rw [store_same _ _ _ _ hlook]

theorem C14_range_limited_witness :
    (∀ v, exampleTiCC.stringTo OptionType.int (exampleTiCC.trim " 5") = some v →
      (1 : ℚ) ≤ v → v ≤ 10 →
      exampleTable.SetOption exampleTiCC "k: 5" = some (SetOptRes.Opt_OK,
        exampleTable.store (exampleTiCC.trim "k")
          (OptionClass.OptionClassLT "k" OptionType.int v 1 10)) ∧
      (exampleTable.store (exampleTiCC.trim "k")
          (OptionClass.OptionClassLT "k" OptionType.int v 1 10)).look_up
          (exampleTiCC.trim "k") = some (OptionClass.OptionClassLT "k" OptionType.int v 1 10, true)) ∧
    ((¬ ∃ v, exampleTiCC.stringTo OptionType.int (exampleTiCC.trim " 5") = some v ∧
        (1 : ℚ) ≤ v ∧ v ≤ 10) →
      exampleTable.SetOption exampleTiCC "k: 5" = some (SetOptRes.Opt_Ill_Val, exampleTable)) :=
  C14_range_limited exampleTiCC exampleTable "k: 5" "k" " 5" (by decide)
    "k" OptionType.int 1 1 10 (by with_unfolding_all decide)

theorem store_eq_set (tbl : OptionTableClass) (name : String) (o : OptionClass) (rt : Bool)
    (h : tbl.look_up name = some (o, rt)) :
    ∃ idx k, (tbl.runtime_table ++ tbl.global_table)[idx]? = some (k, o) ∧
      ∀ opt, (tbl.store name opt).runtime_table ++ (tbl.store name opt).global_table
          = (tbl.runtime_table ++ tbl.global_table).set idx (k, opt) ∧
        (tbl.store name opt).table_frozen = tbl.table_frozen ∧
        (tbl.store name opt).runtime_table.map Prod.fst = tbl.runtime_table.map Prod.fst ∧
        (tbl.store name opt).global_table.map Prod.fst = tbl.global_table.map Prod.fst := by
  simp only [OptionTableClass.look_up] at h
  cases hr : mapFind tbl.runtime_table name with
  | some o1 =>
    rw [hr] at h
    simp only [Option.some.injEq, Prod.mk.injEq] at h
    obtain ⟨i, k, h1, _, h3⟩ := mapFind_some _ _ _ hr
    have hlt : i < tbl.runtime_table.length := by
      by_contra hc
      rw [List.getElem?_eq_none (by omega)] at h1
      simp at h1
    refine ⟨i, k, ?_, ?_⟩
    · rw [List.getElem?_append_left hlt, h1, h.1]
    · intro opt
      have hst : tbl.store name opt
          = { tbl with runtime_table := mapWrite tbl.runtime_table name opt } := by
        simp only [OptionTableClass.store, hr]
      rw [hst]
      refine ⟨?_, rfl, mapWrite_keys _ _ _, rfl⟩
      simp only
      rw [h3, List.set_append_left _ _ hlt]
  | none =>
    rw [hr] at h
    cases hg : mapFind tbl.global_table name with
    | none => rw [hg] at h; simp at h
    | some o2 =>
      rw [hg] at h
      simp only [Option.some.injEq, Prod.mk.injEq] at h
      obtain ⟨i, k, h1, _, h3⟩ := mapFind_some _ _ _ hg
      refine ⟨tbl.runtime_table.length + i, k, ?_, ?_⟩
      · rw [List.getElem?_append_right (by omega)]
        simp only [Nat.add_sub_cancel_left]
        rw [h1, h.1]
      · intro opt
        have hst : tbl.store name opt
            = { tbl with global_table := mapWrite tbl.global_table name opt } := by
          simp only [OptionTableClass.store, hr]
        rw [hst]
        refine ⟨?_, rfl, rfl, mapWrite_keys _ _ _⟩
        simp only
        rw [h3, List.set_append_right _ _ (by omega)]
        simp only [Nat.add_sub_cancel_left]

/-- `SetOption` touches at most the named option where it returns a result
code: whatever result code `SetOption` returns, the frozen flag and the names
in the runtime and the global table are as before, the entries of the two
tables differ from before in at most one place, and an entry that differs is
the option that `look_up` resolves the name of the line to. -/
theorem SetOption_frame (t : TiCC) (tbl : OptionTableClass) (line name value : String)
    (hs : split_line t line "" "" = some (name, value))
    (r : SetOptRes) (tbl1 : OptionTableClass)
    (h : tbl.SetOption t line = some (r, tbl1)) :
    tbl1.table_frozen = tbl.table_frozen ∧
    tbl1.runtime_table.map Prod.fst = tbl.runtime_table.map Prod.fst ∧
    tbl1.global_table.map Prod.fst = tbl.global_table.map Prod.fst ∧
    (∃ i : Nat, ∀ j : Nat, j ≠ i → (tbl1.runtime_table ++ tbl1.global_table)[j]?
      = (tbl.runtime_table ++ tbl.global_table)[j]?) ∧
    (∀ (j : Nat) (e : String × OptionClass), (tbl.runtime_table ++ tbl.global_table)[j]? = some e →
      (tbl1.runtime_table ++ tbl1.global_table)[j]? ≠ some e →
      ∃ rt, tbl.look_up name = some (e.2, rt)) := by
  have same : ∀ x : OptionTableClass, x = tbl →
      x.table_frozen = tbl.table_frozen ∧
      x.runtime_table.map Prod.fst = tbl.runtime_table.map Prod.fst ∧
      x.global_table.map Prod.fst = tbl.global_table.map Prod.fst ∧
      (∃ i : Nat, ∀ j : Nat, j ≠ i → (x.runtime_table ++ x.global_table)[j]?
        = (tbl.runtime_table ++ tbl.global_table)[j]?) ∧
      (∀ (j : Nat) (e : String × OptionClass), (tbl.runtime_table ++ tbl.global_table)[j]? = some e →
        (x.runtime_table ++ x.global_table)[j]? ≠ some e →
        ∃ rt, tbl.look_up name = some (e.2, rt)) := by
    intro x hx
    subst hx
    exact ⟨rfl, rfl, rfl, ⟨0, fun _ _ => rfl⟩, fun j e h1 h2 => absurd h1 h2⟩
  have stored : ∀ o rt opt, tbl.look_up name = some (o, rt) →
      (tbl.store name opt).table_frozen = tbl.table_frozen ∧
      (tbl.store name opt).runtime_table.map Prod.fst = tbl.runtime_table.map Prod.fst ∧
      (tbl.store name opt).global_table.map Prod.fst = tbl.global_table.map Prod.fst ∧
      (∃ i : Nat, ∀ j : Nat, j ≠ i →
        ((tbl.store name opt).runtime_table ++ (tbl.store name opt).global_table)[j]?
          = (tbl.runtime_table ++ tbl.global_table)[j]?) ∧
      (∀ (j : Nat) (e : String × OptionClass), (tbl.runtime_table ++ tbl.global_table)[j]? = some e →
        ((tbl.store name opt).runtime_table ++ (tbl.store name opt).global_table)[j]? ≠ some e →
        ∃ rt, tbl.look_up name = some (e.2, rt)) := by
    intro o rt opt hl
    obtain ⟨idx, k, h1, h2⟩ := store_eq_set tbl name o rt hl
    obtain ⟨e1, e2, e3, e4⟩ := h2 opt
    refine ⟨e2, e3, e4, ⟨idx, ?_⟩, ?_⟩
    · intro j hj
      rw [e1, List.getElem?_set_ne (Ne.symm hj)]
    · intro j e he hne
      by_cases hj : j = idx
      · subst hj
        rw [h1] at he
        simp only [Option.some.injEq] at he
        rw [← he]
        exact ⟨rt, hl⟩
      · exfalso
        apply hne
        rw [e1, List.getElem?_set_ne (fun hc => hj hc.symm)]
        exact he
  simp only [OptionTableClass.SetOption, hs] at h
  cases hl : tbl.look_up name with
  | none =>
    rw [hl] at h
    simp only [Option.some.injEq, Prod.mk.injEq] at h
    have key := same tbl1 h.2.symm
    rw [hl] at key
    exact key
  | some x =>
    obtain ⟨o, rt⟩ := x
    rw [hl] at h
    simp only at h
    cases rt
    · simp only [Bool.not_false, if_true, Option.some.injEq, Prod.mk.injEq] at h
      have key := same tbl1 h.2.symm
      rw [hl] at key
      exact key
    · simp only [Bool.not_true, Bool.false_eq_true, if_false] at h
      cases hset : o.set_option t value with
      | none => rw [hset] at h; simp at h
      | some y =>
        obtain ⟨ok, o1⟩ := y
        rw [hset] at h
        have key := stored o true o1 hl
        rw [hl] at key
        cases ok <;> simp only [Option.some.injEq, Prod.mk.injEq] at h <;> rw [← h.2] <;>
          exact key

theorem SetOption_frame_witness :
    ({ table_frozen := false
       runtime_table := [("k", OptionClass.OptionClassLT "k" OptionType.int 5 1 10),
         ("verbose", OptionClass.OptionClassT "verbose" OptionType.bool 0)]
       global_table := [] } : OptionTableClass).table_frozen = exampleTable.table_frozen ∧
    ({ table_frozen := false
       runtime_table := [("k", OptionClass.OptionClassLT "k" OptionType.int 5 1 10),
         ("verbose", OptionClass.OptionClassT "verbose" OptionType.bool 0)]
       global_table := [] } : OptionTableClass).runtime_table.map Prod.fst
      = exampleTable.runtime_table.map Prod.fst ∧
    ({ table_frozen := false
       runtime_table := [("k", OptionClass.OptionClassLT "k" OptionType.int 5 1 10),
         ("verbose", OptionClass.OptionClassT "verbose" OptionType.bool 0)]
       global_table := [] } : OptionTableClass).global_table.map Prod.fst
      = exampleTable.global_table.map Prod.fst ∧
    (∃ i : Nat, ∀ j : Nat, j ≠ i →
      (({ table_frozen := false
          runtime_table := [("k", OptionClass.OptionClassLT "k" OptionType.int 5 1 10),
            ("verbose", OptionClass.OptionClassT "verbose" OptionType.bool 0)]
          global_table := [] } : OptionTableClass).runtime_table ++
        ({ table_frozen := false
           runtime_table := [("k", OptionClass.OptionClassLT "k" OptionType.int 5 1 10),
             ("verbose", OptionClass.OptionClassT "verbose" OptionType.bool 0)]
           global_table := [] } : OptionTableClass).global_table)[j]?
      = (exampleTable.runtime_table ++ exampleTable.global_table)[j]?) ∧
    (∀ (j : Nat) (e : String × OptionClass), (exampleTable.runtime_table ++ exampleTable.global_table)[j]? = some e →
      (({ table_frozen := false
          runtime_table := [("k", OptionClass.OptionClassLT "k" OptionType.int 5 1 10),
            ("verbose", OptionClass.OptionClassT "verbose" OptionType.bool 0)]
          global_table := [] } : OptionTableClass).runtime_table ++
        ({ table_frozen := false
           runtime_table := [("k", OptionClass.OptionClassLT "k" OptionType.int 5 1 10),
             ("verbose", OptionClass.OptionClassT "verbose" OptionType.bool 0)]
           global_table := [] } : OptionTableClass).global_table)[j]? ≠ some e →
      ∃ rt, exampleTable.look_up "K" = some (e.2, rt)) :=
  SetOption_frame exampleTiCC exampleTable "K : 5" "K" "5" (by decide) SetOptRes.Opt_OK
    { table_frozen := false
      runtime_table := [("k", OptionClass.OptionClassLT "k" OptionType.int 5 1 10),
        ("verbose", OptionClass.OptionClassT "verbose" OptionType.bool 0)]
      global_table := [] }
    (by with_unfolding_all decide)

/-! ## Instance.h: frequency bookkeeping -/

/-- C21 (frequency/distribution synchronisation): for every `FeatureValue`
`fv` and every distribution `vd`, after `fv.ReconstructDistribution( vd )`
the frequency `ValFreq()` equals `TargetDist.totalSize()`, and that count is
the count of `TargetDist` before the call plus `vd.totalSize()`. -/
theorem C21_frequency_sync (fv : FeatureValue) (vd : ValueDistribution) :
    (fv.ReconstructDistribution vd).ValFreq
        = (fv.ReconstructDistribution vd).TargetDist.totalSize ∧
      (fv.ReconstructDistribution vd).TargetDist.totalSize
        = fv.TargetDist.totalSize + vd.totalSize := by
  simp [FeatureValue.ReconstructDistribution, FeatureValue.ValFreq, ValueDistribution.Merge,
    ValueDistribution.totalSize]

/-! ## BestArray.cxx: the vector across calls of `init` -/

/-- C24 (bucket indexing stays in range across re-initialisation): in every
state of the life of a `BestArray` (any sequence of `init` calls with any
`k`, with `addResult` calls in between), a further `init( k, .. )` succeeds
and leaves a vector of at least `k` entries, so every index `0..k-1` refers
to a bucket; for `k >= 1` the index `size-1` is valid and every `addResult`
call that follows succeeds. -/
theorem C24_index_in_range (Epsilon DBL_MAX : ℚ) (p : BestArray)
    (hp : Execution Epsilon DBL_MAX p) (k maxB : Nat) (storeI showDi showDb : Bool) :
    ∃ s, p.init DBL_MAX k maxB storeI showDi showDb = some s ∧ s.size = k ∧
      k ≤ s.bestArray.length ∧ (∀ i, i < k → ∃ b, s.bestArray[i]? = some b) ∧
      (1 ≤ k → (∃ b, s.bestArray[s.size - 1]? = some b) ∧
        ∀ (Distance : ℚ) (Distr : ValueDistribution) (neighbor : String),
          ∃ r s1, s.addResult Epsilon Distance Distr neighbor = some (r, s1)) := by
  obtain ⟨s, hs⟩ := init_total DBL_MAX p k maxB storeI showDi showDb (execution_valid _ _ _ hp)
  have i1 := init_some _ _ _ _ _ _ _ _ hs
  have hk : s.size = k := i1.1
  have hv : s.size ≤ s.bestArray.length := i1.2.2.2.2.2.1
  refine ⟨s, hs, hk, by omega, ?_, ?_⟩
  · intro i hi
    exact ⟨s.bestArray[i], List.getElem?_eq_getElem (by omega)⟩
  · intro h1
    refine ⟨⟨s.bestArray[s.size - 1], List.getElem?_eq_getElem (by omega)⟩, ?_⟩
    intro Distance Distr neighbor
    obtain ⟨r, s1, h, _⟩ := addResult_view Epsilon s Distance Distr neighbor hv (by omega)
    exact ⟨r, s1, h⟩

theorem C24_index_in_range_witness :
    Execution (1 / 2) 100 exampleState ∧
    ∃ s, exampleState.init 100 3 2 true false false = some s ∧ s.size = 3 ∧
      3 ≤ s.bestArray.length ∧ (∀ i, i < 3 → ∃ b, s.bestArray[i]? = some b) ∧
      (1 ≤ 3 → (∃ b, s.bestArray[s.size - 1]? = some b) ∧
        ∀ (Distance : ℚ) (Distr : ValueDistribution) (neighbor : String),
          ∃ r s1, s.addResult (1 / 2) Distance Distr neighbor = some (r, s1)) :=
  ⟨exampleState_execution,
    C24_index_in_range (1 / 2) 100 exampleState exampleState_execution 3 2 true false false⟩

/-! ## Options.h: `split_line`, `MetricArrayOption`, `FreezeTable`, `ci_less` -/

theorem split_line_single (t : TiCC) (tbl : OptionTableClass) (line r : String)
    (h : t.split_at line ":" = [r]) :
    split_line t line "" "" = none ∧ tbl.SetOption t line = none := by
  have h1 : split_line t line "" "" = none := by
    simp only [split_line, h]
  refine ⟨h1, ?_⟩
  simp only [OptionTableClass.SetOption, h1]

/-- C25 (split_line on a line without separator): the line `verbose` has no
`:`, so splitting at `:` yields the single part `verbose`; `split_line` then
reads `results[1]` beyond the one element of the split result, and
`SetOption` on this line yields none of the four result codes. -/
theorem C25_split_line_single_part :
    exampleTiCC.split_at "verbose" ":" = ["verbose"] ∧
      split_line exampleTiCC "verbose" "" "" = none ∧
      exampleTable.SetOption exampleTiCC "verbose" = none := by
  decide

theorem set_option_index_Size (t : TiCC) (n : String) (TA : List ℚ) (d : ℚ)
    (line r0 r1 : String) (m : ℚ) (hs : t.split_at line "=" = [r0, r1])
    (hm : t.stringTo OptionType.MetricType r1 = some m)
    (hi : t.stringTo_size_t r0 = some TA.length) :
    (OptionClass.MetricArrayOption n TA TA.length d).set_option t line = none := by
  simp [OptionClass.set_option, hs, hm, TiCC.stringToRange_size_t, hi]

/-- C26 (per-feature metric override): for a `MetricArrayOption` built over
3 entries, the line `3=1` (index 3, metric 1) passes the range check
`stringTo<size_t>( res[0], i, 0, Size )`, whose upper bound `Size` is
included, and `TA[3]` is written beyond the last entry of the array. -/
theorem C26_metric_index_Size :
    exampleTiCC.stringToRange_size_t "3" 0 3 = some 3 ∧
      (OptionClass.MetricArrayOption "m" [0, 0, 0] 3 0).set_option exampleTiCC "3=1" = none := by
  with_unfolding_all decide

/-- C27 (counterexample): the option `k` is added, the table is frozen, the
option `verbose` is added; `look_up( "k" )` then resolves to the option `k`,
and after a second `FreezeTable` it resolves to nothing. -/
theorem C27_counterexample :
    (((OptionTableClass.new.Add (OptionClass.OptionClassLT "k" OptionType.int 1 1 10)).FreezeTable
        ).Add (OptionClass.OptionClassT "verbose" OptionType.bool 0)).look_up "k"
      = some (OptionClass.OptionClassLT "k" OptionType.int 1 1 10, true) ∧
    (((OptionTableClass.new.Add (OptionClass.OptionClassLT "k" OptionType.int 1 1 10)).FreezeTable
        ).Add (OptionClass.OptionClassT "verbose" OptionType.bool 0)).FreezeTable.look_up "k"
      = none := by
  with_unfolding_all decide

/-- C27 (FreezeTable keeps the runtime options): every option name that
`look_up` resolves immediately before a `FreezeTable` call, through the
runtime table or with the global table still empty (no earlier `FreezeTable`),
resolves to the same option immediately after it. -/
theorem C27_freeze_keeps (tbl : OptionTableClass) (name : String) (o : OptionClass)
    (rt : Bool) (h : tbl.look_up name = some (o, rt))
    (hsrc : mapFind tbl.runtime_table name ≠ none ∨ tbl.global_table = []) :
    tbl.FreezeTable.look_up name = some (o, true) := by
  have hr : mapFind tbl.runtime_table name = some o := by
    cases hm : mapFind tbl.runtime_table name with
    | some o1 =>
      simp only [OptionTableClass.look_up, hm, Option.some.injEq, Prod.mk.injEq] at h
      rw [h.1]
    | none =>
      rcases hsrc with h1 | h1
      · exact absurd hm h1
      · simp [OptionTableClass.look_up, hm, h1, mapFind] at h
  simp [OptionTableClass.look_up, OptionTableClass.FreezeTable, mapFind, hr]

theorem C27_freeze_keeps_witness :
    exampleTable.look_up "K" = some (OptionClass.OptionClassLT "k" OptionType.int 1 1 10, true) ∧
    (mapFind exampleTable.runtime_table "K" ≠ none ∨ exampleTable.global_table = []) ∧
    exampleTable.FreezeTable.look_up "K"
      = some (OptionClass.OptionClassLT "k" OptionType.int 1 1 10, true) :=
  ⟨by with_unfolding_all decide, Or.inr (by decide),
    C27_freeze_keeps exampleTable "K" _ true (by with_unfolding_all decide) (Or.inr (by decide))⟩

theorem lexicographical_compare_irrefl :
    ∀ a : List Char, lexicographical_compare nocase_compare a a = false := by
  intro a
  induction a with
  | nil => rfl
  | cons x xs ih => simp [lexicographical_compare, nocase_compare, ih]

theorem lexicographical_compare_trans :
    ∀ a b c : List Char, lexicographical_compare nocase_compare a b = true →
      lexicographical_compare nocase_compare b c = true →
      lexicographical_compare nocase_compare a c = true := by
  intro a
  induction a with
  | nil =>
    intro b c h1 h2
    cases c with
    | nil => cases b <;> simp [lexicographical_compare] at h2
    | cons z zs => simp [lexicographical_compare]
  | cons x xs ih =>
    intro b c h1 h2
    cases b with
    | nil => simp [lexicographical_compare] at h1
    | cons y ys =>
      cases c with
      | nil => simp [lexicographical_compare] at h2
      | cons z zs =>
        simp only [lexicographical_compare, nocase_compare, decide_eq_true_eq] at h1 h2 ⊢
        by_cases hxy : tolower x < tolower y
        · by_cases hyz : tolower y < tolower z
          · rw [if_pos (by omega)]
          · rw [if_neg hyz] at h2
            by_cases hzy : tolower z < tolower y
            · rw [if_pos hzy] at h2; simp at h2
            · rw [if_pos (by omega)]
        · rw [if_neg hxy] at h1
          by_cases hyx : tolower y < tolower x
          · rw [if_pos hyx] at h1; simp at h1
          · rw [if_neg hyx] at h1
            by_cases hyz : tolower y < tolower z
            · rw [if_pos (by omega)]
            · rw [if_neg hyz] at h2
              by_cases hzy : tolower z < tolower y
              · rw [if_pos hzy] at h2; simp at h2
              · rw [if_neg hzy] at h2
                rw [if_neg (by omega), if_neg (by omega)]
                exact ih ys zs h1 h2

theorem lexicographical_compare_congr :
    ∀ a a1 b b1 : List Char, a.map tolower = a1.map tolower →
      b.map tolower = b1.map tolower →
      lexicographical_compare nocase_compare a b
        = lexicographical_compare nocase_compare a1 b1 := by
  intro a
  induction a with
  | nil =>
    intro a1 b b1 ha hb
    cases a1 with
    | cons _ _ => simp at ha
    | nil =>
      cases b with
      | nil =>
        cases b1 with
        | nil => rfl
        | cons _ _ => simp at hb
      | cons y ys =>
        cases b1 with
        | nil => simp at hb
        | cons _ _ => simp [lexicographical_compare]
  | cons x xs ih =>
    intro a1 b b1 ha hb
    cases a1 with
    | nil => simp at ha
    | cons x1 xs1 =>
      cases b with
      | nil =>
        cases b1 with
        | nil => simp [lexicographical_compare]
        | cons _ _ => simp at hb
      | cons y ys =>
        cases b1 with
        | nil => simp at hb
        | cons y1 ys1 =>
          simp only [List.map_cons, List.cons.injEq] at ha hb
          simp only [lexicographical_compare, nocase_compare, ha.1, hb.1]
          rw [ih xs1 ys ys1 ha.2 hb.2]

theorem ci_less_congr (a a1 b b1 : String)
    (ha : a.data.map tolower = a1.data.map tolower)
    (hb : b.data.map tolower = b1.data.map tolower) : ci_less a b = ci_less a1 b1 :=
  lexicographical_compare_congr _ _ _ _ ha hb

theorem ci_equiv_congr (a a1 b b1 : String)
    (ha : a.data.map tolower = a1.data.map tolower)
    (hb : b.data.map tolower = b1.data.map tolower) : ci_equiv a b = ci_equiv a1 b1 := by
  simp only [ci_equiv, ci_less_congr a a1 b b1 ha hb, ci_less_congr b b1 a a1 hb ha]

theorem mapFind_congr (l : List (String × OptionClass)) (n1 n2 : String)
    (h : n1.data.map tolower = n2.data.map tolower) : mapFind l n1 = mapFind l n2 := by
  induction l with
  | nil => rfl
  | cons e rest ih =>
    obtain ⟨k, o⟩ := e
    simp only [mapFind, ci_equiv_congr k k n1 n2 rfl h, ih]

theorem mapFind_mapAssign (l : List (String × OptionClass)) (n : String) (opt : OptionClass) :
    mapFind (mapAssign l n opt) n = some opt := by
  have hrefl : ∀ a : String, ci_less a a = false := fun a =>
    lexicographical_compare_irrefl a.data
  induction l with
  | nil => simp [mapAssign, mapFind, ci_equiv, hrefl]
  | cons e rest ih =>
    obtain ⟨k, o⟩ := e
    simp only [mapAssign]
    by_cases h1 : ci_less n k = true
    · rw [if_pos h1]
      simp [mapFind, ci_equiv, hrefl]
    · rw [if_neg h1]
      by_cases h2 : ci_less k n = true
      · rw [if_pos h2]
        simp only [mapFind, ci_equiv, h2, Bool.not_true, Bool.false_and]
        simpa using ih
      · rw [if_neg h2]
        simp only [Bool.not_eq_true] at h1 h2
        simp [mapFind, ci_equiv, h1, h2]

/-- C28 (option names are case-insensitive): `ci_less` is irreflexive and
transitive, the strings it does not tell apart are those that are equal after
`tolower` on every character, and being not told apart is transitive; two
names that are equal after `tolower` resolve alike under `look_up`, and an
option entered by `Add` is found by `look_up` under every name that equals
its own after `tolower`. -/
theorem C28_case_insensitive :
    (∀ a : String, ci_less a a = false) ∧
    (∀ a b c : String, ci_less a b = true → ci_less b c = true → ci_less a c = true) ∧
    (∀ a b : String, ci_equiv a b = true ↔ a.data.map tolower = b.data.map tolower) ∧
    (∀ a b c : String, ci_equiv a b = true → ci_equiv b c = true → ci_equiv a c = true) ∧
    (∀ (tbl : OptionTableClass) (n1 n2 : String),
      n1.data.map tolower = n2.data.map tolower → tbl.look_up n1 = tbl.look_up n2) ∧
    (∀ (tbl : OptionTableClass) (opt : OptionClass) (n : String),
      n.data.map tolower = opt.Name.data.map tolower →
      (tbl.Add opt).look_up n = some (opt, true)) := by
  refine ⟨fun a => lexicographical_compare_irrefl a.data,
    fun a b c => lexicographical_compare_trans a.data b.data c.data,
    ci_equiv_iff, ?_, ?_, ?_⟩
  · intro a b c h1 h2
    rw [ci_equiv_iff] at h1 h2 ⊢
    rw [h1, h2]
  · intro tbl n1 n2 h
    simp only [OptionTableClass.look_up, mapFind_congr _ n1 n2 h]
  · intro tbl opt n h
    simp only [OptionTableClass.look_up, OptionTableClass.Add, mapFind_congr _ n opt.Name h,
      mapFind_mapAssign]

/-! ## BestArray.cxx: the threshold returned by `addResult` -/

theorem stepView_length (Epsilon Distance : ℚ) (Distr : ValueDistribution) :
    ∀ l : List (ℚ × ValueDistribution), (stepView Epsilon Distance Distr l).length = l.length := by
  intro l
  induction l with
  | nil => rfl
  | cons b t ih =>
    simp only [stepView]
    split_ifs
    · simp
    · simp
    · simp [ih]

theorem stepView_last_le (Epsilon Distance : ℚ) (Distr : ValueDistribution) :
    ∀ l : List (ℚ × ValueDistribution), (l.map Prod.fst).Pairwise (· ≤ ·) →
      ∀ r r0, (stepView Epsilon Distance Distr l).getLast? = some r → l.getLast? = some r0 →
        r.1 ≤ r0.1 := by
  intro l
  induction l with
  | nil => intro _ r r0 _ h0; simp at h0
  | cons b t ih =>
    intro hp r r0 hr h0
    simp only [stepView] at hr
    by_cases h1 : |Distance - b.1| < Epsilon
    · rw [if_pos h1] at hr
      cases t with
      | nil =>
        simp only [List.getLast?_singleton, Option.some.injEq] at hr h0
        rw [← hr, ← h0]
      | cons c t1 =>
        rw [List.getLast?_cons_cons] at hr h0
        rw [hr] at h0
        simp only [Option.some.injEq] at h0
        rw [h0]
    · rw [if_neg h1] at hr
      by_cases h2 : Distance < b.1
      · rw [if_pos h2] at hr
        cases t with
        | nil =>
          simp only [List.dropLast_single, List.getLast?_singleton, Option.some.injEq] at hr h0
          rw [← hr, ← h0]
          exact le_of_lt h2
        | cons c t1 =>
          have hne : (b :: c :: t1).dropLast ≠ [] := by simp [List.dropLast]
          obtain ⟨x, xs, hx⟩ := List.exists_cons_of_ne_nil hne
          rw [hx, List.getLast?_cons_cons, ← hx] at hr
          have hmem : r ∈ (b :: c :: t1).dropLast := List.mem_of_getLast?_eq_some hr
          have hsplit : (b :: c :: t1) = (b :: c :: t1).dropLast ++ [r0] := by
            exact (List.dropLast_append_getLast? r0 (Option.mem_def.2 h0)).symm
          rw [hsplit, List.map_append, List.pairwise_append] at hp
          exact hp.2.2 r.1 (List.mem_map_of_mem _ hmem) r0.1 (by simp)
      · rw [if_neg h2] at hr
        cases t with
        | nil =>
          simp only [stepView, List.getLast?_singleton, Option.some.injEq] at hr h0
          rw [← hr, ← h0]
        | cons c t1 =>
          have hne : stepView Epsilon Distance Distr (c :: t1) ≠ [] := by
            intro h
            have := stepView_length Epsilon Distance Distr (c :: t1)
            rw [h] at this
            simp at this
          obtain ⟨x, xs, hx⟩ := List.exists_cons_of_ne_nil hne
          rw [hx, List.getLast?_cons_cons, ← hx] at hr
          rw [List.getLast?_cons_cons] at h0
          simp only [List.map_cons, List.pairwise_cons] at hp
          exact ih (by simpa using hp.2) r r0 hr h0

theorem reachable_pairwise (Epsilon DBL_MAX : ℚ) (s : BestArray)
    (h : Reachable Epsilon DBL_MAX s) :
    ((s.buckets.map BestRec.view).map Prod.fst).Pairwise (· ≤ ·) := by
  have hch : List.Chain' (· ≤ ·) s.distances := by
    apply reachable_chain Epsilon DBL_MAX (· ≤ ·) _ _ _ s h
    · apply sentinels_chain
      intro k i
      push_cast
      linarith
    · intro d a _ h2
      exact not_lt.1 h2
    · intro d b _ h2
      exact le_of_lt h2
  rw [List.chain'_iff_pairwise, distances_eq_view] at hch
  exact hch

theorem threshold_step (Epsilon DBL_MAX : ℚ) (s : BestArray)
    (h : Reachable Epsilon DBL_MAX s) (hk : 1 ≤ s.size) (last : BestRec)
    (hlast : s.bestArray[s.size - 1]? = some last) (Distance : ℚ)
    (Distr : ValueDistribution) (neighbor : String) :
    ∃ r s1 last1, s.addResult Epsilon Distance Distr neighbor = some (r, s1) ∧
      s1.size = s.size ∧ s1.bestArray[s1.size - 1]? = some last1 ∧
      last1.bestDistance = r ∧ r ≤ last.bestDistance := by
  have hv := reachable_valid _ _ _ h
  obtain ⟨r, s1, h1, hsz, hv1, hviews, hr⟩ :=
    addResult_view Epsilon s Distance Distr neighbor hv hk
  have hlen : (s.buckets.map BestRec.view).length = s.size := by
    rw [List.length_map, buckets_length s hv]
  obtain ⟨last1, hb1⟩ : ∃ b, s1.bestArray[s1.size - 1]? = some b :=
    ⟨_, List.getElem?_eq_getElem (by omega)⟩
  have hbk : s1.buckets[s.size - 1]? = some last1 := by
    rw [BestArray.buckets, List.getElem?_take_of_lt (by omega), ← hsz]
    exact hb1
  have hx : (stepView Epsilon Distance Distr (s.buckets.map BestRec.view))[s.size - 1]?
      = some last1.view := by
    rw [← hviews, List.getElem?_map, hbk]
    rfl
  have hr1 : last1.bestDistance = r := by
    rw [hx] at hr
    simpa [BestRec.view] using hr
  refine ⟨r, s1, last1, h1, hsz, hb1, hr1, ?_⟩
  have hg1 : (stepView Epsilon Distance Distr (s.buckets.map BestRec.view)).getLast?
      = some last1.view := by
    rw [List.getLast?_eq_getElem?, stepView_length, hlen]
    exact hx
  have hg0 : (s.buckets.map BestRec.view).getLast? = some last.view := by
    rw [List.getLast?_eq_getElem?, hlen, List.getElem?_map, BestArray.buckets,
      List.getElem?_take_of_lt (by omega), hlast]
    rfl
  have := stepView_last_le Epsilon Distance Distr _ (reachable_pairwise _ _ s h) _ _ hg1 hg0
  simp only [BestRec.view] at this
  rw [hr1] at this
  exact this

theorem threshold_chain (Epsilon DBL_MAX : ℚ) :
    ∀ (cands : List Candidate) (s : BestArray), Reachable Epsilon DBL_MAX s → 1 ≤ s.size →
      ∀ last, s.bestArray[s.size - 1]? = some last →
        ∃ rs s1, s.addResults Epsilon cands = some (rs, s1) ∧
          List.Chain (fun a b => b ≤ a) last.bestDistance rs := by
  intro cands
  induction cands with
  | nil =>
    intro s _ _ last _
    exact ⟨[], s, rfl, List.Chain.nil⟩
  | cons c cs ih =>
    intro s h hk last hlast
    obtain ⟨r, s1, last1, h1, hsz, hl1, hd1, hle⟩ :=
      threshold_step Epsilon DBL_MAX s h hk last hlast c.Distance c.Distr c.neighbor
    have hr1 : Reachable Epsilon DBL_MAX s1 := Reachable.addResult s _ _ _ r s1 h h1
    obtain ⟨rs, s2, h2, hch⟩ := ih s1 hr1 (by omega) last1 hl1
    refine ⟨r :: rs, s2, ?_, ?_⟩
    · simp only [BestArray.addResults, h1, h2]
    · rw [hd1] at hch
      exact List.Chain.cons hle hch

/-- C23 (the rejection threshold never gets worse): in every reachable state
with `k >= 1`, whose `k`-th distance is that of bucket `k-1`, every
`addResult` call succeeds and returns a value less than or equal to that
`k`-th distance; and every sequence of `addResult` calls succeeds and returns
thresholds that start at most at that distance and never increase from one
call to the next. -/
theorem C23_threshold_monotone (Epsilon DBL_MAX : ℚ) (s : BestArray)
    (h : Reachable Epsilon DBL_MAX s) (hk : 1 ≤ s.size) :
    ∃ last, s.bestArray[s.size - 1]? = some last ∧
      (∀ (Distance : ℚ) (Distr : ValueDistribution) (neighbor : String),
        ∃ r s1, s.addResult Epsilon Distance Distr neighbor = some (r, s1) ∧
          r ≤ last.bestDistance) ∧
      (∀ cands : List Candidate,
        ∃ rs s1, s.addResults Epsilon cands = some (rs, s1) ∧
          List.Chain (fun a b => b ≤ a) last.bestDistance rs) := by
  have hv := reachable_valid _ _ _ h
  have hlast : s.bestArray[s.size - 1]? = some s.bestArray[s.size - 1] :=
    List.getElem?_eq_getElem (by omega)
  refine ⟨_, hlast, ?_, ?_⟩
  · intro Distance Distr neighbor
    obtain ⟨r, s1, _, h1, _, _, _, hle⟩ :=
      threshold_step Epsilon DBL_MAX s h hk _ hlast Distance Distr neighbor
    exact ⟨r, s1, h1, hle⟩
  · intro cands
    exact threshold_chain Epsilon DBL_MAX cands s h hk _ hlast

theorem C23_threshold_monotone_witness :
    Reachable (1 / 2) 100 exampleState ∧ 1 ≤ exampleState.size ∧
    ∃ last, exampleState.bestArray[exampleState.size - 1]? = some last ∧
      (∀ (Distance : ℚ) (Distr : ValueDistribution) (neighbor : String),
        ∃ r s1, exampleState.addResult (1 / 2) Distance Distr neighbor = some (r, s1) ∧
          r ≤ last.bestDistance) ∧
      (∀ cands : List Candidate,
        ∃ rs s1, exampleState.addResults (1 / 2) cands = some (rs, s1) ∧
          List.Chain (fun a b => b ≤ a) last.bestDistance rs) :=
  ⟨exampleState_reachable, by decide,
    C23_threshold_monotone (1 / 2) 100 exampleState exampleState_reachable (by decide)⟩

/-! ## BestArray.cxx: the inverse-linear weights -/

/-- The inverse-linear weights when the seeds are exact: with the seed
expression of `init` evaluated in exact arithmetic (`initRec`), in every
reachable state with `k >= 2` buckets and a positive `Epsilon`, the
denominator `d_{k-1} - d_0` of the `InvLinear` weight is positive, and for
every `j < k` the call `relativeWeight( j, InvLinear )` returns a weight
between 0 and 1, which is 1 for `j = 0` and 0 for `j = k-1`. The `double`
evaluation of the source gives equal seeds instead (`seedDouble_eq`). -/
theorem inv_linear_normalised_exact (Epsilon DBL_MAX : ℚ) (hpos : 0 < Epsilon) (exp : ℚ → ℚ)
    (pow : ℚ → ℚ → ℚ) (s : BestArray) (h : Reachable Epsilon DBL_MAX s) (hk : 2 ≤ s.size)
    (j : Nat) (hj : j < s.size) (alpha beta : ℚ) :
    ∃ b0 bl w, s.bestArray[0]? = some b0 ∧ s.bestArray[s.size - 1]? = some bl ∧
      0 < bl.bestDistance - b0.bestDistance ∧
      s.relativeWeight Epsilon exp pow j ⟨DecayType.InvLinear, alpha, beta⟩
        = some (Outcome.value w) ∧
      0 ≤ w ∧ w ≤ 1 ∧ (j = 0 → w = 1) ∧ (j = s.size - 1 → w = 0) := by
  have hv := reachable_valid _ _ _ h
  have h0 : s.bestArray[0]? = some s.bestArray[0] := List.getElem?_eq_getElem (by omega)
  have hjj : s.bestArray[j]? = some s.bestArray[j] := List.getElem?_eq_getElem (by omega)
  have hl : s.bestArray[s.size - 1]? = some s.bestArray[s.size - 1] :=
    List.getElem?_eq_getElem (by omega)
  have hlt := reachable_lt Epsilon DBL_MAX hpos s h 0 (s.size - 1) (by omega) (by omega)
    _ _ h0 hl
  have hden : (0 : ℚ) < (s.bestArray[s.size - 1]).bestDistance - (s.bestArray[0]).bestDistance :=
    sub_pos.2 hlt
  by_cases hj0 : 0 < j
  · have hs1 : s.size ≠ 1 := by omega
    have hs0 : ¬ s.size = 0 := by omega
    have hle1 := reachable_le Epsilon DBL_MAX s h 0 j (by omega) hj _ _ h0 hjj
    have hle2 := reachable_le Epsilon DBL_MAX s h j (s.size - 1) (by omega) (by omega)
      _ _ hjj hl
    refine ⟨_, _, ((s.bestArray[s.size - 1]).bestDistance - (s.bestArray[j]).bestDistance) /
      ((s.bestArray[s.size - 1]).bestDistance - (s.bestArray[0]).bestDistance),
      h0, hl, hden, ?_, ?_, ?_, ?_, ?_⟩
    · simp only [BestArray.relativeWeight]
      rw [if_pos ⟨hj0, hs1⟩, if_neg hs0, h0, hl, hjj]
    · exact div_nonneg (by linarith) (le_of_lt hden)
    · rw [div_le_one hden]
      linarith
    · intro hz; omega
    · intro hz
      have heq : s.bestArray[j]? = s.bestArray[s.size - 1]? := by rw [hz]
      rw [hjj, hl] at heq
      simp only [Option.some.injEq] at heq
      rw [heq, sub_self, zero_div]
  · have hjz : j = 0 := by omega
    subst hjz
    refine ⟨_, _, 1, h0, hl, hden, ?_, by norm_num, le_refl _, fun _ => rfl, ?_⟩
    · simp only [BestArray.relativeWeight]
      have hc : ¬ (0 < 0 ∧ s.size ≠ 1) := by omega
      rw [if_neg hc]
    · intro hz; omega

theorem inv_linear_normalised_exact_witness :
    Reachable (1 / 2) 100 exampleState ∧ 2 ≤ exampleState.size ∧
    ∃ b0 bl w, exampleState.bestArray[0]? = some b0 ∧
      exampleState.bestArray[exampleState.size - 1]? = some bl ∧
      0 < bl.bestDistance - b0.bestDistance ∧
      exampleState.relativeWeight (1 / 2) (fun x => x) (fun x _ => x) 1
          ⟨DecayType.InvLinear, 1, 1⟩ = some (Outcome.value w) ∧
      0 ≤ w ∧ w ≤ 1 ∧ (1 = 0 → w = 1) ∧ (1 = exampleState.size - 1 → w = 0) :=
  ⟨exampleState_reachable, by decide,
    inv_linear_normalised_exact (1 / 2) 100 (by norm_num) (fun x => x) (fun x _ => x)
      exampleState exampleState_reachable (by decide) 1 (by decide) 1 1⟩

/-! ## BestArray.cxx: the filled buckets -/

theorem stepView_front (Epsilon Distance : ℚ) (Distr : ValueDistribution)
    (hpos : 0 < Epsilon) (hD : Distr.total_items ≠ 0) :
    ∀ (real T : List (ℚ × ValueDistribution)),
      (∀ x ∈ real, x.2.total_items ≠ 0) → (∀ t ∈ T, Distance + Epsilon < t.1) →
      ∃ (real1 : List (ℚ × ValueDistribution)) (n : Nat),
        stepView Epsilon Distance Distr (real ++ T) = real1 ++ T.take n ∧
        real1.length + n = real.length + T.length ∧ n ≤ T.length ∧
        ∀ x ∈ real1, x.2.total_items ≠ 0 := by
  have hfresh : (ValueDistribution.clear.Merge Distr).total_items ≠ 0 := by
    simpa [ValueDistribution.Merge, ValueDistribution.clear] using hD
  intro real
  induction real with
  | nil =>
    intro T _ hT
    cases T with
    | nil => exact ⟨[], 0, by simp [stepView], by simp, by simp, by simp⟩
    | cons t T1 =>
      have ht := hT t (List.mem_cons_self _ _)
      have h1 : ¬ |Distance - t.1| < Epsilon := by
        rw [abs_lt]; intro h; linarith [h.1]
      have h2 : Distance < t.1 := by linarith
      refine ⟨[(Distance, ValueDistribution.clear.Merge Distr)], T1.length, ?_,
        by simp only [List.length_cons, List.length_nil]; omega, by simp, ?_⟩
      · simp only [List.nil_append, stepView, if_neg h1, if_pos h2, List.singleton_append,
          List.dropLast_eq_take, List.length_cons, Nat.add_sub_cancel]
      · intro x hx
        simp only [List.mem_singleton] at hx
        rw [hx]; exact hfresh
  | cons x xs ih =>
    intro T hreal hT
    simp only [List.cons_append, stepView, List.append_eq]
    by_cases h1 : |Distance - x.1| < Epsilon
    · rw [if_pos h1]
      refine ⟨(x.1, x.2.Merge Distr) :: xs, T.length, by simp, by simp, le_refl _, ?_⟩
      intro y hy
      rcases List.mem_cons.1 hy with h | h
      · rw [h]
        have := hreal x (List.mem_cons_self _ _)
        simp only [ValueDistribution.Merge]
        omega
      · exact hreal y (List.mem_cons_of_mem _ h)
    · rw [if_neg h1]
      by_cases h2 : Distance < x.1
      · rw [if_pos h2]
        by_cases hT0 : T = []
        · subst hT0
          refine ⟨(Distance, ValueDistribution.clear.Merge Distr) :: (x :: xs).dropLast, 0,
            by simp, by simp, by simp, ?_⟩
          intro y hy
          rcases List.mem_cons.1 hy with h | h
          · rw [h]; exact hfresh
          · exact hreal y (List.mem_of_mem_dropLast h)
        · refine ⟨(Distance, ValueDistribution.clear.Merge Distr) :: x :: xs, T.length - 1,
            ?_, ?_, by omega, ?_⟩
          · rw [← List.cons_append, List.dropLast_append_of_ne_nil _ hT0,
              List.dropLast_eq_take]
            simp
          · have : 0 < T.length := List.length_pos.2 hT0
            simp only [List.length_cons]
            omega
          · intro y hy
            rcases List.mem_cons.1 hy with h | h
            · rw [h]; exact hfresh
            · exact hreal y h
      · rw [if_neg h2]
        obtain ⟨real1, n, e1, e2, e3, e4⟩ :=
          ih T (fun y hy => hreal y (List.mem_cons_of_mem _ hy)) hT
        refine ⟨x :: real1, n, by rw [e1]; simp, by simp only [List.length_cons]; omega, e3, ?_⟩
        intro y hy
        rcases List.mem_cons.1 hy with h | h
        · rw [h]; exact hreal x (List.mem_cons_self _ _)
        · exact e4 y h

theorem sentinels_mem_ge (DBL_MAX : ℚ) (k : Nat) (t : ℚ × ValueDistribution)
    (h : t ∈ sentinels DBL_MAX k) : DBL_MAX - (k : ℚ) ≤ t.1 := by
  simp only [sentinels, List.mem_map, List.mem_range] at h
  obtain ⟨i, _, hi⟩ := h
  rw [← hi]
  have : (0 : ℚ) ≤ (i : ℚ) := Nat.cast_nonneg i
  simp only
  linarith

theorem addResults_front (Epsilon : ℚ) (hpos : 0 < Epsilon) (DBL_MAX : ℚ) (k : Nat)
    (hk : 1 ≤ k) :
    ∀ (cands : List Candidate) (s : BestArray) (real : List (ℚ × ValueDistribution)),
      s.size ≤ s.bestArray.length → s.size = k → real.length ≤ k →
      (∀ x ∈ real, x.2.total_items ≠ 0) →
      s.buckets.map BestRec.view = real ++ (sentinels DBL_MAX k).take (k - real.length) →
      (∀ c ∈ cands, c.Distr.total_items ≠ 0) →
      (∀ c ∈ cands, c.Distance + Epsilon < DBL_MAX - (k : ℚ)) →
      ∃ rs s1 real1, s.addResults Epsilon cands = some (rs, s1) ∧ s1.size = k ∧
        s1.size ≤ s1.bestArray.length ∧ real1.length ≤ k ∧
        (∀ x ∈ real1, x.2.total_items ≠ 0) ∧
        s1.buckets.map BestRec.view
          = real1 ++ (sentinels DBL_MAX k).take (k - real1.length) := by
  intro cands
  induction cands with
  | nil =>
    intro s real hv hs hl hreal hview _ _
    exact ⟨[], s, real, rfl, hs, hv, hl, hreal, hview⟩
  | cons c cs ih =>
    intro s real hv hs hl hreal hview hne hbelow
    obtain ⟨r, s1, h1, hsz, hv1, hviews, _⟩ :=
      addResult_view Epsilon s c.Distance c.Distr c.neighbor hv (by omega)
    obtain ⟨real1, n, e1, e2, e3, e4⟩ :=
      stepView_front Epsilon c.Distance c.Distr hpos (hne c (List.mem_cons_self _ _)) real
        ((sentinels DBL_MAX k).take (k - real.length)) hreal
        (fun t ht => by
          have h1 := sentinels_mem_ge DBL_MAX k t (List.mem_of_mem_take ht)
          have h2 := hbelow c (List.mem_cons_self _ _)
          linarith)
    have hlenT : ((sentinels DBL_MAX k).take (k - real.length)).length = k - real.length := by
      rw [List.length_take, sentinels_length]; omega
    rw [hlenT] at e2 e3
    have hn : n = k - real1.length := by omega
    have hview1 : s1.buckets.map BestRec.view
        = real1 ++ (sentinels DBL_MAX k).take (k - real1.length) := by
      rw [hviews, hview, e1, List.take_take, ← hn, Nat.min_eq_left e3]
    obtain ⟨rs, s2, real2, f1, f2, f3, f4, f5, f6⟩ :=
      ih s1 real1 hv1 (by omega) (by omega) e4 hview1
        (fun c1 hc1 => hne c1 (List.mem_cons_of_mem _ hc1))
        (fun c1 hc1 => hbelow c1 (List.mem_cons_of_mem _ hc1))
    refine ⟨r :: rs, s2, real2, ?_, f2, f3, f4, f5, f6⟩
    simp only [BestArray.addResults, h1, f1]

theorem takeWhile_enumFrom {α : Type} (P : α → Bool) :
    ∀ (l : List α) (n : Nat),
      ((l.enumFrom n).takeWhile fun p => P p.2).map Prod.snd = l.takeWhile P := by
  intro l
  induction l with
  | nil => intro n; rfl
  | cons a t ih =>
    intro n
    simp only [List.enumFrom_cons, List.takeWhile_cons]
    cases h : P a
    · simp
    · simp [ih]

theorem takeWhile_eq_filter {α : Type} (P : α → Bool) (l : List α) (m : Nat)
    (h1 : ∀ i b, i < m → l[i]? = some b → P b = true)
    (h2 : ∀ i b, m ≤ i → l[i]? = some b → P b = false) :
    l.takeWhile P = l.filter P := by
  induction l generalizing m with
  | nil => rfl
  | cons a t ih =>
    cases m with
    | zero =>
      have ha : P a = false := h2 0 a (le_refl _) (by simp)
      have hall : ∀ b ∈ a :: t, ¬ P b = true := by
        intro b hb
        obtain ⟨i, hi⟩ := List.mem_iff_getElem?.1 hb
        rw [h2 i b (Nat.zero_le _) hi]
        simp
      rw [List.takeWhile_cons, ha, List.filter_eq_nil_iff.2 hall]
      simp
    | succ m =>
      have ha : P a = true := h1 0 a (Nat.succ_pos _) (by simp)
      rw [List.takeWhile_cons, List.filter_cons, ha]
      simp only [if_true]
      rw [ih m (fun i b hi hb => h1 (i + 1) b (by omega) (by simpa using hb))
        (fun i b hi hb => h2 (i + 1) b (by omega) (by simpa using hb))]

/-- C30 (filled buckets form a prefix): for `k >= 1`, a positive `Epsilon`
and every sequence of candidates with non-empty distributions and distances
more than `Epsilon` below the smallest seed `DBL_MAX - k`, the run of `init`
and the `addResult` calls succeeds and ends in a state in which, for some
`m <= k`, buckets `0..m-1` have non-empty aggregates and buckets `m..k-1`
have empty aggregates and the seeds `(DBL_MAX - k) + (i - m)` as distances;
the buckets written up to the first empty one, as `toXML` does, are all the
buckets with a non-empty aggregate. -/
theorem C30_filled_front (Epsilon DBL_MAX : ℚ) (hpos : 0 < Epsilon) (p : BestArray)
    (hp : p.size ≤ p.bestArray.length) (k : Nat) (hk : 1 ≤ k) (maxB : Nat)
    (storeI showDi showDb : Bool) (cands : List Candidate)
    (hne : ∀ c ∈ cands, c.Distr.ZeroDist = false)
    (hbelow : ∀ c ∈ cands, c.Distance + Epsilon < DBL_MAX - (k : ℚ)) :
    ∃ rs s m, (p.init DBL_MAX k maxB storeI showDi showDb).bind
        (fun s0 => s0.addResults Epsilon cands) = some (rs, s) ∧ s.size = k ∧ m ≤ k ∧
      (∀ i, i < k → ∃ b, s.bestArray[i]? = some b ∧
        (i < m → b.aggregateDist.ZeroDist = false) ∧
        (m ≤ i → b.aggregateDist = ValueDistribution.clear ∧
          b.bestDistance = (DBL_MAX - (k : ℚ)) + ((i - m : Nat) : ℚ))) ∧
      s.emitted.map Prod.snd = s.buckets.filter fun b => !b.aggregateDist.ZeroDist := by
  obtain ⟨s0, h0⟩ := init_total DBL_MAX p k maxB storeI showDi showDb hp
  have i0 := init_some _ _ _ _ _ _ _ _ h0
  have v0 := init_view _ _ _ _ _ _ _ _ h0
  have hz : ∀ d : ValueDistribution, d.ZeroDist = false ↔ d.total_items ≠ 0 := by
    intro d; simp [ValueDistribution.ZeroDist]
  obtain ⟨rs, s, real, e1, e2, e3, e4, e5, e6⟩ :=
    addResults_front Epsilon hpos DBL_MAX k hk cands s0 [] i0.2.2.2.2.2.1 i0.1 (by simp)
      (by simp) (by
        rw [v0]
        simp only [List.nil_append, List.length_nil, Nat.sub_zero]
        rw [List.take_of_length_le (by rw [sentinels_length])])
      (fun c hc => (hz _).1 (hne c hc)) hbelow
  have hbucket : ∀ i, i < k → ∃ b, s.bestArray[i]? = some b ∧
      (i < real.length → b.aggregateDist.ZeroDist = false) ∧
      (real.length ≤ i → b.aggregateDist = ValueDistribution.clear ∧
        b.bestDistance = (DBL_MAX - (k : ℚ)) + ((i - real.length : Nat) : ℚ)) := by
    intro i hi
    have hil : i < s.bestArray.length := by omega
    refine ⟨s.bestArray[i], List.getElem?_eq_getElem hil, ?_⟩
    have hview : (s.buckets.map BestRec.view)[i]? = some (s.bestArray[i]).view := by
      simp only [BestArray.buckets, List.getElem?_map, List.getElem?_take]
      rw [if_pos (by omega), List.getElem?_eq_getElem hil]
      rfl
    rw [e6] at hview
    constructor
    · intro hlt
      rw [List.getElem?_append_left hlt] at hview
      have hm := List.mem_iff_getElem?.2 ⟨i, hview⟩
      exact (hz _).2 (e5 _ hm)
    · intro hge
      rw [List.getElem?_append_right hge, List.getElem?_take_of_lt (by omega),
        sentinels_getElem? DBL_MAX k _ (by omega)] at hview
      simp only [Option.some.injEq] at hview
      have h1 := congrArg Prod.fst hview
      have h2 := congrArg Prod.snd hview
      simp only [BestRec.view] at h1 h2
      exact ⟨h2.symm, h1.symm⟩
  refine ⟨rs, s, real.length, by rw [h0]; exact e1, e2, e4, hbucket, ?_⟩
  have hget : ∀ i b, s.buckets[i]? = some b → i < k ∧ s.bestArray[i]? = some b := by
    intro i b hb
    simp only [BestArray.buckets, List.getElem?_take] at hb
    by_cases hi : i < s.size
    · rw [if_pos hi] at hb
      exact ⟨by omega, hb⟩
    · rw [if_neg hi] at hb
      simp at hb
  simp only [BestArray.emitted, List.enum]
  rw [takeWhile_enumFrom (fun b => !b.aggregateDist.ZeroDist) s.buckets 0]
  apply takeWhile_eq_filter _ _ real.length
  · intro i b hi hb
    obtain ⟨hik, hb1⟩ := hget i b hb
    obtain ⟨b1, hb2, hb3, _⟩ := hbucket i hik
    rw [hb1] at hb2
    simp only [Option.some.injEq] at hb2
    rw [hb2, hb3 hi]
    rfl
  · intro i b hi hb
    obtain ⟨hik, hb1⟩ := hget i b hb
    obtain ⟨b1, hb2, _, hb3⟩ := hbucket i hik
    rw [hb1] at hb2
    simp only [Option.some.injEq] at hb2
    rw [hb2, (hb3 hi).1]
    rfl

theorem C30_filled_front_witness :
    ∃ rs s m, (BestArray.fresh.init 100 3 2 true false false).bind
        (fun s0 => s0.addResults (1 / 2) [⟨3, exampleY, "a"⟩, ⟨1, exampleX, "b"⟩])
          = some (rs, s) ∧ s.size = 3 ∧ m ≤ 3 ∧
      (∀ i, i < 3 → ∃ b, s.bestArray[i]? = some b ∧
        (i < m → b.aggregateDist.ZeroDist = false) ∧
        (m ≤ i → b.aggregateDist = ValueDistribution.clear ∧
          b.bestDistance = ((100 : ℚ) - ((3 : Nat) : ℚ)) + ((i - m : Nat) : ℚ))) ∧
      s.emitted.map Prod.snd = s.buckets.filter fun b => !b.aggregateDist.ZeroDist :=
  C30_filled_front (1 / 2) 100 (by norm_num) BestArray.fresh (by decide) 3 (by decide) 2
    true false false [⟨3, exampleY, "a"⟩, ⟨1, exampleX, "b"⟩]
    (by with_unfolding_all decide) (by with_unfolding_all decide)

/-! ## BestArray.cxx: `toXML` -/

theorem neighborLoop_eq (f : Formatting) (showDb : Bool) (best : BestRec)
    (hlen : best.bestInstances.length = best.bestDistributions.length) :
    ∀ (n m : Nat) (result : String), m + n = best.bestInstances.length →
      neighborLoop f showDb best n m result
        = some (result ++ concat (((best.bestInstances.drop m).zip
            (best.bestDistributions.drop m)).map fun p => neighborElement f showDb p.1 p.2)) := by
  intro n
  induction n with
  | zero =>
    intro m result hm
    rw [List.drop_of_length_le (by omega)]
    simp [neighborLoop, concat, String.append_empty]
  | succ n ih =>
    intro m result hm
    have h1 : m < best.bestInstances.length := by omega
    have h2 : m < best.bestDistributions.length := by omega
    rw [List.drop_eq_getElem_cons h1, List.drop_eq_getElem_cons h2]
    simp only [neighborLoop, List.getElem?_eq_getElem h1, List.getElem?_eq_getElem h2,
      List.zip_cons_cons, List.map_cons, concat]
    cases showDb with
    | true =>
      simp only [if_true]
      rw [ih (m + 1) _ (by omega)]
      simp only [neighborElement, if_true, String.append_assoc, List.zip]
    | false =>
      simp only [Bool.false_eq_true, if_false]
      rw [ih (m + 1) _ (by omega)]
      simp only [neighborElement, Bool.false_eq_true, if_false, String.append_assoc,
        String.empty_append, List.zip]

theorem toXMLLoop_eq (f : Formatting) (s : BestArray) (hv : s.size ≤ s.bestArray.length)
    (hlen : ∀ b ∈ s.bestArray, b.bestInstances.length = b.bestDistributions.length) :
    ∀ (n k : Nat) (result : String), k + n = s.size →
      toXMLLoop f s n k result
        = some (result ++ concat ((((s.buckets.drop k).enumFrom k).takeWhile
            fun p => !p.2.aggregateDist.ZeroDist).map fun p =>
              if s._storeInstances then neighborsStored f s p.1 p.2
              else neighborsPlain f s p.1 p.2)) := by
  intro n
  induction n with
  | zero =>
    intro k result hk
    rw [List.drop_of_length_le (by rw [buckets_length s hv]; omega)]
    simp [toXMLLoop, concat, String.append_empty]
  | succ n ih =>
    intro k result hk
    have h1 : k < s.bestArray.length := by omega
    have h2 : k < s.buckets.length := by rw [buckets_length s hv]; omega
    have h3 : s.buckets[k] = s.bestArray[k] := by
      simp [BestArray.buckets]
    have hb := hlen _ (List.getElem_mem h1)
    rw [List.drop_eq_getElem_cons h2, h3, List.enumFrom_cons, List.takeWhile_cons]
    have ih1 := fun r => ih (k + 1) r (by omega)
    by_cases hz : (s.bestArray[k]).aggregateDist.total_items = 0
    · have hz1 : (s.bestArray[k]).aggregateDist.ZeroDist = true := by
        simp [ValueDistribution.ZeroDist, hz]
      have hz2 : (s.bestArray[k]).totalBests = 0 := hz
      simp [toXMLLoop, List.getElem?_eq_getElem h1, hz1, hz2, concat, String.append_empty]
    · have hz1 : (s.bestArray[k]).aggregateDist.ZeroDist = false := by
        simp [ValueDistribution.ZeroDist, hz]
      have hz2 : ¬ (s.bestArray[k]).totalBests = 0 := hz
      simp only [hz1, Bool.not_false, if_true, List.map_cons, concat]
      generalize (fun p : Nat × BestRec =>
        if s._storeInstances = true then neighborsStored f s p.1 p.2
        else neighborsPlain f s p.1 p.2) = E at ih1 ⊢
      simp only [toXMLLoop, List.getElem?_eq_getElem h1, hz1, hz2, if_false,
        Bool.false_eq_true]
      cases s._storeInstances with
      | true =>
        simp only [if_true]
        rw [neighborLoop_eq f s._showDb _ hb _ 0 _ (by omega)]
        simp only [List.drop_zero]
        rw [ih1]
        by_cases hm : s.maxBests < (s.bestArray[k]).totalBests
        · simp only [neighborsStored, if_pos hm, String.append_assoc]
        · simp only [neighborsStored, if_neg hm, String.append_assoc, String.empty_append]
      | false =>
        simp only [Bool.false_eq_true, if_false]
        rw [ih1]
        cases hdb : s._showDb <;> cases hdi : s._showDi <;>
          simp only [neighborsPlain, hdb, hdi, if_true, Bool.false_eq_true, if_false,
            String.append_assoc, String.empty_append]

theorem mem_of_takeWhile {α : Type} (P : α → Bool) (x : α) :
    ∀ l : List α, x ∈ l.takeWhile P → x ∈ l := by
  intro l
  induction l with
  | nil => intro h; simp at h
  | cons a t ih =>
    intro h
    rw [List.takeWhile_cons] at h
    cases hp : P a with
    | false => rw [hp] at h; simp at h
    | true =>
      rw [hp] at h
      rcases List.mem_cons.1 h with h1 | h1
      · rw [h1]; exact List.mem_cons_self _ _
      · exact List.mem_cons_of_mem _ (ih h1)

theorem execution_lengths (Epsilon DBL_MAX : ℚ) (s : BestArray)
    (h : Execution Epsilon DBL_MAX s) :
    ∀ b ∈ s.bestArray, b.bestInstances.length = b.bestDistributions.length := by
  refine execution_forall Epsilon DBL_MAX
    (fun b => b.bestInstances.length = b.bestDistributions.length) rfl ?_ ?_ ?_ s h
  · intro numN j b0 hb0
    simp only [initRec]
    split_ifs <;> simp [hb0]
  · intro s D nb b hb
    simp only [tieRec]
    split_ifs <;> simp [hb]
  · intro s d D nb r hr
    simp only [fillRec]
    split_ifs <;> simp [hr]

/-- C22 (counterexample): the state after `init( 2, 2, false, false, false )`
on a new object and the candidates `(1, {X:1}, "a")`, `(3, {Y:2}, "b")` is a
state of a run, and `toXML` writes for it two `<neighbors>` elements that
carry the attribute `k` only, without `distance` and without `total`. -/
theorem C22_counterexample :
    Execution (1 / 2) 100 exampleNoStore ∧
    exampleNoStore.toXML exampleFormatting = some
      "<neighborset><neighbors k=\"1\"></neighbors><neighbors k=\"2\"></neighbors></neighborset>" := by
  constructor
  · have h0 : BestArray.fresh.init 100 2 2 false false false = some
        { _storeInstances := false, _showDi := false, _showDb := false, maxBests := 2, size := 2
          bestArray := [initRec 100 2 0 BestRec.new, initRec 100 2 1 BestRec.new] } := by
      with_unfolding_all decide
    exact execution_of_run (1 / 2) 100 [⟨1, exampleX, "a"⟩, ⟨3, exampleY, "b"⟩] _ [98, 3]
      exampleNoStore (Execution.init _ _ _ _ _ _ _ Execution.fresh h0)
      (by with_unfolding_all decide)
  · with_unfolding_all decide

/-- C22 (XML surface form): in every state of the life of a `BestArray`,
`toXML` returns a text that starts with `<neighborset>`, ends with
`</neighborset>` and holds in between one `<neighbors>` element for every
bucket in use before the first one with an empty aggregate. When instances
are stored the element of bucket `k` carries the attributes `k` (counted from
1), `total` and `distance`, the attribute `limited` exactly when the total
number of tied neighbours exceeds `maxBests`, and one `<neighbor>` element
for every retained label; when instances are not stored it carries the
attribute `k` only. -/
theorem C22_xml_form (Epsilon DBL_MAX : ℚ) (f : Formatting) (s : BestArray)
    (h : Execution Epsilon DBL_MAX s) :
    s.toXML f = some ("<neighborset>" ++
      concat (s.emitted.map fun p =>
        if s._storeInstances then neighborsStored f s p.1 p.2
        else neighborsPlain f s p.1 p.2) ++ "</neighborset>") ∧
    ∀ p ∈ s.emitted,
      ((p.2.bestInstances.zip p.2.bestDistributions).map fun q =>
        neighborElement f s._showDb q.1 q.2).length = p.2.bestInstances.length := by
  have hv := execution_valid _ _ _ h
  have hlen := execution_lengths _ _ _ h
  constructor
  · simp only [BestArray.toXML]
    rw [toXMLLoop_eq f s hv hlen s.size 0 _ (by omega)]
    simp only [List.drop_zero, BestArray.emitted, List.enum]
  · intro p hp
    have hmem : p.2 ∈ s.bestArray := by
      have h1 := mem_of_takeWhile _ _ _ hp
      simp only [List.enum] at h1
      obtain ⟨i, hi⟩ := List.mem_iff_getElem?.1 h1
      rw [List.getElem?_enumFrom] at hi
      cases hb : s.buckets[i]? with
      | none => rw [hb] at hi; simp at hi
      | some b =>
        rw [hb] at hi
        simp only [Option.map_some', Option.some.injEq] at hi
        rw [← hi]
        exact List.mem_of_mem_take (List.mem_iff_getElem?.2 ⟨i, hb⟩)
    simp [hlen _ hmem]

theorem C22_xml_form_witness :
    Execution (1 / 2) 100 exampleState ∧
    (exampleState.toXML exampleFormatting = some ("<neighborset>" ++
      concat (exampleState.emitted.map fun p =>
        if exampleState._storeInstances then neighborsStored exampleFormatting exampleState p.1 p.2
        else neighborsPlain exampleFormatting exampleState p.1 p.2) ++ "</neighborset>") ∧
    ∀ p ∈ exampleState.emitted,
      ((p.2.bestInstances.zip p.2.bestDistributions).map fun q =>
        neighborElement exampleFormatting exampleState._showDb q.1 q.2).length
          = p.2.bestInstances.length) :=
  ⟨exampleState_execution, C22_xml_form (1 / 2) 100 exampleFormatting exampleState
    exampleState_execution⟩

/-! ## Statistics.h: the counters -/

theorem call_bound (s : StatisticsClass) (c : StatisticsCall)
    (h1 : s._data < 2 ^ 32) (h2 : s._skipped < 2 ^ 32) (h3 : s._correct < 2 ^ 32)
    (h4 : s._tieOk < 2 ^ 32) (h5 : s._tieFalse < 2 ^ 32) (h6 : s._exact < 2 ^ 32) :
    (s.call c)._data < 2 ^ 32 ∧ (s.call c)._skipped < 2 ^ 32 ∧ (s.call c)._correct < 2 ^ 32 ∧
      (s.call c)._tieOk < 2 ^ 32 ∧ (s.call c)._tieFalse < 2 ^ 32 ∧
      (s.call c)._exact < 2 ^ 32 := by
  norm_num at h1 h2 h3 h4 h5 h6
  cases c <;>
    simp only [StatisticsClass.call, StatisticsClass.addLine, StatisticsClass.addSkipped,
      StatisticsClass.addCorrect, StatisticsClass.addTieCorrect, StatisticsClass.addTieFailure,
      StatisticsClass.addExact] <;>
    norm_num <;>
    (refine ⟨?_, ?_, ?_, ?_, ?_, ?_⟩ <;> omega)

theorem calls_count :
    ∀ (cs : List StatisticsCall) (s : StatisticsClass),
      s._data < 2 ^ 32 → s._skipped < 2 ^ 32 → s._correct < 2 ^ 32 →
      s._tieOk < 2 ^ 32 → s._tieFalse < 2 ^ 32 → s._exact < 2 ^ 32 →
      (s.calls cs)._data = (s._data + cs.count StatisticsCall.addLine) % 2 ^ 32 ∧
      (s.calls cs)._skipped = (s._skipped + cs.count StatisticsCall.addSkipped) % 2 ^ 32 ∧
      (s.calls cs)._correct = (s._correct + cs.count StatisticsCall.addCorrect) % 2 ^ 32 ∧
      (s.calls cs)._tieOk = (s._tieOk + cs.count StatisticsCall.addTieCorrect) % 2 ^ 32 ∧
      (s.calls cs)._tieFalse
        = (s._tieFalse + cs.count StatisticsCall.addTieFailure) % 2 ^ 32 ∧
      (s.calls cs)._exact = (s._exact + cs.count StatisticsCall.addExact) % 2 ^ 32 := by
  intro cs
  induction cs with
  | nil =>
    intro s h1 h2 h3 h4 h5 h6
    simp only [StatisticsClass.calls, List.foldl_nil, List.count_nil, Nat.add_zero]
    norm_num at h1 h2 h3 h4 h5 h6 ⊢
    refine ⟨?_, ?_, ?_, ?_, ?_, ?_⟩ <;> omega
  | cons c cs ih =>
    intro s h1 h2 h3 h4 h5 h6
    obtain ⟨b1, b2, b3, b4, b5, b6⟩ := call_bound s c h1 h2 h3 h4 h5 h6
    obtain ⟨e1, e2, e3, e4, e5, e6⟩ := ih (s.call c) b1 b2 b3 b4 b5 b6
    have hstep : (s.calls (c :: cs)) = (s.call c).calls cs := rfl
    rw [hstep, e1, e2, e3, e4, e5, e6]
    norm_num at h1 h2 h3 h4 h5 h6
    cases c <;>
      simp [StatisticsClass.call, StatisticsClass.addLine, StatisticsClass.addSkipped,
        StatisticsClass.addCorrect, StatisticsClass.addTieCorrect,
        StatisticsClass.addTieFailure, StatisticsClass.addExact, List.count_cons] <;>
      omega

/-- C31 (test statistics counters): a cleared `StatisticsClass` is in the
state of a newly constructed one, and after any sequence of `addLine`,
`addSkipped`, `addCorrect`, `addTieCorrect`, `addTieFailure` and `addExact`
calls on such an object each accessor returns the number of calls of its own
add operation modulo `2^32`, and `totalLines()` equals
`dataLines() + skippedLines()` modulo `2^32`. -/
theorem C31_statistics_counters (p : StatisticsClass) (cs : List StatisticsCall) :
    p.clear = StatisticsClass.new ∧
    (StatisticsClass.new.calls cs).dataLines = cs.count StatisticsCall.addLine % 2 ^ 32 ∧
    (StatisticsClass.new.calls cs).skippedLines
      = cs.count StatisticsCall.addSkipped % 2 ^ 32 ∧
    (StatisticsClass.new.calls cs).testedCorrect
      = cs.count StatisticsCall.addCorrect % 2 ^ 32 ∧
    (StatisticsClass.new.calls cs).tiedCorrect
      = cs.count StatisticsCall.addTieCorrect % 2 ^ 32 ∧
    (StatisticsClass.new.calls cs).tiedFailure
      = cs.count StatisticsCall.addTieFailure % 2 ^ 32 ∧
    (StatisticsClass.new.calls cs).exactMatches
      = cs.count StatisticsCall.addExact % 2 ^ 32 ∧
    (StatisticsClass.new.calls cs).totalLines
      = ((StatisticsClass.new.calls cs).dataLines
          + (StatisticsClass.new.calls cs).skippedLines) % 2 ^ 32 := by
  obtain ⟨e1, e2, e3, e4, e5, e6⟩ := calls_count cs StatisticsClass.new
    (by simp [StatisticsClass.new]) (by simp [StatisticsClass.new])
    (by simp [StatisticsClass.new]) (by simp [StatisticsClass.new])
    (by simp [StatisticsClass.new]) (by simp [StatisticsClass.new])
  simp only [StatisticsClass.new, Nat.zero_add] at e1 e2 e3 e4 e5 e6
  exact ⟨rfl, e1, e2, e3, e4, e5, e6, rfl⟩

/-! ## BestArray.cxx: the seeds of `init` in `double` arithmetic -/

theorem roundDouble_small (n : Nat) (h : n < 2 ^ 53) : roundDouble n = n := by
  have hl : Nat.log2 n - 52 = 0 := by
    by_cases h0 : n = 0
    · subst h0; simp [Nat.log2]
    · have := (Nat.log2_lt h0).2 h
      omega
  simp [roundDouble, hl, Nat.mod_one]

theorem log2_top (n : Nat) (h1 : 2 ^ 1023 ≤ n) (h2 : n < 2 ^ 1024) : Nat.log2 n = 1023 := by
  rw [Nat.log2_eq_log_two]
  exact (Nat.log_eq_iff (Or.inl (by decide))).2 ⟨h1, h2⟩

theorem roundDouble_below (x : Nat) (h : x < 2 ^ 970) :
    roundDouble (maxDouble - x) = maxDouble := by
  have hl : Nat.log2 (maxDouble - x) = 1023 := by
    apply log2_top
    · simp only [maxDouble]; omega
    · simp only [maxDouble]; omega
  simp only [roundDouble, hl]
  simp only [maxDouble, Nat.reduceSub]
  split_ifs <;> omega

theorem roundDouble_above (y : Nat) (h : y < 2 ^ 970) :
    roundDouble (maxDouble + y) = maxDouble := by
  have hl : Nat.log2 (maxDouble + y) = 1023 := by
    apply log2_top
    · simp only [maxDouble]; omega
    · simp only [maxDouble]; omega
  simp only [roundDouble, hl]
  simp only [maxDouble, Nat.reduceSub]
  split_ifs <;> omega

/-- Every seed of `init` is `DBL_MAX`: the `double` subtraction and addition
absorb `numN` and `i`. -/
theorem seedDouble_eq (numN i : Nat) (hn : numN < 2 ^ 32) (hi : i < numN) :
    seedDouble numN i = maxDouble := by
  have h1 : numN < 2 ^ 970 := by omega
  have h2 : i < 2 ^ 970 := by omega
  rw [seedDouble, roundDouble_below numN h1, roundDouble_above i h2]

theorem initLoopDouble_some (numN : Nat) :
    ∀ n i (arr : List BestRec), i + n ≤ arr.length →
      ∃ arr1, initLoopDouble numN n i arr = some arr1 ∧ arr1.length = arr.length ∧
        ∀ j, arr1[j]? = if i ≤ j ∧ j < i + n then (arr[j]?).map (initRecDouble numN j)
                        else arr[j]? := by
  intro n
  induction n with
  | zero =>
    intro i arr _
    refine ⟨arr, rfl, rfl, ?_⟩
    intro j
    have : ¬ (i ≤ j ∧ j < i + 0) := by omega
    rw [if_neg this]
  | succ n ih =>
    intro i arr h
    have hi : i < arr.length := by omega
    obtain ⟨arr1, h1, h2, h3⟩ := ih (i + 1) (arr.set i (initRecDouble numN i arr[i]))
      (by simp; omega)
    refine ⟨arr1, ?_, ?_, ?_⟩
    · simp only [initLoopDouble, List.getElem?_eq_getElem hi]
      exact h1
    · simpa using h2
    · intro j
      rw [h3 j]
      by_cases hj : j = i
      · subst hj
        have c1 : ¬ (j + 1 ≤ j ∧ j < j + 1 + n) := by omega
        have c2 : j ≤ j ∧ j < j + (n + 1) := by omega
        rw [if_neg c1, if_pos c2, List.getElem?_set_eq_of_lt _ hi, List.getElem?_eq_getElem hi]
        rfl
      · rw [List.getElem?_set_ne (by omega)]
        by_cases c : i + 1 ≤ j ∧ j < i + 1 + n
        · have c2 : i ≤ j ∧ j < i + (n + 1) := by omega
          rw [if_pos c, if_pos c2]
        · have c2 : ¬ (i ≤ j ∧ j < i + (n + 1)) := by omega
          rw [if_neg c, if_neg c2]

/-- What `init` establishes in `double` arithmetic: the call succeeds, the
vector is long enough, and every bucket in use holds the distance `DBL_MAX`
and an empty aggregate. -/
theorem initDouble_some (p : BestArray) (numN maxB : Nat) (storeI showDi showDb : Bool)
    (hv : p.size ≤ p.bestArray.length) (hn : numN < 2 ^ 32) :
    ∃ s, p.initDouble numN maxB storeI showDi showDb = some s ∧ s.size = numN ∧
      s.size ≤ s.bestArray.length ∧
      ∀ j, j < numN → ∃ b, s.bestArray[j]? = some b ∧
        b.bestDistance = ((maxDouble : Nat) : ℚ) ∧
        b.aggregateDist = ValueDistribution.clear := by
  simp only [BestArray.initDouble]
  generalize harr : (if p.size < numN then p.bestArray ++ List.replicate (numN - p.size) BestRec.new
             else p.bestArray) = arr
  have hb : numN ≤ arr.length := by
    rw [← harr]
    split
    · simp; omega
    · omega
  obtain ⟨arr2, e1, e2, e3⟩ := initLoopDouble_some numN numN 0 arr (by omega)
  rw [e1]
  refine ⟨_, rfl, rfl, by simp only; omega, ?_⟩
  intro j hj
  have c : 0 ≤ j ∧ j < 0 + numN := by omega
  refine ⟨initRecDouble numN j arr[j], ?_, ?_, rfl⟩
  · simp only
    rw [e3 j, if_pos c, List.getElem?_eq_getElem (by omega)]
    rfl
  · simp only [initRecDouble, seedDouble_eq numN j hn hj]

/-- C8 (seeds tie): `init( 2, .. )` on a new object, with the seeds as the
`double` arithmetic of the source computes them, leaves `DBL_MAX` in both
buckets, so the two buckets are not `Epsilon` apart for any positive
`Epsilon`. -/
theorem C8_seeds_tie :
    ∃ s b0 b1, BestArray.fresh.initDouble 2 2 true false false = some s ∧
      s.bestArray[0]? = some b0 ∧ s.bestArray[0 + 1]? = some b1 ∧
      b0.bestDistance = ((maxDouble : Nat) : ℚ) ∧ b1.bestDistance = ((maxDouble : Nat) : ℚ) ∧
      ∀ Epsilon : ℚ, 0 < Epsilon → ¬ Epsilon ≤ b1.bestDistance - b0.bestDistance := by
  obtain ⟨s, h, _, _, hb⟩ := initDouble_some BestArray.fresh 2 2 true false false
    (by decide) (by norm_num)
  obtain ⟨b0, h0, d0, _⟩ := hb 0 (by omega)
  obtain ⟨b1, h1, d1, _⟩ := hb 1 (by omega)
  refine ⟨s, b0, b1, h, h0, h1, d0, d1, ?_⟩
  intro Epsilon hpos hc
  rw [d0, d1, sub_self] at hc
  linarith

/-- C16 (counterexample): after `init( 2, .. )` on a new object, with the
seeds as the `double` arithmetic of the source computes them,
`relativeWeight( 0, InvLinear )` returns 1 while `d_1 - d_0` is 0, so the
quotient `(d_1 - d_0) / (d_1 - d_0)` of the claim is `0/0`. -/
theorem C16_counterexample :
    ∃ s b0 b1, BestArray.fresh.initDouble 2 2 true false false = some s ∧
      s.bestArray[0]? = some b0 ∧ s.bestArray[s.size - 1]? = some b1 ∧
      s.relativeWeight (1 / 2) (fun x => x) (fun x _ => x) 0 ⟨DecayType.InvLinear, 1, 1⟩
        = some (Outcome.value 1) ∧
      b1.bestDistance - b0.bestDistance = 0 := by
  obtain ⟨s, h, hs, _, hb⟩ := initDouble_some BestArray.fresh 2 2 true false false
    (by decide) (by norm_num)
  obtain ⟨b0, h0, d0, _⟩ := hb 0 (by omega)
  obtain ⟨b1, h1, d1, _⟩ := hb 1 (by omega)
  refine ⟨s, b0, b1, h, h0, by rw [hs]; exact h1, ?_, by rw [d0, d1, sub_self]⟩
  simp [BestArray.relativeWeight]

/-- C16 (inverse-linear decay weight): for every state with `k` buckets and
every `j < k`, `relativeWeight( j, InvLinear )` equals 1 when `j = 0` or
`k = 1`; and whenever `d_{k-1}` differs from `d_0` it equals
`(d_{k-1} - d_j) / (d_{k-1} - d_0)` when `k > 1` and 1 when `k = 1`, where
`d_i` is the `bestDistance` of bucket `i`. -/
theorem C16_inv_linear (Epsilon : ℚ) (exp : ℚ → ℚ) (pow : ℚ → ℚ → ℚ) (s : BestArray)
    (hv : s.size ≤ s.bestArray.length) (j : Nat) (hj : j < s.size) (alpha beta : ℚ) :
    ∃ b0 bj bl, s.bestArray[0]? = some b0 ∧ s.bestArray[j]? = some bj ∧
      s.bestArray[s.size - 1]? = some bl ∧
      (j = 0 ∨ s.size = 1 →
        s.relativeWeight Epsilon exp pow j ⟨DecayType.InvLinear, alpha, beta⟩
          = some (Outcome.value 1)) ∧
      (bl.bestDistance ≠ b0.bestDistance →
        s.relativeWeight Epsilon exp pow j ⟨DecayType.InvLinear, alpha, beta⟩
          = some (Outcome.value (if s.size = 1 then 1 else
              (bl.bestDistance - bj.bestDistance) / (bl.bestDistance - b0.bestDistance)))) := by
  have h0 : s.bestArray[0]? = some s.bestArray[0] := List.getElem?_eq_getElem (by omega)
  have hjj : s.bestArray[j]? = some s.bestArray[j] := List.getElem?_eq_getElem (by omega)
  have hl : s.bestArray[s.size - 1]? = some s.bestArray[s.size - 1] :=
    List.getElem?_eq_getElem (by omega)
  refine ⟨_, _, _, h0, hjj, hl, ?_, ?_⟩
  · intro hc
    simp only [BestArray.relativeWeight]
    have hn : ¬ (0 < j ∧ s.size ≠ 1) := by omega
    rw [if_neg hn]
  · intro hne
    simp only [BestArray.relativeWeight]
    by_cases hj0 : 0 < j
    · have hs1 : s.size ≠ 1 := by omega
      have hs0 : ¬ s.size = 0 := by omega
      rw [if_pos ⟨hj0, hs1⟩, if_neg hs0, h0, hl, hjj, if_neg hs1]
    · have hjz : j = 0 := by omega
      subst hjz
      have hc : ¬ (0 < 0 ∧ s.size ≠ 1) := by omega
      rw [if_neg hc]
      by_cases hs1 : s.size = 1
      · rw [if_pos hs1]
      · rw [if_neg hs1, div_self (sub_ne_zero.2 hne)]

theorem C16_inv_linear_witness :
    exampleState.size ≤ exampleState.bestArray.length ∧ 1 < exampleState.size ∧
    ∃ b0 bj bl, exampleState.bestArray[0]? = some b0 ∧ exampleState.bestArray[1]? = some bj ∧
      exampleState.bestArray[exampleState.size - 1]? = some bl ∧
      (1 = 0 ∨ exampleState.size = 1 →
        exampleState.relativeWeight (1 / 2) (fun x => x) (fun x _ => x) 1
            ⟨DecayType.InvLinear, 1, 1⟩ = some (Outcome.value 1)) ∧
      (bl.bestDistance ≠ b0.bestDistance →
        exampleState.relativeWeight (1 / 2) (fun x => x) (fun x _ => x) 1
            ⟨DecayType.InvLinear, 1, 1⟩
          = some (Outcome.value (if exampleState.size = 1 then 1 else
              (bl.bestDistance - bj.bestDistance) / (bl.bestDistance - b0.bestDistance)))) :=
  ⟨by decide, by decide,
    C16_inv_linear (1 / 2) (fun x => x) (fun x _ => x) exampleState (by decide) 1 (by decide)
      1 1⟩

/-- C29 (division by zero): after `init( 2, .. )` on a new object, with the
seeds as the `double` arithmetic of the source computes them, the denominator
`d_1 - d_0` of the `InvLinear` weight is 0, and `relativeWeight( 1, InvLinear )`
takes the branch that divides by it. -/
theorem C29_zero_denominator :
    ∃ s b0 b1, BestArray.fresh.initDouble 2 2 true false false = some s ∧ s.size = 2 ∧
      s.bestArray[0]? = some b0 ∧ s.bestArray[s.size - 1]? = some b1 ∧
      b1.bestDistance - b0.bestDistance = 0 ∧
      s.relativeWeight (1 / 2) (fun x => x) (fun x _ => x) 1 ⟨DecayType.InvLinear, 1, 1⟩
        = some (Outcome.value ((b1.bestDistance - b1.bestDistance) /
            (b1.bestDistance - b0.bestDistance))) := by
  obtain ⟨s, h, hs, _, hb⟩ := initDouble_some BestArray.fresh 2 2 true false false
    (by decide) (by norm_num)
  obtain ⟨b0, h0, d0, _⟩ := hb 0 (by omega)
  obtain ⟨b1, h1, d1, _⟩ := hb 1 (by omega)
  have hl : s.bestArray[s.size - 1]? = some b1 := by rw [hs]; exact h1
  refine ⟨s, b0, b1, h, hs, h0, hl, by rw [d0, d1, sub_self], ?_⟩
  simp only [BestArray.relativeWeight]
  have hc : 0 < 1 ∧ s.size ≠ 1 := by omega
  have hz : ¬ s.size = 0 := by omega
  rw [if_pos hc, if_neg hz, h0, hl]
  have h1' : s.bestArray[1]? = some b1 := h1
  rw [h1']

/-! ## Options.h: a line that addresses entry `Size` of a metric array -/

/-- C15 (a write outside the named option): on the table that holds the
metric array option `m` over 3 entries, the line `m: 3=1` splits into the
name `m` and the value `3=1`, the index 3 passes the range check of
`set_option`, and `SetOption` writes `TA[3]`, beyond the three entries that
are the content of the option `m`. -/
theorem C15_metric_line :
    split_line exampleTiCC "m: 3=1" "" "" = some ("m", "3=1") ∧
      exampleMetricTable.look_up "m"
        = some (OptionClass.MetricArrayOption "m" [0, 0, 0] 3 0, true) ∧
      exampleMetricTable.SetOption exampleTiCC "m: 3=1" = none := by
  with_unfolding_all decide

end Timbl
